import Mathlib

/-!
Verification of the bibliographic deduplication engine
(`scripts/processors/book_matcher.py`): title normalization, pairwise fuzzy
matching (`BookMatcher`), and the tiered in-memory index (`BookIndex`).

Strings are modelled as `List Char`.  Python float arithmetic on similarity
scores is modelled as exact rational arithmetic via the unnormalized fraction
type `PRat` (all scores here are short arithmetic over small fractions, where
the float rounding error is far below every decision threshold).  The Python
`re` patterns used by the source are reproduced by a small regex engine with
Python's backtracking preference order (greedy quantifiers, leftmost
alternative first, leftmost-match repeated substitution).
-/

abbrev Str := List Char

namespace PyRe

/-- Regular-expression abstract syntax, covering exactly the constructs used by
the Python patterns in the matcher: character classes, greedy star/plus over a
class, option, alternation, concatenation, and the word-boundary assertion. -/
inductive RE where
  | eps
  | cls (p : Char → Bool)
  | starC (p : Char → Bool)
  | plusC (p : Char → Bool)
  | opt (r : RE)
  | alt (a b : RE)
  | cat (a b : RE)
  | wb

/-- Word character for the purposes of Python's `\b` and `\w` over the text
domain of this matcher: ASCII alphanumerics, underscore, and the non-ASCII
letter/digit ranges that occur in book titles (Latin supplements, kana,
CJK ideographs, full-width alphanumerics). -/
def pyWordChar (c : Char) : Bool :=
  (('a' ≤ c && c ≤ 'z') || ('A' ≤ c && c ≤ 'Z') || ('0' ≤ c && c ≤ '9') || c = '_') ||
  (0x00C0 ≤ c.toNat && c.toNat ≤ 0x024F) ||
  (0x3040 ≤ c.toNat && c.toNat ≤ 0x30FF) ||
  (0x4E00 ≤ c.toNat && c.toNat ≤ 0x9FFF) ||
  (0xFF10 ≤ c.toNat && c.toNat ≤ 0xFF19) ||
  (0xFF21 ≤ c.toNat && c.toNat ≤ 0xFF3A) ||
  (0xFF41 ≤ c.toNat && c.toNat ≤ 0xFF5A)

def isWordOpt : Option Char → Bool
  | none => false
  | some c => pyWordChar c

/-- Greedy alternatives for a starred character class: all ways to consume a
prefix of the maximal matching run, longest first (Python's backtracking
preference order). Each alternative records the last character consumed and
the remaining input. -/
def starAlts (p : Char → Bool) (prev : Option Char) : Str → List (Option Char × Str)
  | [] => [(prev, [])]
  | c :: t =>
    if p c then starAlts p (some c) t ++ [(prev, c :: t)]
    else [(prev, c :: t)]

/-- All ways a regex can match a prefix of the input, in Python's backtracking
preference order (greedy quantifiers, leftmost alternative first). Each result
is the last character consumed so far (context for `\b`) and the remaining
input. -/
def mAll : RE → Option Char → Str → List (Option Char × Str)
  | .eps, prev, s => [(prev, s)]
  | .cls p, _, s =>
    match s with
    | [] => []
    | c :: t => if p c then [(some c, t)] else []
  | .starC p, prev, s => starAlts p prev s
  | .plusC p, _, s =>
    match s with
    | [] => []
    | c :: t => if p c then starAlts p (some c) t else []
  | .opt r, prev, s => mAll r prev s ++ [(prev, s)]
  | .alt a b, prev, s => mAll a prev s ++ mAll b prev s
  | .cat a b, prev, s => (mAll a prev s).flatMap (fun pr => mAll b pr.1 pr.2)
  | .wb, prev, s => if isWordOpt prev != isWordOpt s.head? then [(prev, s)] else []

/-- Repeated leftmost-match substitution, as `re.sub`: replace the leftmost
match and continue scanning after it.  Fuel bounds the recursion;
`length s + 1` steps always suffice because every step either consumes an
input character or consumes a non-empty match. -/
def subGo (re : RE) (repl : Str) : Nat → Option Char → Str → Str
  | 0, _, s => s
  | f + 1, prev, s =>
    match (mAll re prev s).head? with
    | some (p2, rem) =>
      if rem.length = s.length then
        match s with
        | [] => repl
        | c :: t => repl ++ c :: subGo re repl f (some c) t
      else repl ++ subGo re repl f p2 rem
    | none =>
      match s with
      | [] => []
      | c :: t => c :: subGo re repl f (some c) t

/-- Python `re.sub(pattern, repl, s)` with a constant replacement string. -/
def pySub (re : RE) (repl : Str) (s : Str) : Str :=
  subGo re repl (s.length + 1) none s

/-- ASCII lower-casing, which is all the case folding the matcher's text
operations exercise (`str.lower`, `re.IGNORECASE`). -/
def lowerChar (c : Char) : Char :=
  if 'A' ≤ c && c ≤ 'Z' then Char.ofNat (c.toNat + 32) else c

def upperChar (c : Char) : Char :=
  if 'a' ≤ c && c ≤ 'z' then Char.ofNat (c.toNat - 32) else c

/-- Case-insensitive single character (for `re.IGNORECASE` patterns). -/
def ciC (c : Char) : RE := .cls (fun x => lowerChar x = lowerChar c)

/-- Exact single character. -/
def exC (c : Char) : RE := .cls (fun x => x = c)

def catL (rs : List RE) : RE := rs.foldr .cat .eps

def altL : List RE → RE
  | [] => .cls (fun _ => false)
  | [r] => r
  | r :: rs => .alt r (altL rs)

/-- Case-insensitive literal string. -/
def lit (s : String) : RE := catL (s.data.map ciC)

/-- Index of the first occurrence of `sep` as a contiguous substring. -/
def findSub (sep : Str) : Str → Option Nat
  | [] => if sep = [] then some 0 else none
  | c :: t => if sep.isPrefixOf (c :: t) then some 0 else (findSub sep t).map (· + 1)

end PyRe

open PyRe

/-- Python `\s` over the text domain: ASCII whitespace plus the Unicode
whitespace characters. -/
def isPySpace (c : Char) : Bool :=
  c = ' ' || c = '\t' || c = '\n' || c = '\r' ||
  c.toNat = 0x0B || c.toNat = 0x0C ||
  (0x1C ≤ c.toNat && c.toNat ≤ 0x1F) ||
  c.toNat = 0x85 || c.toNat = 0xA0 || c.toNat = 0x1680 ||
  (0x2000 ≤ c.toNat && c.toNat ≤ 0x200A) ||
  c.toNat = 0x2028 || c.toNat = 0x2029 || c.toNat = 0x202F ||
  c.toNat = 0x205F || c.toNat = 0x3000

/-- Python `\d` over the text domain: ASCII digits plus full-width digits. -/
def isPyDigit (c : Char) : Bool :=
  ('0' ≤ c && c ≤ '9') || (0xFF10 ≤ c.toNat && c.toNat ≤ 0xFF19)

/-- Python `str.strip()`: remove leading and trailing whitespace. -/
def pyStrip (s : Str) : Str :=
  ((s.dropWhile isPySpace).reverse.dropWhile isPySpace).reverse

/-- Helper for `pySplitWs`: accumulates the current word (reversed). -/
def pySplitWsAux : Str → Str → List Str
  | acc, [] => if acc = [] then [] else [acc.reverse]
  | acc, c :: t =>
    if isPySpace c then
      if acc = [] then pySplitWsAux [] t else acc.reverse :: pySplitWsAux [] t
    else pySplitWsAux (c :: acc) t

/-- Python `str.split()` with no argument: maximal runs of non-whitespace. -/
def pySplitWs (s : Str) : List Str := pySplitWsAux [] s

/-! ## Exact rational arithmetic standing in for Python floats -/

/-- Unnormalized fraction: the similarity scores of the matcher, modelled as
exact rationals (kernel-computable, unlike normalized `Rat` arithmetic).
The denominator is kept positive by every operation below. -/
structure PRat where
  num : Int
  den : Int
deriving DecidableEq, Repr

namespace PRat

def ofInt (n : Int) : PRat := ⟨n, 1⟩

def add (a b : PRat) : PRat := ⟨a.num * b.den + b.num * a.den, a.den * b.den⟩

def mul (a b : PRat) : PRat := ⟨a.num * b.num, a.den * b.den⟩

/-- Comparison by cross-multiplication (correct when denominators are
positive, which every value built by the matcher satisfies). -/
def ble (a b : PRat) : Bool := decide (a.num * b.den ≤ b.num * a.den)

def blt (a b : PRat) : Bool := decide (a.num * b.den < b.num * a.den)

/-- Python `max(x, y)`. -/
def pmax (a b : PRat) : PRat := if ble b a then a else b

/-- Python `min(x, y)`. -/
def pmin (a b : PRat) : PRat := if ble a b then a else b

/-- The rational value denoted by the fraction. -/
def toRat (a : PRat) : ℚ := (a.num : ℚ) / (a.den : ℚ)

/-- Positivity of the denominator: the invariant under which cross
multiplication is a faithful comparison. -/
def Pos (a : PRat) : Prop := 0 < a.den

end PRat

/-! ## TitleNormalizer -/

namespace TitleNormalizer

/-- The explicit full-width-to-half-width conversion of
`TitleNormalizer._fullwidth_to_halfwidth`: the full-width ASCII block
U+FF01..U+FF5E shifts down by 0xFEE0 and the ideographic space U+3000 becomes
an ASCII space. -/
def fwChar (c : Char) : Char :=
  if 0xFF01 ≤ c.toNat && c.toNat ≤ 0xFF5E then Char.ofNat (c.toNat - 0xFEE0)
  else if c.toNat = 0x3000 then ' ' else c

def fullwidthToHalfwidth (s : Str) : Str := s.map fwChar

/-- Canonical composition of a base letter with a following combining grave
or acute accent (U+0300/U+0301), for the Latin vowels — the canonical
base+mark pairs of the text domain modelled here.  `none` when the pair does
not compose. -/
def composePair (a m : Char) : Option Char :=
  if m.toNat = 0x300 then
    match a with
    | 'a' => some 'à' | 'e' => some 'è' | 'i' => some 'ì' | 'o' => some 'ò' | 'u' => some 'ù'
    | 'A' => some 'À' | 'E' => some 'È' | 'I' => some 'Ì' | 'O' => some 'Ò' | 'U' => some 'Ù'
    | _ => none
  else if m.toNat = 0x301 then
    match a with
    | 'a' => some 'á' | 'e' => some 'é' | 'i' => some 'í' | 'o' => some 'ó' | 'u' => some 'ú'
    | 'A' => some 'Á' | 'E' => some 'É' | 'I' => some 'Í' | 'O' => some 'Ó' | 'U' => some 'Ú'
    | _ => none
  else none

/-- One left-to-right canonical-composition pass: a base character followed by
a modelled combining mark becomes the precomposed character.  The precomposed
letters do not compose further with the modelled marks, so one pass is exact
on this domain. -/
def nfkcCompose : Str → Str
  | [] => []
  | [a] => [a]
  | a :: m :: t =>
    match composePair a m with
    | some c => c :: nfkcCompose t
    | none => a :: nfkcCompose (m :: t)

/-- Model of `unicodedata.normalize('NFKC', text)` on the text domain of this
pipeline: the full-width compatibility folding (which the source's own step 2,
`_fullwidth_to_halfwidth`, re-applies immediately afterwards) followed by
canonical composition of the modelled base+combining-mark pairs.  Canonical
composition is what makes NFKC sequence-dependent: an edition-strip splice can
juxtapose a base letter with a combining mark, which a second pass then
composes.  Other compatibility foldings are single-character and cannot be
created by splicing, and do not occur in the text exercised below. -/
def nfkcApprox (s : Str) : Str := nfkcCompose (s.map fwChar)

/-- `BRACKET_MAP`, in source (dict insertion) order.  Every key and value is a
single character, so Python's `str.replace` is a character map. -/
def bracketPairs : List (Char × Char) :=
  [('（', '('), ('）', ')'), ('【', '['), ('】', ']'), ('［', '['), ('］', ']'),
   ('〔', '['), ('〕', ']'), ('｛', '\x7b'), ('｝', '\x7d'), ('〈', '<'), ('〉', '>'),
   ('《', '<'), ('》', '>'), ('「', '"'), ('」', '"'), ('『', '"'), ('』', '"'),
   ('“', '"'), ('”', '"'), ('‘', '\''), ('’', '\'')]

def bracketFold (s : Str) : Str :=
  bracketPairs.foldl (fun t p => t.map (fun c => if c = p.1 then p.2 else c)) s

/-- Python `str.replace` with a single-character needle and a string
replacement. -/
def replaceChar (c : Char) (v : Str) (s : Str) : Str :=
  s.flatMap (fun x => if x = c then v else [x])

/-- `KANJI_NUMBERS`, in source order. -/
def kanjiPairs : List (Char × Str) :=
  [('一', "1".data), ('二', "2".data), ('三', "3".data), ('四', "4".data), ('五', "5".data),
   ('六', "6".data), ('七', "7".data), ('八', "8".data), ('九', "9".data), ('十', "10".data),
   ('〇', "0".data), ('零', "0".data)]

def kanjiFold (s : Str) : Str :=
  kanjiPairs.foldl (fun t p => replaceChar p.1 p.2 t) s

def ws0 : RE := .starC isPySpace
def ws1 : RE := .plusC isPySpace
def dig1 : RE := .plusC isPyDigit
def ordSuf : RE := altL [lit "st", lit "nd", lit "rd", lit "th"]

/-- The `,?\s*` prelude shared by most `EDITION_PATTERNS`. -/
def cEd (r : RE) : RE := catL [.opt (exC ','), ws0, r]

/-- The character class `[0-9０-９一二三四五六七八九十]` of the Japanese
edition patterns. -/
def kanjiDigit (c : Char) : Bool :=
  isPyDigit c || c ∈ ['一', '二', '三', '四', '五', '六', '七', '八', '九', '十']

/-- `EDITION_PATTERNS`, in source order, all applied with `re.IGNORECASE`. -/
def editionPatterns : List RE :=
  [ cEd (catL [dig1, ordSuf, ws1, lit "edition"])
  , cEd (catL [dig1, ordSuf, ws1, lit "ed", .opt (exC '.')])
  , cEd (catL [lit "edition", ws1, dig1])
  , cEd (catL [dig1, ciC 'e', .wb])
  , cEd (catL [lit "first", ws1, lit "edition"])
  , cEd (catL [lit "second", ws1, lit "edition"])
  , cEd (catL [lit "third", ws1, lit "edition"])
  , cEd (catL [lit "fourth", ws1, lit "edition"])
  , cEd (catL [lit "fifth", ws1, lit "edition"])
  , cEd (catL [lit "revised", ws1, lit "edition"])
  , cEd (catL [lit "updated", ws1, lit "edition"])
  , cEd (catL [lit "new", ws1, lit "edition"])
  , cEd (catL [ciC '第', ws0, .plusC kanjiDigit, ws0, ciC '版'])
  , cEd (catL [lit "改訂", ws0, .starC kanjiDigit, ws0, ciC '版'])
  , cEd (lit "新版")
  , cEd (catL [lit "増補", ws0, ciC '版'])
  , cEd (lit "改訂新版")
  , catL [exC '【', .starC (fun c => c != '】'), ciC '版', .starC (fun c => c != '】'), exC '】']
  , catL [exC '[', .starC (fun c => c != ']'), ciC '版', .starC (fun c => c != ']'), exC ']']
  ]

/-- Step 5 of `normalize`: remove every edition pattern, one `re.sub` per
pattern, in order. -/
def editionStrip (s : Str) : Str :=
  editionPatterns.foldl (fun u re => pySub re [] u) s

def dashCl (c : Char) : Bool := c ∈ ['‐', '‑', '‒', '–', '—', '―', '−']

def dquoteCl (c : Char) : Bool := c ∈ ['“', '”', '「', '」', '『', '』']

def squoteCl (c : Char) : Bool := c = '‘' || c = '’' || c.toNat = 0x60

def midDotCl (c : Char) : Bool := c ∈ ['・', '：', '；', '･']

def ampRE : RE := catL [ws0, exC '&', ws0]

def colonRE : RE := catL [ws0, exC ':', ws0]

/-- `TitleNormalizer._normalize_punctuation`. -/
def normalizePunctuation (s : Str) : Str :=
  let s := pySub (.cls dashCl) ['-'] s
  let s := pySub (.cls dquoteCl) ['"'] s
  let s := pySub (.cls squoteCl) ['\''] s
  let s := replaceChar '．' ['.'] s
  let s := replaceChar '，' [','] s
  let s := replaceChar '、' [','] s
  let s := replaceChar '。' ['.'] s
  let s := pySub ampRE " and ".data s
  let s := pySub (.cls midDotCl) [' '] s
  pySub colonRE ": ".data s

/-- Step 7 of `normalize`: collapse whitespace runs to single spaces and
strip. -/
def wsCollapse (s : Str) : Str := pyStrip (pySub ws1 [' '] s)

def parenRE : RE := catL [exC '(', .starC (fun c => c != ')'), exC ')']

def sqbrRE : RE := catL [exC '[', .starC (fun c => c != ']'), exC ']']

def angleRE : RE := catL [exC '<', .starC (fun c => c != '>'), exC '>']

/-- Step 9 (aggressive): strip a leading article, trying `the`, `a`, `an` in
order on the running text. -/
def articleFold (s : Str) : Str :=
  ["the ", "a ", "an "].foldl
    (fun t a => if a.data.isPrefixOf t then t.drop a.data.length else t) s

/-- `SUBTITLE_SEPARATORS`, in source order. -/
def subtitleSeps : List Str :=
  [": ".data, " : ".data, " - ".data, " – ".data, " — ".data, " | ".data,
   "／".data, " / ".data]

/-- Step 10 (aggressive): truncate at the first subtitle separator found,
separators tried in list order. -/
def subtitleCut (s : Str) : Str :=
  match subtitleSeps.find? (fun sep => (findSub sep s).isSome) with
  | some sep =>
    match findSub sep s with
    | some i => s.take i
    | none => s
  | none => s

/-- Character action of `bracketFold` (the 22 single-character replacements
composed in source order). -/
def brCharFold (c : Char) : Char :=
  bracketPairs.foldl (fun x p => if x = p.1 then p.2 else x) c

/-- `TitleNormalizer.normalize(title)` with the `aggressive` flag. -/
def normalize (aggressive : Bool) (title : Str) : Str :=
  if title = [] then [] else
  let t := nfkcApprox title
  let t := fullwidthToHalfwidth t
  let t := bracketFold t
  let t := kanjiFold t
  let t := editionStrip t
  let t := t.map lowerChar
  let t := normalizePunctuation t
  let t := wsCollapse t
  if aggressive then
    let t := pySub parenRE [] t
    let t := pySub sqbrRE [] t
    let t := pySub angleRE [] t
    let t := articleFold t
    let t := subtitleCut t
    pySub ws1 [] t
  else wsCollapse t

/-- `TitleNormalizer._normalize_author`. -/
def honorificRE : RE :=
  catL [.wb,
        altL [lit "dr", lit "prof", lit "mr", lit "ms", lit "mrs", lit "jr", lit "sr",
              lit "phd", lit "md", lit "cfa", lit "cpa"],
        .opt (exC '.'), .wb]

def normalizeAuthor (a : Str) : Str :=
  let t := nfkcApprox a
  let t := fullwidthToHalfwidth t
  let t := t.map lowerChar
  let t := pySub honorificRE [] t
  let t := pySub (.cls (fun c => !(pyWordChar c) && !(isPySpace c))) [] t
  pySub ws1 [] t

end TitleNormalizer


/-! ## difflib.SequenceMatcher (as used: no junk predicate, default autojunk) -/

namespace SeqM

/-- Ascending list of the positions of `c` in `b` (the `b2j` posting list
before autojunk filtering). -/
def occIdx (c : Char) (b : Str) : List Nat :=
  (List.range b.length).filter (fun j => b.get? j = some c)

/-- The autojunk rule of `SequenceMatcher.__chain_b`: when `b` has at least
200 elements, characters accounting for more than `1 + len(b) // 100`
occurrences are "popular" and dropped from the posting map. -/
def popularChars (b : Str) : List Char :=
  if 200 ≤ b.length then b.dedup.filter (fun c => b.length / 100 + 1 < b.count c)
  else []

def b2j (b : Str) (c : Char) : List Nat :=
  if c ∈ popularChars b then [] else occIdx c b

def isBJunk (b : Str) (c : Char) : Bool := decide (c ∈ popularChars b)

/-- Result triple of `find_longest_match`. -/
structure FLRes where
  besti : Nat
  bestj : Nat
  bestsize : Nat
deriving DecidableEq, Repr

/-- Inner loop of `find_longest_match` over the posting list of `a[i]`:
`k = j2len.get(j-1, 0) + 1`, keep the block iff strictly longer. -/
def flmInner (i : Nat) (j2len : Nat → Nat) (js : List Nat) (st : FLRes) : FLRes :=
  js.foldl
    (fun s j =>
      let k := if j = 0 then 1 else j2len (j - 1) + 1
      if s.bestsize < k then ⟨i + 1 - k, j + 1 - k, k⟩ else s)
    st

/-- One outer-loop round of `find_longest_match` (index `i` into `a`),
threading the best block and the `j2len` table (as a total function that is
zero off its keys). -/
def flmRound (a b : Str) (blo bhi : Nat) (p : FLRes × (Nat → Nat)) (i : Nat) :
    FLRes × (Nat → Nat) :=
  let js := (b2j b (a.getD i ' ')).filter (fun j => blo ≤ j && j < bhi)
  let old := p.2
  let nj : Nat → Nat := fun j =>
    if js.contains j then (if j = 0 then 1 else old (j - 1) + 1) else 0
  (flmInner i old js p.1, nj)

/-- Left-extension loop of `find_longest_match`; `junk` selects the
non-junk (`false`) or junk (`true`) variant. -/
def extLeft (junk : Bool) (a b : Str) (alo blo : Nat) : Nat → FLRes → FLRes
  | 0, r => r
  | f + 1, r =>
    if alo < r.besti && blo < r.bestj &&
       (isBJunk b (b.getD (r.bestj - 1) ' ') = junk) &&
       (a.getD (r.besti - 1) ' ' = b.getD (r.bestj - 1) ' ')
    then extLeft junk a b alo blo f ⟨r.besti - 1, r.bestj - 1, r.bestsize + 1⟩
    else r

/-- Right-extension loop of `find_longest_match`. -/
def extRight (junk : Bool) (a b : Str) (ahi bhi : Nat) : Nat → FLRes → FLRes
  | 0, r => r
  | f + 1, r =>
    if r.besti + r.bestsize < ahi && r.bestj + r.bestsize < bhi &&
       (isBJunk b (b.getD (r.bestj + r.bestsize) ' ') = junk) &&
       (a.getD (r.besti + r.bestsize) ' ' = b.getD (r.bestj + r.bestsize) ' ')
    then extRight junk a b ahi bhi f ⟨r.besti, r.bestj, r.bestsize + 1⟩
    else r

/-- `SequenceMatcher.find_longest_match(alo, ahi, blo, bhi)`. -/
def findLongestMatch (a b : Str) (alo ahi blo bhi : Nat) : FLRes :=
  let init : FLRes × (Nat → Nat) := (⟨alo, blo, 0⟩, fun _ => 0)
  let main := ((List.range' alo (ahi - alo)).foldl (flmRound a b blo bhi) init).1
  let f := a.length + b.length + 1
  let r := extLeft false a b alo blo f main
  let r := extRight false a b ahi bhi f r
  let r := extLeft true a b alo blo f r
  extRight true a b ahi bhi f r

/-- Total size of the matching blocks of `get_matching_blocks`, via the
recursive region split around each longest match. -/
def mbSum (a b : Str) : Nat → Nat → Nat → Nat → Nat → Nat
  | 0, _, _, _, _ => 0
  | f + 1, alo, ahi, blo, bhi =>
    if alo < ahi && blo < bhi then
      let m := findLongestMatch a b alo ahi blo bhi
      if 0 < m.bestsize then
        mbSum a b f alo m.besti blo m.bestj + m.bestsize +
          mbSum a b f (m.besti + m.bestsize) ahi (m.bestj + m.bestsize) bhi
      else 0
    else 0

def matchesTotal (a b : Str) : Nat :=
  mbSum a b (a.length + b.length + 1) 0 a.length 0 b.length

/-- `SequenceMatcher.ratio()`: `2*M / T`, and 1.0 when both are empty. -/
def ratioPR (a b : Str) : PRat :=
  let total := a.length + b.length
  if total = 0 then ⟨1, 1⟩ else ⟨2 * (matchesTotal a b : Int), (total : Int)⟩

end SeqM

/-! ## BookMatcher -/

namespace BookMatcher

/-- `BookMatcher._calculate_similarity`: 0.6 × sequence ratio + 0.4 × token
Jaccard, 0.0 when either string is empty. -/
def calcSimilarity (ta tb : Str) : PRat :=
  if ta.isEmpty || tb.isEmpty then ⟨0, 1⟩ else
  let base := SeqM.ratioPR ta tb
  let tokA := (pySplitWs ta).dedup
  let tokB := (pySplitWs tb).dedup
  let interLen := (tokA.filter (fun t => tokB.contains t)).length
  let unionLen := (tokA ++ tokB.filter (fun t => !tokA.contains t)).length
  let jac : PRat :=
    if !tokA.isEmpty && !tokB.isEmpty then ⟨(interLen : Int), (unionLen : Int)⟩ else ⟨0, 1⟩
  PRat.add (PRat.mul ⟨3, 5⟩ base) (PRat.mul ⟨2, 5⟩ jac)

/-- Python substring containment (`x in y`). -/
def isSubstr (a b : Str) : Bool := (findSub a b).isSome

/-- `BookMatcher._authors_match`. -/
def authorsMatch (aA aB : Option Str) : Bool :=
  match aA, aB with
  | some a, some b =>
    if a.isEmpty || b.isEmpty then false else
    let na := TitleNormalizer.normalizeAuthor a
    let nb := TitleNormalizer.normalizeAuthor b
    if na.isEmpty || nb.isEmpty then false
    else if na = nb then true
    else if isSubstr na nb || isSubstr nb na then true
    else PRat.ble ⟨17, 20⟩ (SeqM.ratioPR na nb)
  | _, _ => false

/-- The `[\dX]` check-character class of the ISBN pattern under
`re.IGNORECASE`. -/
def isbnChk (c : Char) : Bool := isPyDigit c || lowerChar c = 'x'

/-- The `\d{9}[\dX]` part of the ISBN pattern. -/
def isbnTail : RE :=
  .cat (catL (List.replicate 9 (.cls isPyDigit))) (.cat (.cls isbnChk) .eps)

/-- The validation pattern of `_clean_isbn`:
`^(97[89])?\d{9}[\dX]$` with `re.IGNORECASE`. -/
def isbnRE : RE := .cat (.opt (altL [lit "978", lit "979"])) isbnTail

/-- Anchored match with the trailing `$` of the pattern (which in Python also
matches just before a final newline). -/
def reMatchDollar (r : RE) (s : Str) : Bool :=
  (mAll r none s).any (fun pr => pr.2.isEmpty || pr.2 = ['\n'])

/-- The `re.sub(r'[-\s]', '', isbn)` cleaning step of `_clean_isbn` (length-one
character-class substitution with empty replacement, i.e. a filter). -/
def stripIsbn (s : Str) : Str := s.filter (fun ch => !(ch = '-' || isPySpace ch))

/-- `BookMatcher._clean_isbn`: strip hyphens/whitespace, validate, uppercase;
`none` on falsy input or validation failure. -/
def cleanIsbn (isbn : Str) : Option Str :=
  if isbn.isEmpty then none else
  if reMatchDollar isbnRE (stripIsbn isbn) then some ((stripIsbn isbn).map upperChar)
  else none

/-- Values stored in the `details` diagnostic map. -/
inductive DVal where
  | bv (x : Bool)
  | qv (x : PRat)
deriving DecidableEq, Repr

/-- `MatchResult` dataclass. -/
structure MatchResult where
  is_match : Bool
  confidence : PRat
  match_type : String
  normalized_title_a : Str
  normalized_title_b : Str
  details : List (String × DVal)
deriving DecidableEq, Repr

/-- Python dict insertion (`d[k] = v`): overwrite in place or append. -/
def dset (l : List (String × DVal)) (k : String) (v : DVal) : List (String × DVal) :=
  if l.any (fun p => p.1 = k) then l.map (fun p => if p.1 = k then (k, v) else p)
  else l ++ [(k, v)]

/-- The check-4 fuzzy score of `BookMatcher.match`: the larger of the two
blended similarities, plus the author bonus of +0.1 capped at 1.0. -/
def fuzzyBest (nta ntb ata atb : Str) (aA aB : Option Str) : PRat :=
  let best := PRat.pmax (calcSimilarity nta ntb) (calcSimilarity ata atb)
  if authorsMatch aA aB then PRat.pmin ⟨1, 1⟩ (PRat.add best ⟨1, 10⟩) else best

/-- Checks 2–4 of `BookMatcher.match` (everything after the identifier
check), with the `details` accumulated so far. -/
def matchTail (nta ntb ata atb : Str) (aA aB : Option Str)
    (details : List (String × DVal)) : MatchResult :=
  if nta = ntb then
    ⟨true, if authorsMatch aA aB then ⟨1, 1⟩ else ⟨19, 20⟩, "normalized_exact",
     nta, ntb, details⟩
  else if ata = atb then
    ⟨true, if authorsMatch aA aB then ⟨19, 20⟩ else ⟨9, 10⟩, "aggressive_normalized",
     nta, ntb, details⟩
  else
    let sim := calcSimilarity nta ntb
    let asim := calcSimilarity ata atb
    let d := dset (dset details "title_similarity" (.qv sim)) "aggressive_similarity" (.qv asim)
    let am := authorsMatch aA aB
    let best := fuzzyBest nta ntb ata atb aA aB
    let d := if am then dset d "author_match" (.bv true) else d
    if PRat.ble ⟨9, 10⟩ best then ⟨true, best, "fuzzy_high", nta, ntb, d⟩
    else if PRat.ble ⟨4, 5⟩ best then ⟨true, best, "fuzzy_medium", nta, ntb, d⟩
    else if PRat.ble ⟨7, 10⟩ best then ⟨false, best, "fuzzy_low", nta, ntb, d⟩
    else ⟨false, best, "no_match", nta, ntb, d⟩

/-- Python truthiness of an optional string. -/
def truthyOpt (o : Option Str) : Bool := !(o.getD []).isEmpty

/-- The cleaned identifier when one is present and valid, `none` otherwise. -/
def cleanOpt (o : Option Str) : Option Str := o.bind cleanIsbn

/-- `BookMatcher.match`. -/
def matchBooks (title_a title_b : Str) (author_a author_b isbn_a isbn_b : Option Str) :
    MatchResult :=
  let nta := TitleNormalizer.normalize false title_a
  let ntb := TitleNormalizer.normalize false title_b
  let ata := TitleNormalizer.normalize true title_a
  let atb := TitleNormalizer.normalize true title_b
  let step : Sum MatchResult (List (String × DVal)) :=
    if truthyOpt isbn_a && truthyOpt isbn_b then
      match cleanIsbn (isbn_a.getD []), cleanIsbn (isbn_b.getD []) with
      | some ca, some cb =>
        if ca = cb then
          Sum.inl ⟨true, ⟨1, 1⟩, "isbn_exact", nta, ntb, [("isbn_match", DVal.bv true)]⟩
        else if ca.length = 13 && cb.length = 13 && ca.take 12 = cb.take 12 then
          Sum.inr [("isbn_prefix_match", DVal.bv true)]
        else Sum.inr []
      | _, _ => Sum.inr []
    else Sum.inr []
  match step with
  | .inl r => r
  | .inr d => matchTail nta ntb ata atb author_a author_b d

end BookMatcher


/-! ## BookIndex -/

/-- A caller record, with the identifier locations `_extract_isbn` probes:
the v2 `editions → formats → isbn` chain (flattened, in order) and the v1
`isbn_or_issn` field. -/
structure Book where
  title : Str
  authors : List Str
  editionIsbns : List Str
  isbnOrIssn : Option Str
deriving DecidableEq, Repr

/-- `BookMatcher._extract_isbn`: first truthy isbn in the editions chain,
else the v1 field. -/
def extractIsbn (b : Book) : Option Str :=
  (b.editionIsbns.find? (fun s => !s.isEmpty)).orElse (fun _ => b.isbnOrIssn)

/-- The four index structures plus the record list of `BookIndex`, with
Python dicts as insertion-ordered association lists. -/
structure IndexState where
  books : List Book
  isbnIdx : List (Str × Nat)
  normIdx : List (Str × List Nat)
  aggIdx : List (Str × List Nat)
  ngramIdx : List (Str × List Nat)
deriving DecidableEq, Repr

def emptyIndex : IndexState := ⟨[], [], [], [], []⟩

/-- Python dict lookup. -/
def dGet {κ α : Type} [DecidableEq κ] (l : List (κ × α)) (k : κ) : Option α :=
  (l.find? (fun p => p.1 = k)).map (·.2)

/-- Python dict assignment: overwrite in place, else append. -/
def dSet {κ α : Type} [DecidableEq κ] (l : List (κ × α)) (k : κ) (v : α) : List (κ × α) :=
  if (l.find? (fun p => p.1 = k)).isSome then l.map (fun p => if p.1 = k then (k, v) else p)
  else l ++ [(k, v)]

/-- `d.setdefault(k, []).append(v)` as used for the title indices. -/
def dAppend (l : List (Str × List Nat)) (k : Str) (v : Nat) : List (Str × List Nat) :=
  match dGet l k with
  | some xs => dSet l k (xs ++ [v])
  | none => l ++ [(k, [v])]

/-- `d.setdefault(k, set()).add(v)` as used for the trigram posting index. -/
def sAdd (l : List (Str × List Nat)) (k : Str) (v : Nat) : List (Str × List Nat) :=
  match dGet l k with
  | some xs => if v ∈ xs then l else dSet l k (xs ++ [v])
  | none => l ++ [(k, [v])]

/-- `BookIndex._generate_ngrams`. -/
def genNgrams (t : Str) (n : Nat) : List Str :=
  if t.length < n then (if t.isEmpty then [] else [t])
  else (List.range (t.length - n + 1)).map (fun i => (t.drop i).take n)

/-- `BookIndex._index_book`: record position `idx` in every applicable
structure (identifier map with the 12-character alias for 13-character
identifiers, both title maps, and the trigram posting lists). -/
def indexBook (st : IndexState) (idx : Nat) (b : Book) : IndexState :=
  let st :=
    match extractIsbn b with
    | some isbn =>
      if isbn.isEmpty then st else
      match BookMatcher.cleanIsbn isbn with
      | some c =>
        let st1 := { st with isbnIdx := dSet st.isbnIdx c idx }
        if c.length = 13 then { st1 with isbnIdx := dSet st1.isbnIdx (c.take 12) idx }
        else st1
      | none => st
    | none => st
  let nt := TitleNormalizer.normalize false b.title
  let st := if nt.isEmpty then st else { st with normIdx := dAppend st.normIdx nt idx }
  let agt := TitleNormalizer.normalize true b.title
  if agt.isEmpty then st else
  let st := { st with aggIdx := dAppend st.aggIdx agt idx }
  { st with ngramIdx := (genNgrams agt 3).foldl (fun m g => sAdd m g idx) st.ngramIdx }

/-- `BookIndex.add`: append the record, then index it at its new position. -/
def addBook (st : IndexState) (b : Book) : IndexState × Nat :=
  let idx := st.books.length
  let st' := { st with books := st.books ++ [b] }
  (indexBook st' idx b, idx)

/-- `BookIndex.build`. -/
def buildIndex (books : List Book) : IndexState :=
  books.enum.foldl (fun st p => indexBook st p.1 p.2)
    { books := books, isbnIdx := [], normIdx := [], aggIdx := [], ngramIdx := [] }

/-- Counter increment for `candidate_counts`. -/
def bump (l : List (Nat × Nat)) (k : Nat) : List (Nat × Nat) :=
  if l.any (fun p => p.1 = k) then l.map (fun p => if p.1 = k then (k, p.2 + 1) else p)
  else l ++ [(k, 1)]

/-- Python `int(x)` for the nonnegative fractions used here: truncation. -/
def truncNat (q : PRat) : Nat := (q.num / q.den).toNat

/-- `BookIndex._find_candidates_by_ngram`: tally shared grams per indexed
position (counting each occurrence of a query gram) and keep positions whose
tally reaches `max(1, int(len(ngrams) * min_overlap))`. -/
def findCandidates (st : IndexState) (agt : Str) (ov : PRat) : List Nat :=
  if agt.isEmpty then [] else
  let grams := genNgrams agt 3
  if grams.isEmpty then [] else
  let minM := max 1 (truncNat (PRat.mul ⟨(grams.length : Int), 1⟩ ov))
  let counts := grams.foldl
    (fun m g =>
      match dGet st.ngramIdx g with
      | some postings => postings.foldl bump m
      | none => m)
    ([] : List (Nat × Nat))
  (counts.filter (fun p => minM ≤ p.2)).map (·.1)

/-- Tier 1 of `BookIndex.find_match`: identifier lookup, exact then
12-character prefix.  (On an ill-formed index whose stored position is out of
range the model yields `none` where Python would raise; every theorem below
works under the well-formedness invariant, where the two agree.) -/
def tier1 (st : IndexState) (nt : Str) (isbn : Option Str) :
    Option (Book × BookMatcher.MatchResult) :=
  match isbn with
  | some s =>
    if s.isEmpty then none else
    match BookMatcher.cleanIsbn s with
    | some c =>
      match dGet st.isbnIdx c with
      | some mi =>
        match st.books.get? mi with
        | some mb =>
          some (mb, ⟨true, ⟨1, 1⟩, "isbn_exact", nt,
                     TitleNormalizer.normalize false mb.title, [("isbn_match", .bv true)]⟩)
        | none => none
      | none =>
        if c.length = 13 then
          match dGet st.isbnIdx (c.take 12) with
          | some mi =>
            match st.books.get? mi with
            | some mb =>
              some (mb, ⟨true, ⟨49, 50⟩, "isbn_prefix", nt,
                         TitleNormalizer.normalize false mb.title,
                         [("isbn_prefix_match", .bv true)]⟩)
            | none => none
          | none => none
        else none
    | none => none
  | none => none

/-- Tier 2: standard-normalized-title lookup; the first position in the
bucket wins. -/
def tier2 (st : IndexState) (firstAuthor : Option Str) (nt : Str) :
    Option (Book × BookMatcher.MatchResult) :=
  match dGet st.normIdx nt with
  | some (mi :: _) =>
    match st.books.get? mi with
    | some mb =>
      let am := BookMatcher.authorsMatch firstAuthor mb.authors.head?
      let conf : PRat := if am then ⟨1, 1⟩ else ⟨19, 20⟩
      some (mb, ⟨true, conf, "normalized_exact", nt, nt, [("author_match", .bv am)]⟩)
    | none => none
  | _ => none

/-- Tier 3: aggressive-normalized-title lookup. -/
def tier3 (st : IndexState) (firstAuthor : Option Str) (nt agt : Str) :
    Option (Book × BookMatcher.MatchResult) :=
  match dGet st.aggIdx agt with
  | some (mi :: _) =>
    match st.books.get? mi with
    | some mb =>
      let am := BookMatcher.authorsMatch firstAuthor mb.authors.head?
      let conf : PRat := if am then ⟨19, 20⟩ else ⟨9, 10⟩
      some (mb, ⟨true, conf, "aggressive_normalized", nt,
                 TitleNormalizer.normalize false mb.title, [("author_match", .bv am)]⟩)
    | none => none
  | _ => none

/-- Tier 4: n-gram candidate selection plus full fuzzy scoring; best
confidence above the threshold wins, earlier candidates win ties. -/
def tier4 (st : IndexState) (b : Book) (firstAuthor : Option Str) (isbn : Option Str)
    (agt : Str) (fuzzyThreshold : PRat) : Option (Book × BookMatcher.MatchResult) :=
  (findCandidates st agt ⟨3, 10⟩).foldl
    (fun acc mi =>
      match st.books.get? mi with
      | none => acc
      | some mb =>
        let r := BookMatcher.matchBooks b.title mb.title firstAuthor mb.authors.head?
                   isbn (extractIsbn mb)
        if PRat.ble fuzzyThreshold r.confidence then
          match acc with
          | none => some (mb, r)
          | some pr => if PRat.blt pr.2.confidence r.confidence then some (mb, r) else acc
        else acc)
    none

/-- `BookIndex.find_match`. -/
def findMatch (st : IndexState) (b : Book) (fuzzyThreshold : PRat) :
    Option (Book × BookMatcher.MatchResult) :=
  let firstAuthor := b.authors.head?
  let isbn := extractIsbn b
  let nt := TitleNormalizer.normalize false b.title
  let agt := TitleNormalizer.normalize true b.title
  match tier1 st nt isbn with
  | some r => some r
  | none =>
    match tier2 st firstAuthor nt with
    | some r => some r
    | none =>
      match tier3 st firstAuthor nt agt with
      | some r => some r
      | none => tier4 st b firstAuthor isbn agt fuzzyThreshold


/-! ## Auxiliary definitions used by the verification statements -/

namespace PyRe

/-- Matcher for a plain sequence of character classes: at most one way to
match (used to analyze the ISBN pattern). -/
def matchCls : List (Char → Bool) → Option Char → Str → Option (Option Char × Str)
  | [], prev, s => some (prev, s)
  | _ :: _, _, [] => none
  | p :: ps, _, c :: t => if p c then matchCls ps (some c) t else none

end PyRe

namespace BookMatcher

/-- Check character of the spec's pattern: a digit or `X` in either case. -/
def checkChar (c : Char) : Bool := isPyDigit c || c = 'x' || c = 'X'

/-- Validity core shared by the 10- and 13-character forms of the spec's
pattern: exactly 9 digits followed by one check character. -/
def specValidCore (d : Str) : Bool :=
  decide (d.length = 10) && (d.take 9).all isPyDigit && (d.drop 9).all checkChar

/-- Structural statement of the spec's ISBN validity pattern: an optional
`978`/`979` prefix followed by 9 digits and a digit-or-`X` check character. -/
def specValidIsbn (c : Str) : Bool :=
  specValidCore c ||
  ((decide (c.take 3 = "978".data) || decide (c.take 3 = "979".data)) && specValidCore (c.drop 3))

end BookMatcher

/-- Shared-gram tally of an indexed position against a query's gram list,
counting every occurrence of a query gram (as `_find_candidates_by_ngram`
does). -/
def sharedTally (st : IndexState) (grams : List Str) (idx : Nat) : Nat :=
  (grams.map (fun g => ((dGet st.ngramIdx g).getD []).count idx)).sum

/-- Posting list of a trigram in the index. -/
def postings (st : IndexState) (g : Str) : List Nat := (dGet st.ngramIdx g).getD []

/-- Value of a candidate counter at a key (0 when absent). -/
def cGet (l : List (Nat × Nat)) (k : Nat) : Nat :=
  ((l.find? (fun p => p.1 = k)).map (·.2)).getD 0

/-- Key list of a candidate counter. -/
def cKeys (l : List (Nat × Nat)) : List Nat := l.map Prod.fst

/-- Well-formedness of the index: every stored position denotes a record. -/
def WFIndex (st : IndexState) : Prop :=
  (∀ pr ∈ st.isbnIdx, pr.2 < st.books.length) ∧
  (∀ pr ∈ st.normIdx, ∀ i ∈ pr.2, i < st.books.length) ∧
  (∀ pr ∈ st.aggIdx, ∀ i ∈ pr.2, i < st.books.length) ∧
  (∀ pr ∈ st.ngramIdx, ∀ i ∈ pr.2, i < st.books.length)

/-! ## Theorems.  First the arithmetic bridge from `PRat` to `ℚ`. -/

namespace PRat
theorem Pos.posAdd {a b : PRat} (ha : a.Pos) (hb : b.Pos) : (add a b).Pos :=
  mul_pos ha hb

theorem Pos.posMul {a b : PRat} (ha : a.Pos) (hb : b.Pos) : (mul a b).Pos :=
  mul_pos ha hb

theorem Pos.posPmax {a b : PRat} (ha : a.Pos) (hb : b.Pos) : (pmax a b).Pos := by
  unfold PRat.pmax; split <;> assumption

theorem Pos.posPmin {a b : PRat} (ha : a.Pos) (hb : b.Pos) : (pmin a b).Pos := by
  unfold PRat.pmin; split <;> assumption

theorem posOfInt (n : Int) : (ofInt n).Pos := Int.zero_lt_one

theorem toRat_ofInt (n : Int) : (ofInt n).toRat = (n : ℚ) := by
  simp [ofInt, toRat]

theorem denNe {a : PRat} (ha : a.Pos) : (a.den : ℚ) ≠ 0 := by
  have : (0 : ℚ) < (a.den : ℚ) := by exact_mod_cast (ha : 0 < a.den)
  exact ne_of_gt this

theorem toRat_add {a b : PRat} (ha : a.Pos) (hb : b.Pos) :
    (add a b).toRat = a.toRat + b.toRat := by
  have ha' := denNe ha
  have hb' := denNe hb
  simp only [add, toRat]
  push_cast
  field_simp

theorem toRat_mul {a b : PRat} (ha : a.Pos) (hb : b.Pos) :
    (mul a b).toRat = a.toRat * b.toRat := by
  have ha' := denNe ha
  have hb' := denNe hb
  simp only [mul, toRat]
  push_cast
  field_simp

theorem ble_iff {a b : PRat} (ha : a.Pos) (hb : b.Pos) :
    ble a b = true ↔ a.toRat ≤ b.toRat := by
  have ha' : (0 : ℚ) < (a.den : ℚ) := by exact_mod_cast (ha : 0 < a.den)
  have hb' : (0 : ℚ) < (b.den : ℚ) := by exact_mod_cast (hb : 0 < b.den)
  simp only [ble, decide_eq_true_eq, toRat]
  rw [div_le_div_iff₀ ha' hb']
  constructor
  · intro h; exact_mod_cast h
  · intro h; exact_mod_cast h

theorem toRat_pmax {a b : PRat} (ha : a.Pos) (hb : b.Pos) :
    (pmax a b).toRat = max a.toRat b.toRat := by
  unfold PRat.pmax
  by_cases h : ble b a = true
  · rw [if_pos h, max_eq_left ((ble_iff hb ha).mp h)]
  · rw [if_neg h, max_eq_right]
    exact le_of_not_le fun hc => h ((ble_iff hb ha).mpr hc)

theorem toRat_pmin {a b : PRat} (ha : a.Pos) (hb : b.Pos) :
    (pmin a b).toRat = min a.toRat b.toRat := by
  unfold PRat.pmin
  by_cases h : ble a b = true
  · rw [if_pos h, min_eq_left ((ble_iff ha hb).mp h)]
  · rw [if_neg h, min_eq_right]
    exact le_of_not_le fun hc => h ((ble_iff ha hb).mpr hc)

theorem blt_iff {a b : PRat} (ha : a.Pos) (hb : b.Pos) :
    blt a b = true ↔ a.toRat < b.toRat := by
  have ha' : (0 : ℚ) < (a.den : ℚ) := by exact_mod_cast (ha : 0 < a.den)
  have hb' : (0 : ℚ) < (b.den : ℚ) := by exact_mod_cast (hb : 0 < b.den)
  simp only [blt, decide_eq_true_eq, toRat]
  rw [div_lt_div_iff₀ ha' hb']
  constructor
  · intro h; exact_mod_cast h
  · intro h; exact_mod_cast h

end PRat

/-! ## Character-level facts -/

theorem toNat_charOfNat {n : Nat} (h : n.isValidChar) : (Char.ofNat n).toNat = n := by
  simp [Char.ofNat, Char.toNat, Char.ofNatAux, h, UInt32.toNat, UInt32.ofNatCore]

theorem charEq_iff_toNat {a b : Char} : a = b ↔ a.toNat = b.toNat := by
  constructor
  · intro h; rw [h]
  · intro h
    apply Char.ext
    apply UInt32.ext
    simpa [Char.toNat, UInt32.toNat] using h

theorem charLe_iff {a b : Char} : (a ≤ b) ↔ a.toNat ≤ b.toNat := by
  constructor
  · intro h
    simp only [Char.le_def, UInt32.le_def] at h
    simpa [Char.toNat, UInt32.toNat] using h
  · intro h
    simp only [Char.le_def, UInt32.le_def]
    simpa [Char.toNat, UInt32.toNat] using h

theorem lowerChar_toNat (c : Char) :
    (lowerChar c).toNat = if 65 ≤ c.toNat ∧ c.toNat ≤ 90 then c.toNat + 32 else c.toNat := by
  unfold lowerChar
  by_cases h : 65 ≤ c.toNat ∧ c.toNat ≤ 90
  · rw [if_pos h]
    rw [if_pos]
    · exact toNat_charOfNat (Or.inl (by omega))
    · simp only [Bool.and_eq_true, decide_eq_true_eq, charLe_iff]
      exact h
  · rw [if_neg h, if_neg]
    simp only [Bool.and_eq_true, decide_eq_true_eq, charLe_iff]
    exact h

theorem isPyDigit_iff {c : Char} :
    isPyDigit c = true ↔ (48 ≤ c.toNat ∧ c.toNat ≤ 57) ∨ (0xFF10 ≤ c.toNat ∧ c.toNat ≤ 0xFF19) := by
  simp only [isPyDigit, Bool.or_eq_true, Bool.and_eq_true, decide_eq_true_eq, charLe_iff]
  rfl

theorem lowerChar_eq_digit_iff {d : Char} (hd : isPyDigit d = true) (x : Char) :
    (lowerChar x = lowerChar d) ↔ x = d := by
  rw [charEq_iff_toNat, charEq_iff_toNat, lowerChar_toNat, lowerChar_toNat]
  rw [isPyDigit_iff] at hd
  split <;> split <;> omega

theorem lowerChar_eq_x_iff (c : Char) :
    (lowerChar c = 'x') ↔ (c = 'x' ∨ c = 'X') := by
  have hx : ('x').toNat = 120 := by decide
  have hX : ('X').toNat = 88 := by decide
  rw [charEq_iff_toNat, charEq_iff_toNat, charEq_iff_toNat, lowerChar_toNat, hx, hX]
  split <;> omega

/-! ## Regex-engine facts used to characterize the ISBN pattern -/

namespace PyRe

theorem mAll_catL_cls (ps : List (Char → Bool)) (prev : Option Char) (s : Str) :
    mAll (catL (ps.map RE.cls)) prev s = (matchCls ps prev s).toList := by
  induction ps generalizing prev s with
  | nil => simp [catL, mAll, matchCls]
  | cons p ps ih =>
    cases s with
    | nil => simp [catL, mAll, matchCls]
    | cons c t =>
      simp only [List.map_cons, catL, List.foldr_cons]
      by_cases h : p c = true
      · simp only [mAll, h, if_pos, List.flatMap_cons, List.flatMap_nil, List.append_nil]
        simp only [catL] at ih
        simp [matchCls, h, ih]
      · simp [mAll, matchCls, h]

theorem matchCls_some_rem {ps : List (Char → Bool)} {prev pr : Option Char} {s rem : Str}
    (h : matchCls ps prev s = some (pr, rem)) :
    s = s.take ps.length ++ rem ∧ (s.take ps.length).length = ps.length ∧
      ((s.take ps.length).zip ps).all (fun z => z.2 z.1) := by
  induction ps generalizing prev s with
  | nil => simp_all [matchCls]
  | cons p ps ih =>
    cases s with
    | nil => simp [matchCls] at h
    | cons c t =>
      simp only [matchCls] at h
      by_cases hc : p c = true
      · rw [if_pos hc] at h
        obtain ⟨h1, h2, h3⟩ := ih h
        refine ⟨?_, ?_, ?_⟩
        · simpa [List.take_cons] using congrArg (c :: ·) h1
        · simpa [List.take_cons] using h2
        · simp [List.take_cons, List.zip_cons_cons, hc, h3]
      · rw [if_neg hc] at h; cases h

theorem matchCls_append {ps : List (Char → Bool)} {pre rest : Str} {prev : Option Char}
    (hlen : pre.length = ps.length)
    (hall : (pre.zip ps).all (fun z => z.2 z.1)) :
    ∃ pr, matchCls ps prev (pre ++ rest) = some (pr, rest) := by
  induction ps generalizing prev pre with
  | nil =>
    cases pre with
    | nil => exact ⟨prev, rfl⟩
    | cons c t => simp at hlen
  | cons p ps ih =>
    cases pre with
    | nil => simp at hlen
    | cons c t =>
      simp only [List.zip_cons_cons, List.all_cons, Bool.and_eq_true] at hall
      simp only [List.length_cons, Nat.succ.injEq] at hlen
      simp only [List.cons_append, matchCls, hall.1, if_pos]
      exact ih hlen hall.2

end PyRe

/-! ## The ISBN validity pattern, regex versus structural statement -/

namespace BookMatcher

theorem any_flatMap {α β : Type} (l : List α) (f : α → List β) (p : β → Bool) :
    ((l.flatMap f).any p) = l.any (fun x => (f x).any p) := by
  induction l with
  | nil => rfl
  | cons x xs ih => simp [List.flatMap_cons, List.any_append, ih]

theorem isbnChk_eq_checkChar (c : Char) : isbnChk c = checkChar c := by
  rw [Bool.eq_iff_iff]
  simp [isbnChk, checkChar, lowerChar_eq_x_iff, or_assoc]

theorem zip_replicate_all {l : Str} {n : Nat} {p : Char → Bool} (hl : l.length = n) :
    ((l.zip (List.replicate n p)).all fun z => z.2 z.1) = l.all p := by
  induction l generalizing n with
  | nil => cases hl; simp
  | cons c t ih =>
    cases n with
    | zero => simp at hl
    | succ m =>
      simp only [List.length_cons, Nat.succ.injEq] at hl
      simp [List.replicate_succ, List.zip_cons_cons, ih hl]

theorem zip_selfmap_all (ds : List Char)
    (f : Char → Char → Bool) (hf : ∀ d, f d d = true) :
    ((ds.zip (ds.map f)).all fun z => z.2 z.1) = true := by
  induction ds with
  | nil => rfl
  | cons d ds ih => simp [List.zip_cons_cons, hf, ih]

theorem zip_lit_eq {l ds : List Char} (hds : ∀ d ∈ ds, isPyDigit d = true)
    (hlen : l.length = ds.length)
    (hall : ((l.zip (ds.map fun d x => decide (lowerChar x = lowerChar d))).all
      fun z => z.2 z.1) = true) : l = ds := by
  induction ds generalizing l with
  | nil => cases l with
    | nil => rfl
    | cons c t => simp at hlen
  | cons d ds ih =>
    cases l with
    | nil => simp at hlen
    | cons c t =>
      simp only [List.map_cons, List.zip_cons_cons, List.all_cons, Bool.and_eq_true,
        decide_eq_true_eq] at hall
      have hd := hds d (List.mem_cons_self d ds)
      have hc : c = d := (lowerChar_eq_digit_iff hd c).mp hall.1
      simp only [List.length_cons, Nat.succ.injEq] at hlen
      rw [hc, ih (fun x hx => hds x (List.mem_cons_of_mem d hx)) hlen hall.2]

theorem matchCls_digits_lit (ds : List Char) (hds : ∀ d ∈ ds, isPyDigit d = true)
    (prev : Option Char) (s : Str) :
    (ds.isPrefixOf s = true →
      ∃ q, matchCls (ds.map fun d x => decide (lowerChar x = lowerChar d)) prev s
        = some (q, s.drop ds.length)) ∧
    (ds.isPrefixOf s = false →
      matchCls (ds.map fun d x => decide (lowerChar x = lowerChar d)) prev s = none) := by
  constructor
  · intro hp
    have hpre : ds <+: s := by rwa [← List.isPrefixOf_iff_prefix]
    obtain ⟨rest, hrest⟩ := hpre
    obtain ⟨q, hq⟩ := @matchCls_append
      (ds.map fun d x => decide (lowerChar x = lowerChar d)) ds rest prev
      (by simp) (zip_selfmap_all ds _ (fun d => by simp))
    refine ⟨q, ?_⟩
    rw [← hrest, List.drop_left]
    exact hq
  · intro hp
    rcases hm : matchCls (ds.map fun d x => decide (lowerChar x = lowerChar d)) prev s with _ | pr
    · rfl
    · obtain ⟨h1, h2, h3⟩ := @matchCls_some_rem _ _ pr.1 _ pr.2
        (by rwa [← @Prod.mk.eta _ _ pr] at hm)
      rw [List.length_map] at h2 h3 h1
      have : s.take ds.length = ds := zip_lit_eq hds h2 h3
      have hpre : ds <+: s := ⟨pr.2, by rw [← this]; exact h1.symm⟩
      rw [← List.isPrefixOf_iff_prefix] at hpre
      rw [hpre] at hp
      cases hp

theorem isbnTail_any {prev : Option Char} {s : Str} (hnl : '\n' ∉ s) :
    ((mAll isbnTail prev s).any fun pr => pr.2.isEmpty || decide (pr.2 = ['\n']))
      = specValidCore s := by
  have hB : mAll (catL (List.replicate 9 (RE.cls isPyDigit))) prev s
      = (matchCls (List.replicate 9 isPyDigit) prev s).toList := by
    rw [← List.map_replicate]
    exact mAll_catL_cls _ _ _
  have hunf : mAll isbnTail prev s
      = (matchCls (List.replicate 9 isPyDigit) prev s).toList.flatMap
          (fun pr2 => mAll (RE.cat (RE.cls isbnChk) RE.eps) pr2.1 pr2.2) := by
    rw [← hB]; rfl
  rw [hunf]
  rcases hm : matchCls (List.replicate 9 isPyDigit) prev s with _ | ⟨q, rem⟩
  · simp only [Option.toList_none, List.flatMap_nil, List.any_nil]
    rcases hv : specValidCore s with _ | _
    · rfl
    · exfalso
      simp only [specValidCore, Bool.and_eq_true, decide_eq_true_eq] at hv
      obtain ⟨⟨hlen, hdig⟩, _⟩ := hv
      have htk : (s.take 9).length = 9 := by
        rw [List.length_take]; omega
      obtain ⟨q, hq⟩ := @matchCls_append
        (List.replicate 9 isPyDigit) (s.take 9) (s.drop 9) prev
        (by simpa using htk)
        (by rw [zip_replicate_all htk]; exact hdig)
      rw [List.take_append_drop] at hq
      rw [hm] at hq
      cases hq
  · obtain ⟨h1, h2, h3⟩ := matchCls_some_rem hm
    have hlr : (List.replicate 9 isPyDigit).length = 9 := rfl
    rw [hlr] at h1 h2 h3
    rw [zip_replicate_all h2] at h3
    have hrem : rem = s.drop 9 := by
      have := h1.symm.trans (List.take_append_drop 9 s).symm
      exact List.append_cancel_left this
    simp only [Option.toList_some, List.flatMap_cons, List.flatMap_nil, List.append_nil]
    cases rem with
    | nil =>
      have hlen : s.length = 9 := by
        rw [h1, List.length_append, h2]; rfl
      simp only [mAll, List.flatMap_nil, List.any_nil]
      rcases hv : specValidCore s with _ | _
      · rfl
      · simp only [specValidCore, Bool.and_eq_true, decide_eq_true_eq] at hv
        omega
    | cons k r =>
      have hsplit : s = s.take 9 ++ k :: r := h1
      have hdropk : s.drop 9 = k :: r := hrem.symm
      have hlen : s.length = 10 + r.length := by
        rw [hsplit, List.length_append, h2]; simp only [List.length_cons]; omega
      by_cases hk : isbnChk k = true
      · simp only [mAll, hk, if_pos, List.flatMap_cons, List.flatMap_nil, List.append_nil,
          List.any_cons, List.any_nil, Bool.or_false]
        cases r with
        | nil =>
          simp only [List.isEmpty_nil, Bool.true_or]
          have hlen10 : s.length = 10 := by simpa using hlen
          have : specValidCore s = true := by
            simp only [specValidCore, Bool.and_eq_true, decide_eq_true_eq]
            refine ⟨⟨hlen10, h3⟩, ?_⟩
            rw [hdropk]
            simp [isbnChk_eq_checkChar k ▸ hk]
          rw [this]
        | cons k2 r2 =>
          have hnl2 : ¬ ((k2 :: r2 : Str) = ['\n']) := by
            intro he
            apply hnl
            rw [hsplit, he]
            simp
          simp only [List.isEmpty_cons, Bool.false_or, decide_eq_true_eq]
          rw [decide_eq_false hnl2]
          rcases hv : specValidCore s with _ | _
          · rfl
          · simp only [specValidCore, Bool.and_eq_true, decide_eq_true_eq] at hv
            simp at hlen
            omega
      · simp only [mAll, hk, if_neg, List.flatMap_nil, List.any_nil]
        rcases hv : specValidCore s with _ | _
        · rfl
        · simp only [specValidCore, Bool.and_eq_true, decide_eq_true_eq] at hv
          rw [hdropk] at hv
          simp only [List.all_cons, Bool.and_eq_true] at hv
          rw [← isbnChk_eq_checkChar] at hv
          exact absurd hv.2.1 hk

theorem lit_digits_any (ds : List Char) (hds : ∀ d ∈ ds, isPyDigit d = true)
    (s : Str) (T : Option Char × Str → Bool)
    (hT : ∀ q q', T (q, s.drop ds.length) = T (q', s.drop ds.length)) (qq : Option Char) :
    ((mAll (catL (ds.map ciC)) none s).any T)
      = (decide (ds.isPrefixOf s = true) && T (qq, s.drop ds.length)) := by
  have hmap : ds.map ciC = (ds.map fun d x => decide (lowerChar x = lowerChar d)).map RE.cls := by
    rw [List.map_map]; rfl
  rw [hmap, mAll_catL_cls]
  have hd := matchCls_digits_lit ds hds none s
  by_cases hp : ds.isPrefixOf s = true
  · obtain ⟨q, hq⟩ := hd.1 hp
    rw [hq]
    simp only [Option.toList_some, List.any_cons, List.any_nil, Bool.or_false,
      decide_eq_true_eq]
    rw [hT q qq]
    simp [hp]
  · rw [hd.2 (Bool.eq_false_iff.mpr hp)]
    simp [hp]

theorem reMatchDollar_isbn (c : Str) (hnl : '\n' ∉ c) :
    reMatchDollar isbnRE c = specValidIsbn c := by
  have hnl3 : '\n' ∉ c.drop 3 := fun h => hnl ((List.drop_sublist 3 c).mem h)
  have hunf : reMatchDollar isbnRE c
      = ((mAll (lit "978") none c ++ mAll (lit "979") none c ++ [(none, c)]).flatMap
          (fun pr1 => mAll isbnTail pr1.1 pr1.2)).any
            (fun pr => pr.2.isEmpty || decide (pr.2 = ['\n'])) := by
    rfl
  rw [hunf, any_flatMap, List.any_append, List.any_append]
  have hT : ∀ (q q' : Option Char),
      ((mAll isbnTail q (c.drop 3)).any fun pr => pr.2.isEmpty || decide (pr.2 = ['\n']))
        = ((mAll isbnTail q' (c.drop 3)).any fun pr => pr.2.isEmpty || decide (pr.2 = ['\n'])) := by
    intro q q'
    rw [isbnTail_any hnl3, isbnTail_any hnl3]
  have h8 := lit_digits_any ['9', '7', '8'] (by decide) c
    (fun pr1 => (mAll isbnTail pr1.1 pr1.2).any fun pr => pr.2.isEmpty || decide (pr.2 = ['\n']))
    (fun q q' => hT q q') none
  have h9 := lit_digits_any ['9', '7', '9'] (by decide) c
    (fun pr1 => (mAll isbnTail pr1.1 pr1.2).any fun pr => pr.2.isEmpty || decide (pr.2 = ['\n']))
    (fun q q' => hT q q') none
  have hlit8 : lit "978" = catL (['9', '7', '8'].map ciC) := rfl
  have hlit9 : lit "979" = catL (['9', '7', '9'].map ciC) := rfl
  rw [hlit8, hlit9, h8, h9]
  simp only [List.any_cons, List.any_nil, Bool.or_false,
    show (['9', '7', '8'] : List Char).length = 3 from rfl,
    show (['9', '7', '9'] : List Char).length = 3 from rfl]
  rw [isbnTail_any hnl3, isbnTail_any hnl]
  have hpre8 : (['9', '7', '8'].isPrefixOf c = true) ↔ (c.take 3 = "978".data) := by
    rw [List.isPrefixOf_iff_prefix]
    constructor
    · intro h
      exact (List.prefix_iff_eq_take.mp h).symm
    · intro h
      exact List.prefix_iff_eq_take.mpr h.symm
  have hpre9 : (['9', '7', '9'].isPrefixOf c = true) ↔ (c.take 3 = "979".data) := by
    rw [List.isPrefixOf_iff_prefix]
    constructor
    · intro h
      exact (List.prefix_iff_eq_take.mp h).symm
    · intro h
      exact List.prefix_iff_eq_take.mpr h.symm
  unfold specValidIsbn
  rcases hc : specValidCore c with _ | _ <;>
    rcases hc3 : specValidCore (c.drop 3) with _ | _ <;>
      rcases hp8 : decide (c.take 3 = "978".data) with _ | _ <;>
        rcases hp9 : decide (c.take 3 = "979".data) with _ | _ <;>
          simp_all [decide_eq_true_eq, hpre8, hpre9]

end BookMatcher

/-! ## Identifier-cleaning facts and claim C9 -/

namespace BookMatcher

theorem newline_not_mem_stripIsbn (s : Str) : '\n' ∉ stripIsbn s := by
  intro h
  have := (List.mem_filter.mp h).2
  simp [isPySpace] at this

theorem cleanIsbn_input_ne {s c : Str} (h : cleanIsbn s = some c) : s.isEmpty = false := by
  by_contra hne
  rw [Bool.not_eq_false] at hne
  unfold cleanIsbn at h
  rw [if_pos hne] at h
  cases h

theorem cleanIsbn_characterization (s : Str) :
    cleanIsbn s =
      (if specValidIsbn (stripIsbn s) = true then some ((stripIsbn s).map upperChar)
       else none) := by
  cases s with
  | nil => decide
  | cons c t =>
    unfold cleanIsbn
    rw [if_neg (by simp)]
    rw [reMatchDollar_isbn _ (newline_not_mem_stripIsbn (c :: t))]

theorem matchBooks_invalid_isbn_absent (ta tb : Str) (aA aB : Option Str) (ia ib : Option Str)
    (h : cleanOpt ia = none ∨ cleanOpt ib = none) :
    matchBooks ta tb aA aB ia ib = matchBooks ta tb aA aB none none := by
  rcases ia with _ | sa
  · rfl
  rcases ib with _ | sb
  · unfold matchBooks
    simp [truthyOpt]
  simp only [cleanOpt, Option.some_bind] at h
  unfold matchBooks
  by_cases hta : sa.isEmpty
  · simp [truthyOpt, hta]
  by_cases htb : sb.isEmpty
  · simp [truthyOpt, htb]
  simp only [truthyOpt, Option.getD_some, hta, htb, Bool.not_false, Bool.and_self, if_pos,
    Bool.and_true, Bool.not_eq_true']
  rcases hca : cleanIsbn sa with _ | ca
  · rfl
  rcases hcb : cleanIsbn sb with _ | cb
  · rfl
  rcases h with h | h
  · rw [hca] at h; cases h
  · rw [hcb] at h; cases h

end BookMatcher

/-- Claim C9: identifier cleaning is total and validates exactly the spec's
pattern.  `_clean_isbn` strips hyphens and whitespace and returns the
uppercased cleaned string exactly when the cleaned string matches an optional
`978`/`979` prefix, 9 digits and a digit-or-`X` check character; on every
other input (including the empty string) it returns `none` rather than
failing, and `match` treats records whose identifier fails cleaning exactly
like records with no identifier at all. -/
theorem claim_C9_clean_isbn_total_pattern :
    (∀ s : Str, BookMatcher.cleanIsbn s =
      (if BookMatcher.specValidIsbn (BookMatcher.stripIsbn s) = true
       then some ((BookMatcher.stripIsbn s).map upperChar) else none)) ∧
    (∀ (ta tb : Str) (aA aB ia ib : Option Str),
      BookMatcher.cleanOpt ia = none ∨ BookMatcher.cleanOpt ib = none →
      BookMatcher.matchBooks ta tb aA aB ia ib = BookMatcher.matchBooks ta tb aA aB none none) :=
  ⟨BookMatcher.cleanIsbn_characterization, BookMatcher.matchBooks_invalid_isbn_absent⟩

/-! ## Positivity of similarity scores -/

namespace BookMatcher

theorem pos_ratioPR (a b : Str) : (SeqM.ratioPR a b).Pos := by
  show (if a.length + b.length = 0 then (⟨1, 1⟩ : PRat)
    else ⟨2 * (SeqM.matchesTotal a b : Int), ((a.length + b.length : Nat) : Int)⟩).Pos
  split
  · exact Int.zero_lt_one
  · rename_i h
    show (0 : Int) < ((a.length + b.length : Nat) : Int)
    exact_mod_cast Nat.pos_of_ne_zero h

theorem pos_calcSimilarity (a b : Str) : (calcSimilarity a b).Pos := by
  unfold calcSimilarity
  split
  · exact Int.zero_lt_one
  · apply PRat.Pos.posAdd
    · exact PRat.Pos.posMul (by norm_num [PRat.Pos]) (pos_ratioPR a b)
    · apply PRat.Pos.posMul (by norm_num [PRat.Pos])
      split
      · rename_i ht
        show (0 : Int) < ((((pySplitWs a).dedup ++
            List.filter (fun t => !(pySplitWs a).dedup.contains t)
              (pySplitWs b).dedup).length : Nat) : Int)
        have h1 : 1 ≤ ((pySplitWs a).dedup ++
            List.filter (fun t => !(pySplitWs a).dedup.contains t)
              (pySplitWs b).dedup).length := by
          rw [List.length_append]
          rcases hA : (pySplitWs a).dedup with _ | ⟨x, xs⟩
          · rw [hA] at ht; simp at ht
          · simp only [List.length_cons]; omega
        exact_mod_cast Nat.lt_of_lt_of_le Nat.zero_lt_one h1
      · exact Int.zero_lt_one

theorem pos_fuzzyBest (nta ntb ata atb : Str) (aA aB : Option Str) :
    (fuzzyBest nta ntb ata atb aA aB).Pos := by
  unfold fuzzyBest
  have hmax := PRat.Pos.posPmax (pos_calcSimilarity nta ntb) (pos_calcSimilarity ata atb)
  by_cases h : authorsMatch aA aB = true
  · simp only [h, if_pos]
    exact PRat.Pos.posPmin (by norm_num [PRat.Pos]) (PRat.Pos.posAdd hmax (by norm_num [PRat.Pos]))
  · simp only [h, if_neg, Bool.false_eq_true, if_false]
    exact hmax

/-! ## Decision-procedure lemmas for `matchBooks` -/

theorem matchBooks_isbn_exact (ta tb : Str) (aA aB : Option Str) {ia ib : Option Str} {c : Str}
    (ha : cleanOpt ia = some c) (hb : cleanOpt ib = some c) :
    matchBooks ta tb aA aB ia ib =
      ⟨true, ⟨1, 1⟩, "isbn_exact", TitleNormalizer.normalize false ta,
       TitleNormalizer.normalize false tb, [("isbn_match", .bv true)]⟩ := by
  rcases ia with _ | sa
  · cases ha
  rcases ib with _ | sb
  · cases hb
  simp only [cleanOpt, Option.some_bind] at ha hb
  unfold matchBooks
  simp only [truthyOpt, Option.getD_some, cleanIsbn_input_ne ha, cleanIsbn_input_ne hb,
    Bool.not_false, Bool.and_self, if_pos, ha, hb]

theorem matchBooks_eq_matchTail (ta tb : Str) (aA aB ia ib : Option Str)
    (hI : ¬ ∃ c, cleanOpt ia = some c ∧ cleanOpt ib = some c) :
    ∃ d, matchBooks ta tb aA aB ia ib
      = matchTail (TitleNormalizer.normalize false ta) (TitleNormalizer.normalize false tb)
          (TitleNormalizer.normalize true ta) (TitleNormalizer.normalize true tb) aA aB d := by
  rcases ia with _ | sa
  · exact ⟨[], rfl⟩
  rcases ib with _ | sb
  · refine ⟨[], ?_⟩
    unfold matchBooks
    simp [truthyOpt]
  unfold matchBooks
  by_cases hta : sa.isEmpty
  · refine ⟨[], ?_⟩
    simp [truthyOpt, hta]
  by_cases htb : sb.isEmpty
  · refine ⟨[], ?_⟩
    simp [truthyOpt, htb]
  simp only [truthyOpt, Option.getD_some, hta, htb, Bool.not_false, Bool.and_self, if_pos,
    Bool.and_true, Bool.not_eq_true']
  rcases hca : cleanIsbn sa with _ | ca
  · exact ⟨[], rfl⟩
  rcases hcb : cleanIsbn sb with _ | cb
  · exact ⟨[], rfl⟩
  have hne : ¬ ca = cb := by
    intro he
    exact hI ⟨ca, by simp [cleanOpt, hca], by simp [cleanOpt, hcb, he]⟩
  simp only []
  rw [if_neg hne]
  by_cases hp : (decide (ca.length = 13) && decide (cb.length = 13) &&
      decide (ca.take 12 = cb.take 12)) = true
  · rw [if_pos hp]
    exact ⟨_, rfl⟩
  · rw [if_neg hp]
    exact ⟨[], rfl⟩

theorem matchTail_fuzzy (nta ntb ata atb : Str) (aA aB : Option Str)
    (d : List (String × DVal)) (hN : nta ≠ ntb) (hA : ata ≠ atb) :
    (matchTail nta ntb ata atb aA aB d).confidence = fuzzyBest nta ntb ata atb aA aB ∧
    ((matchTail nta ntb ata atb aA aB d).is_match = true ↔
      4/5 ≤ (fuzzyBest nta ntb ata atb aA aB).toRat) ∧
    (matchTail nta ntb ata atb aA aB d).match_type =
      (if 9/10 ≤ (fuzzyBest nta ntb ata atb aA aB).toRat then "fuzzy_high"
       else if 4/5 ≤ (fuzzyBest nta ntb ata atb aA aB).toRat then "fuzzy_medium"
       else if 7/10 ≤ (fuzzyBest nta ntb ata atb aA aB).toRat then "fuzzy_low"
       else "no_match") := by
  have hpos := pos_fuzzyBest nta ntb ata atb aA aB
  have h910 : PRat.ble ⟨9, 10⟩ (fuzzyBest nta ntb ata atb aA aB) = true ↔
      9/10 ≤ (fuzzyBest nta ntb ata atb aA aB).toRat := by
    rw [PRat.ble_iff (by norm_num [PRat.Pos]) hpos]
    have h : (⟨9, 10⟩ : PRat).toRat = 9/10 := by norm_num [PRat.toRat]
    rw [h]
  have h45 : PRat.ble ⟨4, 5⟩ (fuzzyBest nta ntb ata atb aA aB) = true ↔
      4/5 ≤ (fuzzyBest nta ntb ata atb aA aB).toRat := by
    rw [PRat.ble_iff (by norm_num [PRat.Pos]) hpos]
    have h : (⟨4, 5⟩ : PRat).toRat = 4/5 := by norm_num [PRat.toRat]
    rw [h]
  have h710 : PRat.ble ⟨7, 10⟩ (fuzzyBest nta ntb ata atb aA aB) = true ↔
      7/10 ≤ (fuzzyBest nta ntb ata atb aA aB).toRat := by
    rw [PRat.ble_iff (by norm_num [PRat.Pos]) hpos]
    have h : (⟨7, 10⟩ : PRat).toRat = 7/10 := by norm_num [PRat.toRat]
    rw [h]
  unfold matchTail
  rw [if_neg hN, if_neg hA]
  simp only []
  by_cases h9 : PRat.ble ⟨9, 10⟩ (fuzzyBest nta ntb ata atb aA aB) = true
  · have hq9 := h910.mp h9
    rw [if_pos h9, if_pos hq9]
    refine ⟨rfl, ?_, rfl⟩
    simp only [true_iff]
    linarith
  · have hq9 : ¬ 9/10 ≤ (fuzzyBest nta ntb ata atb aA aB).toRat := fun hc => h9 (h910.mpr hc)
    rw [if_neg h9, if_neg hq9]
    by_cases h4 : PRat.ble ⟨4, 5⟩ (fuzzyBest nta ntb ata atb aA aB) = true
    · have hq4 := h45.mp h4
      rw [if_pos h4, if_pos hq4]
      exact ⟨rfl, by simp [hq4], rfl⟩
    · have hq4 : ¬ 4/5 ≤ (fuzzyBest nta ntb ata atb aA aB).toRat := fun hc => h4 (h45.mpr hc)
      rw [if_neg h4, if_neg hq4]
      by_cases h7 : PRat.ble ⟨7, 10⟩ (fuzzyBest nta ntb ata atb aA aB) = true
      · have hq7 := h710.mp h7
        rw [if_pos h7, if_pos hq7]
        exact ⟨rfl, by simp [hq4], rfl⟩
      · have hq7 : ¬ 7/10 ≤ (fuzzyBest nta ntb ata atb aA aB).toRat := fun hc => h7 (h710.mpr hc)
        rw [if_neg h7, if_neg hq7]
        exact ⟨rfl, by simp [hq4], rfl⟩

end BookMatcher

namespace BookMatcher

theorem dset_mem_of_ne {l : List (String × DVal)} {k : String} {v : DVal} {k' : String}
    {v' : DVal} (h : (k, v) ∈ l) (hne : k ≠ k') : (k, v) ∈ dset l k' v' := by
  unfold dset
  split
  · apply List.mem_map.mpr
    refine ⟨(k, v), h, ?_⟩
    rw [if_neg (by simpa using hne)]
  · exact List.mem_append_left _ h

theorem matchTail_type_mem (nta ntb ata atb : Str) (aA aB : Option Str)
    (d : List (String × DVal)) :
    (matchTail nta ntb ata atb aA aB d).match_type ∈
      (["normalized_exact", "aggressive_normalized", "fuzzy_high", "fuzzy_medium",
        "fuzzy_low", "no_match"] : List String) := by
  unfold matchTail
  split
  · simp
  split
  · simp
  simp only []
  split
  · simp
  split
  · simp
  split
  · simp
  simp

theorem matchTail_details_mem (nta ntb ata atb : Str) (aA aB : Option Str)
    (d : List (String × DVal)) {k : String} {v : DVal} (hk : (k, v) ∈ d)
    (h1 : k ≠ "title_similarity") (h2 : k ≠ "aggressive_similarity")
    (h3 : k ≠ "author_match") :
    (k, v) ∈ (matchTail nta ntb ata atb aA aB d).details := by
  unfold matchTail
  split
  · exact hk
  split
  · exact hk
  simp only []
  have hbase : (k, v) ∈ dset (dset d "title_similarity" (.qv (calcSimilarity nta ntb)))
      "aggressive_similarity" (.qv (calcSimilarity ata atb)) :=
    dset_mem_of_ne (dset_mem_of_ne hk h1) h2
  split
  · split
    · exact dset_mem_of_ne hbase h3
    · exact hbase
  split
  · split
    · exact dset_mem_of_ne hbase h3
    · exact hbase
  split
  · split
    · exact dset_mem_of_ne hbase h3
    · exact hbase
  split
  · exact dset_mem_of_ne hbase h3
  · exact hbase

end BookMatcher

theorem tier1_exact (st : IndexState) (nt : Str) {s c : Str} {mi : Nat} {mb : Book}
    (hc : BookMatcher.cleanIsbn s = some c) (hm : dGet st.isbnIdx c = some mi)
    (hb : st.books.get? mi = some mb) :
    tier1 st nt (some s) = some (mb, ⟨true, ⟨1, 1⟩, "isbn_exact", nt,
      TitleNormalizer.normalize false mb.title, [("isbn_match", .bv true)]⟩) := by
  unfold tier1
  simp only [BookMatcher.cleanIsbn_input_ne hc, Bool.false_eq_true, if_false, hc, hm, hb]

/-- Claim C1 (identifier dominance): when both identifiers are present, pass
the validity pattern after cleaning, and clean to the same string,
`BookMatcher.match` reports `isbn_exact` with confidence 1.0 and a positive
match regardless of the titles and authors; and `BookIndex.find_match`
reports the same whenever the query's cleaned identifier is a key of the
identifier map of a well-positioned index. -/
theorem claim_C1_identifier_dominance :
    (∀ (ta tb : Str) (aA aB ia ib : Option Str) (c : Str),
      BookMatcher.cleanOpt ia = some c → BookMatcher.cleanOpt ib = some c →
      (BookMatcher.matchBooks ta tb aA aB ia ib).match_type = "isbn_exact" ∧
      (BookMatcher.matchBooks ta tb aA aB ia ib).confidence.toRat = 1 ∧
      (BookMatcher.matchBooks ta tb aA aB ia ib).is_match = true) ∧
    (∀ (st : IndexState) (q : Book) (thr : PRat) (s c : Str) (mi : Nat),
      extractIsbn q = some s → BookMatcher.cleanIsbn s = some c →
      dGet st.isbnIdx c = some mi → mi < st.books.length →
      ∃ mb r, findMatch st q thr = some (mb, r) ∧ st.books.get? mi = some mb ∧
        r.match_type = "isbn_exact" ∧ r.confidence.toRat = 1 ∧ r.is_match = true) := by
  constructor
  · intro ta tb aA aB ia ib c ha hb
    rw [BookMatcher.matchBooks_isbn_exact ta tb aA aB ha hb]
    refine ⟨rfl, ?_, rfl⟩
    norm_num [PRat.toRat]
  · intro st q thr s c mi hx hc hm hlt
    have hb : st.books.get? mi = some st.books[mi] := by
      rw [List.get?_eq_getElem?]
      exact List.getElem?_eq_getElem hlt
    have hfm : findMatch st q thr = some (st.books[mi],
        ⟨true, ⟨1, 1⟩, "isbn_exact", TitleNormalizer.normalize false q.title,
         TitleNormalizer.normalize false (st.books[mi]).title, [("isbn_match", .bv true)]⟩) := by
      unfold findMatch
      simp only []
      rw [hx, tier1_exact st _ hc hm hb]
    exact ⟨st.books[mi], _, hfm, hb, rfl, by norm_num [PRat.toRat], rfl⟩

set_option maxRecDepth 1000000

/-- Witness for C1 at a concrete pair and a concrete one-record index sharing
the identifier `9781455586691` (written with different hyphenation). -/
theorem claim_C1_identifier_dominance_witness :
    ((BookMatcher.matchBooks "Deep Work".data "Shallow Work".data none none
        (some "9781455586691".data) (some "978-1455586691".data)).match_type = "isbn_exact" ∧
     (BookMatcher.matchBooks "Deep Work".data "Shallow Work".data none none
        (some "9781455586691".data) (some "978-1455586691".data)).confidence.toRat = 1 ∧
     (BookMatcher.matchBooks "Deep Work".data "Shallow Work".data none none
        (some "9781455586691".data) (some "978-1455586691".data)).is_match = true) ∧
    (∃ mb r, findMatch (buildIndex [⟨"a".data, [], ["9781455586691".data], none⟩])
        ⟨"b".data, [], ["978-1455586691".data], none⟩ ⟨4, 5⟩ = some (mb, r) ∧
      (buildIndex [⟨"a".data, [], ["9781455586691".data], none⟩]).books.get? 0 = some mb ∧
      r.match_type = "isbn_exact" ∧ r.confidence.toRat = 1 ∧ r.is_match = true) :=
  ⟨claim_C1_identifier_dominance.1 "Deep Work".data "Shallow Work".data none none
      (some "9781455586691".data) (some "978-1455586691".data) "9781455586691".data
      (by decide) (by decide),
   claim_C1_identifier_dominance.2 (buildIndex [⟨"a".data, [], ["9781455586691".data], none⟩])
      ⟨"b".data, [], ["978-1455586691".data], none⟩ ⟨4, 5⟩ "978-1455586691".data
      "9781455586691".data 0 (by decide) (by decide) (by decide) (by decide)⟩

/-- Claim C7: when both identifiers are valid 13-character codes after
cleaning that share their first 12 characters but differ, the identifier
step does not return; the result comes from the title tiers (its match type
is never the identifier tier's), and the prefix signal is recorded in the
details map. -/
theorem claim_C7_isbn_prefix_not_returned :
    ∀ (ta tb : Str) (aA aB ia ib : Option Str) (ca cb : Str),
      BookMatcher.cleanOpt ia = some ca → BookMatcher.cleanOpt ib = some cb →
      ca ≠ cb → ca.length = 13 → cb.length = 13 → ca.take 12 = cb.take 12 →
      (BookMatcher.matchBooks ta tb aA aB ia ib).match_type ≠ "isbn_exact" ∧
      (BookMatcher.matchBooks ta tb aA aB ia ib).match_type ∈
        (["normalized_exact", "aggressive_normalized", "fuzzy_high", "fuzzy_medium",
          "fuzzy_low", "no_match"] : List String) ∧
      ("isbn_prefix_match", BookMatcher.DVal.bv true) ∈
        (BookMatcher.matchBooks ta tb aA aB ia ib).details := by
  intro ta tb aA aB ia ib ca cb ha hb hne h13a h13b hp
  rcases ia with _ | sa
  · cases ha
  rcases ib with _ | sb
  · cases hb
  simp only [BookMatcher.cleanOpt, Option.some_bind] at ha hb
  have hstep : BookMatcher.matchBooks ta tb aA aB (some sa) (some sb)
      = BookMatcher.matchTail (TitleNormalizer.normalize false ta)
          (TitleNormalizer.normalize false tb) (TitleNormalizer.normalize true ta)
          (TitleNormalizer.normalize true tb) aA aB
          [("isbn_prefix_match", BookMatcher.DVal.bv true)] := by
    unfold BookMatcher.matchBooks
    simp only [BookMatcher.truthyOpt, Option.getD_some, BookMatcher.cleanIsbn_input_ne ha,
      BookMatcher.cleanIsbn_input_ne hb, Bool.not_false, Bool.and_self, if_pos, ha, hb]
    rw [if_neg hne, if_pos (by simp [h13a, h13b, hp])]
  rw [hstep]
  refine ⟨?_, BookMatcher.matchTail_type_mem _ _ _ _ _ _ _, ?_⟩
  · intro heq
    have hmem := BookMatcher.matchTail_type_mem (TitleNormalizer.normalize false ta)
      (TitleNormalizer.normalize false tb) (TitleNormalizer.normalize true ta)
      (TitleNormalizer.normalize true tb) aA aB
      [("isbn_prefix_match", BookMatcher.DVal.bv true)]
    rw [heq] at hmem
    simp at hmem
  · exact BookMatcher.matchTail_details_mem _ _ _ _ _ _ _
      (List.mem_singleton.mpr rfl) (by decide) (by decide) (by decide)

/-- Witness for C7: two valid 13-character identifiers differing only in the
check digit, with unrelated titles. -/
theorem claim_C7_isbn_prefix_not_returned_witness :
    (BookMatcher.matchBooks "X".data "Y".data none none
        (some "9781111111111".data) (some "9781111111115".data)).match_type ≠ "isbn_exact" ∧
    (BookMatcher.matchBooks "X".data "Y".data none none
        (some "9781111111111".data) (some "9781111111115".data)).match_type ∈
      (["normalized_exact", "aggressive_normalized", "fuzzy_high", "fuzzy_medium",
        "fuzzy_low", "no_match"] : List String) ∧
    ("isbn_prefix_match", BookMatcher.DVal.bv true) ∈
      (BookMatcher.matchBooks "X".data "Y".data none none
        (some "9781111111111".data) (some "9781111111115".data)).details :=
  claim_C7_isbn_prefix_not_returned "X".data "Y".data none none
    (some "9781111111111".data) (some "9781111111115".data)
    "9781111111111".data "9781111111115".data
    (by decide) (by decide) (by decide) (by decide) (by decide) (by decide)

/-- Claim C10: with no valid identifiers, equal standard-normalized titles
(including two empty titles, which both normalize to the empty string) give a
positive `normalized_exact` match with confidence 0.95, upgraded to 1.0 when
the authors match; in particular the pairwise matcher reports two empty
titles as an exact match. -/
theorem claim_C10_empty_titles_normalized_exact :
    (∀ (ta tb : Str) (aA aB ia ib : Option Str),
      BookMatcher.cleanOpt ia = none → BookMatcher.cleanOpt ib = none →
      TitleNormalizer.normalize false ta = TitleNormalizer.normalize false tb →
      (BookMatcher.matchBooks ta tb aA aB ia ib).is_match = true ∧
      (BookMatcher.matchBooks ta tb aA aB ia ib).match_type = "normalized_exact" ∧
      (BookMatcher.matchBooks ta tb aA aB ia ib).confidence.toRat =
        (if BookMatcher.authorsMatch aA aB = true then 1 else 19/20)) ∧
    ((BookMatcher.matchBooks [] [] none none none none).is_match = true ∧
     (BookMatcher.matchBooks [] [] none none none none).match_type = "normalized_exact" ∧
     (BookMatcher.matchBooks [] [] none none none none).confidence.toRat = 19/20) := by
  constructor
  · intro ta tb aA aB ia ib ha hb hN
    rw [BookMatcher.matchBooks_invalid_isbn_absent ta tb aA aB ia ib (Or.inl ha)]
    have hmt : BookMatcher.matchBooks ta tb aA aB none none
        = BookMatcher.matchTail (TitleNormalizer.normalize false ta)
            (TitleNormalizer.normalize false tb) (TitleNormalizer.normalize true ta)
            (TitleNormalizer.normalize true tb) aA aB [] := rfl
    rw [hmt]
    unfold BookMatcher.matchTail
    rw [if_pos hN]
    refine ⟨rfl, rfl, ?_⟩
    by_cases ham : BookMatcher.authorsMatch aA aB = true
    · rw [if_pos ham, if_pos ham]
      norm_num [PRat.toRat]
    · rw [if_neg ham, if_neg ham]
      norm_num [PRat.toRat]
  · refine ⟨by decide, by decide, ?_⟩
    have h : (BookMatcher.matchBooks [] [] none none none none).confidence
        = ⟨19, 20⟩ := by decide
    rw [h]
    norm_num [PRat.toRat]

/-- Witness for C10 at a concrete pair whose standard normalizations agree
(case folding only). -/
theorem claim_C10_empty_titles_normalized_exact_witness :
    (BookMatcher.matchBooks "Corporate Finance".data "corporate finance".data
        none none none none).is_match = true ∧
    (BookMatcher.matchBooks "Corporate Finance".data "corporate finance".data
        none none none none).match_type = "normalized_exact" ∧
    (BookMatcher.matchBooks "Corporate Finance".data "corporate finance".data
        none none none none).confidence.toRat =
      (if BookMatcher.authorsMatch none none = true then 1 else 19/20) :=
  claim_C10_empty_titles_normalized_exact.1 "Corporate Finance".data "corporate finance".data
    none none none none (by decide) (by decide) (by decide)

/-- Claim C2: whenever `match` reaches the fuzzy step (no identifier return,
both exact-title tiers miss), the result's confidence is exactly the final
best similarity `s` (after the author bonus), the match type follows the
0.90/0.80/0.70 thresholds, and `is_match` holds exactly when `s ≥ 0.80`. -/
theorem claim_C2_fuzzy_threshold_classification :
    ∀ (ta tb : Str) (aA aB ia ib : Option Str),
      (¬ ∃ c, BookMatcher.cleanOpt ia = some c ∧ BookMatcher.cleanOpt ib = some c) →
      TitleNormalizer.normalize false ta ≠ TitleNormalizer.normalize false tb →
      TitleNormalizer.normalize true ta ≠ TitleNormalizer.normalize true tb →
      (BookMatcher.matchBooks ta tb aA aB ia ib).confidence =
        BookMatcher.fuzzyBest (TitleNormalizer.normalize false ta)
          (TitleNormalizer.normalize false tb) (TitleNormalizer.normalize true ta)
          (TitleNormalizer.normalize true tb) aA aB ∧
      ((BookMatcher.matchBooks ta tb aA aB ia ib).is_match = true ↔
        4/5 ≤ (BookMatcher.fuzzyBest (TitleNormalizer.normalize false ta)
          (TitleNormalizer.normalize false tb) (TitleNormalizer.normalize true ta)
          (TitleNormalizer.normalize true tb) aA aB).toRat) ∧
      (BookMatcher.matchBooks ta tb aA aB ia ib).match_type =
        (if 9/10 ≤ (BookMatcher.fuzzyBest (TitleNormalizer.normalize false ta)
            (TitleNormalizer.normalize false tb) (TitleNormalizer.normalize true ta)
            (TitleNormalizer.normalize true tb) aA aB).toRat then "fuzzy_high"
         else if 4/5 ≤ (BookMatcher.fuzzyBest (TitleNormalizer.normalize false ta)
            (TitleNormalizer.normalize false tb) (TitleNormalizer.normalize true ta)
            (TitleNormalizer.normalize true tb) aA aB).toRat then "fuzzy_medium"
         else if 7/10 ≤ (BookMatcher.fuzzyBest (TitleNormalizer.normalize false ta)
            (TitleNormalizer.normalize false tb) (TitleNormalizer.normalize true ta)
            (TitleNormalizer.normalize true tb) aA aB).toRat then "fuzzy_low"
         else "no_match") := by
  intro ta tb aA aB ia ib hI hN hA
  obtain ⟨d, hd⟩ := BookMatcher.matchBooks_eq_matchTail ta tb aA aB ia ib hI
  rw [hd]
  exact BookMatcher.matchTail_fuzzy _ _ _ _ aA aB d hN hA

/-- Witness for C2 at the spec's own example pair, which reaches the fuzzy
step with neither exact tier firing. -/
theorem claim_C2_fuzzy_threshold_classification_witness :
    (BookMatcher.matchBooks "Corporate Finance".data "Personal Finance".data
        none none none none).confidence =
      BookMatcher.fuzzyBest (TitleNormalizer.normalize false "Corporate Finance".data)
        (TitleNormalizer.normalize false "Personal Finance".data)
        (TitleNormalizer.normalize true "Corporate Finance".data)
        (TitleNormalizer.normalize true "Personal Finance".data) none none ∧
    ((BookMatcher.matchBooks "Corporate Finance".data "Personal Finance".data
        none none none none).is_match = true ↔
      4/5 ≤ (BookMatcher.fuzzyBest (TitleNormalizer.normalize false "Corporate Finance".data)
        (TitleNormalizer.normalize false "Personal Finance".data)
        (TitleNormalizer.normalize true "Corporate Finance".data)
        (TitleNormalizer.normalize true "Personal Finance".data) none none).toRat) ∧
    (BookMatcher.matchBooks "Corporate Finance".data "Personal Finance".data
        none none none none).match_type =
      (if 9/10 ≤ (BookMatcher.fuzzyBest (TitleNormalizer.normalize false "Corporate Finance".data)
          (TitleNormalizer.normalize false "Personal Finance".data)
          (TitleNormalizer.normalize true "Corporate Finance".data)
          (TitleNormalizer.normalize true "Personal Finance".data) none none).toRat
        then "fuzzy_high"
       else if 4/5 ≤ (BookMatcher.fuzzyBest
          (TitleNormalizer.normalize false "Corporate Finance".data)
          (TitleNormalizer.normalize false "Personal Finance".data)
          (TitleNormalizer.normalize true "Corporate Finance".data)
          (TitleNormalizer.normalize true "Personal Finance".data) none none).toRat
        then "fuzzy_medium"
       else if 7/10 ≤ (BookMatcher.fuzzyBest
          (TitleNormalizer.normalize false "Corporate Finance".data)
          (TitleNormalizer.normalize false "Personal Finance".data)
          (TitleNormalizer.normalize true "Corporate Finance".data)
          (TitleNormalizer.normalize true "Personal Finance".data) none none).toRat
        then "fuzzy_low"
       else "no_match") :=
  claim_C2_fuzzy_threshold_classification "Corporate Finance".data "Personal Finance".data
    none none none none
    (by rintro ⟨c, hc, -⟩; cases hc) (by decide) (by decide)

/-! ## Candidate-generation facts (tier 4) -/


theorem bump_keyFix (k : Nat) (p : Nat × Nat) :
    (if p.1 = k then (k, p.2 + 1) else p).1 = p.1 := by
  split
  · rename_i h; rw [← h]
  · rfl

theorem cGet_bump (m : List (Nat × Nat)) (k j : Nat) :
    cGet (bump m k) j = if j = k then cGet m j + 1 else cGet m j := by
  unfold bump
  by_cases hany : m.any (fun p => p.1 = k) = true
  · rw [if_pos hany]
    unfold cGet
    rw [List.find?_map]
    have hpred : ((fun p : Nat × Nat => decide (p.1 = j)) ∘
        (fun p => if p.1 = k then (k, p.2 + 1) else p))
          = (fun p : Nat × Nat => decide (p.1 = j)) := by
      funext p
      simp only [Function.comp_apply, bump_keyFix]
    rw [hpred]
    rcases hf : m.find? (fun p => decide (p.1 = j)) with _ | p
    · rw [hf]
      by_cases hjk : j = k
      · subst hjk
        obtain ⟨q, hq, hqk⟩ := List.any_eq_true.mp hany
        have hs : (m.find? fun p => decide (p.1 = j)).isSome := by
          rw [List.find?_isSome]
          exact ⟨q, hq, hqk⟩
        rw [hf] at hs
        cases hs
      · simp [hjk]
    · have hpj : p.1 = j := by simpa using List.find?_some hf
      rw [hf]
      simp only [Option.map_some', Option.getD_some, Function.comp_apply]
      by_cases hjk : j = k
      · subst hjk
        rw [if_pos hpj, if_pos rfl]
      · rw [if_neg (by rw [hpj]; exact hjk), if_neg hjk]
  · rw [if_neg hany]
    unfold cGet
    rw [List.find?_append]
    rcases hf : m.find? (fun p => decide (p.1 = j)) with _ | p
    · rw [hf]
      simp only [Option.none_or]
      by_cases hjk : j = k
      · subst hjk
        simp [List.find?]
      · have hn : ([(k, 1)].find? fun p => decide (p.1 = j)) = none := by
          simp [List.find?, Ne.symm hjk]
        rw [hn]
        simp [hjk]
    · have hpj : p.1 = j := by simpa using List.find?_some hf
      have hjk : ¬ j = k := by
        intro he
        apply hany
        rw [List.any_eq_true]
        exact ⟨p, List.mem_of_find?_eq_some hf, by simp [hpj, he]⟩
      rw [hf]
      have hn : ([(k, 1)].find? fun p => decide (p.1 = j)) = none := by
        simp [List.find?, Ne.symm hjk]
      rw [hn]
      simp [hjk]

theorem cKeys_bump_mem (m : List (Nat × Nat)) (k j : Nat) :
    j ∈ cKeys (bump m k) ↔ j = k ∨ j ∈ cKeys m := by
  unfold bump cKeys
  by_cases hany : m.any (fun p => p.1 = k) = true
  · rw [if_pos hany, List.map_map]
    have : (Prod.fst ∘ fun p : Nat × Nat => if p.1 = k then (k, p.2 + 1) else p) = Prod.fst := by
      funext p
      exact bump_keyFix k p
    rw [this]
    constructor
    · intro h; exact Or.inr h
    · intro h
      rcases h with h | h
      · subst h
        obtain ⟨q, hq, hqk⟩ := List.any_eq_true.mp hany
        have : q.1 = j := by simpa using hqk
        rw [← this]
        exact List.mem_map_of_mem _ hq
      · exact h
  · rw [if_neg hany, List.map_append]
    simp [or_comm]

theorem vals_pos_bump (m : List (Nat × Nat)) (k : Nat) (h : ∀ p ∈ m, 1 ≤ p.2) :
    ∀ p ∈ bump m k, 1 ≤ p.2 := by
  unfold bump
  split
  · intro p hp
    obtain ⟨q, hq, hqe⟩ := List.mem_map.mp hp
    have hv := h q hq
    rw [← hqe]
    split
    · simp
    · exact hv
  · intro p hp
    rcases List.mem_append.mp hp with h1 | h1
    · exact h p h1
    · simp only [List.mem_singleton] at h1
      rw [h1]

theorem nodup_keys_bump (m : List (Nat × Nat)) (k : Nat) (h : (cKeys m).Nodup) :
    (cKeys (bump m k)).Nodup := by
  unfold bump cKeys
  by_cases hany : m.any (fun p => p.1 = k) = true
  · rw [if_pos hany, List.map_map]
    have heq : (Prod.fst ∘ fun p : Nat × Nat => if p.1 = k then (k, p.2 + 1) else p)
        = Prod.fst := by
      funext p
      exact bump_keyFix k p
    rw [heq]
    exact h
  · rw [if_neg hany, List.map_append]
    rw [List.nodup_append]
    refine ⟨h, List.nodup_singleton k, ?_⟩
    intro a ha hb
    simp only [List.map_cons, List.map_nil, List.mem_singleton] at hb
    subst hb
    obtain ⟨q, hq, hqe⟩ := List.mem_map.mp ha
    apply hany
    rw [List.any_eq_true]
    exact ⟨q, hq, by simp [hqe]⟩

theorem cGet_foldl_bump (ns : List Nat) (m : List (Nat × Nat)) (j : Nat) :
    cGet (ns.foldl bump m) j = cGet m j + ns.count j := by
  induction ns generalizing m with
  | nil => simp
  | cons n ns ih =>
    rw [List.foldl_cons, ih, cGet_bump]
    by_cases hjn : j = n
    · subst hjn
      rw [if_pos rfl, List.count_cons_self]
      omega
    · rw [if_neg hjn, List.count_cons_of_ne hjn]

theorem cKeys_foldl_bump_mem (ns : List Nat) (m : List (Nat × Nat)) (j : Nat) :
    j ∈ cKeys (ns.foldl bump m) ↔ j ∈ ns ∨ j ∈ cKeys m := by
  induction ns generalizing m with
  | nil => simp
  | cons n ns ih =>
    rw [List.foldl_cons, ih, cKeys_bump_mem]
    constructor
    · rintro (h | h | h)
      · exact Or.inl (List.mem_cons_of_mem n h)
      · exact Or.inl (by rw [h]; exact List.mem_cons_self n ns)
      · exact Or.inr h
    · rintro (h | h)
      · rcases List.mem_cons.mp h with h | h
        · exact Or.inr (Or.inl h)
        · exact Or.inl h
      · exact Or.inr (Or.inr h)

theorem vals_pos_foldl_bump (ns : List Nat) (m : List (Nat × Nat)) (h : ∀ p ∈ m, 1 ≤ p.2) :
    ∀ p ∈ ns.foldl bump m, 1 ≤ p.2 := by
  induction ns generalizing m with
  | nil => exact h
  | cons n ns ih =>
    rw [List.foldl_cons]
    exact ih _ (vals_pos_bump m n h)

theorem nodup_keys_foldl_bump (ns : List Nat) (m : List (Nat × Nat)) (h : (cKeys m).Nodup) :
    (cKeys (ns.foldl bump m)).Nodup := by
  induction ns generalizing m with
  | nil => exact h
  | cons n ns ih =>
    rw [List.foldl_cons]
    exact ih _ (nodup_keys_bump m n h)

theorem cGet_gramsFold (st : IndexState) (grams : List Str) (m0 : List (Nat × Nat)) (j : Nat) :
    cGet (grams.foldl
      (fun m g =>
        match dGet st.ngramIdx g with
        | some postings => postings.foldl bump m
        | none => m) m0) j = cGet m0 j + sharedTally st grams j := by
  induction grams generalizing m0 with
  | nil => simp [sharedTally]
  | cons g gs ih =>
    rw [List.foldl_cons, ih]
    have hstep : cGet (match dGet st.ngramIdx g with
        | some postings => postings.foldl bump m0
        | none => m0) j = cGet m0 j + ((dGet st.ngramIdx g).getD []).count j := by
      rcases hg : dGet st.ngramIdx g with _ | l
      · simp
      · simp only [Option.getD_some]
        exact cGet_foldl_bump l m0 j
    rw [hstep]
    have hst : sharedTally st (g :: gs) j
        = ((dGet st.ngramIdx g).getD []).count j + sharedTally st gs j := by
      unfold sharedTally
      rw [List.map_cons, List.sum_cons]
    rw [hst]
    omega

theorem vals_pos_gramsFold (st : IndexState) (grams : List Str) (m0 : List (Nat × Nat))
    (h : ∀ p ∈ m0, 1 ≤ p.2) :
    ∀ p ∈ grams.foldl
      (fun m g =>
        match dGet st.ngramIdx g with
        | some postings => postings.foldl bump m
        | none => m) m0, 1 ≤ p.2 := by
  induction grams generalizing m0 with
  | nil => exact h
  | cons g gs ih =>
    rw [List.foldl_cons]
    apply ih
    rcases hg : dGet st.ngramIdx g with _ | l
    · exact h
    · exact vals_pos_foldl_bump l m0 h

theorem nodup_keys_gramsFold (st : IndexState) (grams : List Str) (m0 : List (Nat × Nat))
    (h : (cKeys m0).Nodup) :
    (cKeys (grams.foldl
      (fun m g =>
        match dGet st.ngramIdx g with
        | some postings => postings.foldl bump m
        | none => m) m0)).Nodup := by
  induction grams generalizing m0 with
  | nil => exact h
  | cons g gs ih =>
    rw [List.foldl_cons]
    apply ih
    rcases hg : dGet st.ngramIdx g with _ | l
    · exact h
    · exact nodup_keys_foldl_bump l m0 h

theorem find?_eq_of_nodup_keys {m : List (Nat × Nat)} {p : Nat × Nat}
    (hnd : (cKeys m).Nodup) (hp : p ∈ m) :
    m.find? (fun q => q.1 = p.1) = some p := by
  induction m with
  | nil => cases hp
  | cons q t ih =>
    rw [cKeys, List.map_cons, List.nodup_cons] at hnd
    rcases List.mem_cons.mp hp with he | ht
    · subst he
      simp [List.find?]
    · by_cases hq : q.1 = p.1
      · exfalso
        apply hnd.1
        rw [hq]
        exact List.mem_map_of_mem _ ht
      · rw [List.find?_cons_of_neg _ (by simpa using hq)]
        exact ih hnd.2 ht

theorem mem_filterMap_counts {m : List (Nat × Nat)} {minM idx : Nat}
    (hnd : (cKeys m).Nodup) (hmin : 1 ≤ minM) :
    (idx ∈ (m.filter (fun p => minM ≤ p.2)).map (·.1)) ↔ minM ≤ cGet m idx := by
  constructor
  · intro h
    obtain ⟨p, hpf, hpe⟩ := List.mem_map.mp h
    obtain ⟨hpm, hple⟩ := List.mem_filter.mp hpf
    have : m.find? (fun q => q.1 = p.1) = some p := find?_eq_of_nodup_keys hnd hpm
    unfold cGet
    rw [← hpe, this]
    simpa using hple
  · intro h
    rcases hf : m.find? (fun q => q.1 = idx) with _ | p
    · exfalso
      unfold cGet at h
      rw [hf] at h
      simp at h
      omega
    · have hcg : cGet m idx = p.2 := by
        unfold cGet
        rw [hf]
        rfl
      have hpm := List.mem_of_find?_eq_some hf
      have hpi : p.1 = idx := by simpa using List.find?_some hf
      apply List.mem_map.mpr
      refine ⟨p, List.mem_filter.mpr ⟨hpm, by simp [← hcg, h]⟩, hpi⟩

theorem genNgrams_ne_nil {t : Str} (h : t ≠ []) : genNgrams t 3 ≠ [] := by
  unfold genNgrams
  split
  · rw [if_neg (by simpa using h)]
    simp
  · rename_i hlen
    intro hc
    rw [List.map_eq_nil_iff, List.range_eq_nil] at hc
    omega

theorem mem_findCandidates_iff (st : IndexState) (agt : Str) (ov : PRat) (idx : Nat)
    (h1 : agt ≠ []) :
    idx ∈ findCandidates st agt ov ↔
      max 1 (truncNat (PRat.mul ⟨((genNgrams agt 3).length : Int), 1⟩ ov))
        ≤ sharedTally st (genNgrams agt 3) idx := by
  unfold findCandidates
  rw [if_neg (by simpa using h1)]
  simp only []
  rw [if_neg (by simpa using genNgrams_ne_nil h1)]
  have hnd := nodup_keys_gramsFold st (genNgrams agt 3) [] (by simp [cKeys])
  have hval := cGet_gramsFold st (genNgrams agt 3) [] idx
  have hz : cGet [] idx = 0 := rfl
  rw [hz] at hval
  rw [mem_filterMap_counts hnd (Nat.le_max_left 1 _), hval]
  omega

theorem truncNat_threeTenths (L : Nat) :
    truncNat (PRat.mul ⟨(L : Int), 1⟩ ⟨3, 10⟩) = 3 * L / 10 := by
  unfold truncNat PRat.mul
  simp only []
  omega

/-- Claim C5 (amended): in the n-gram candidate tier as used by `find_match`
(`min_overlap = 0.3`), a position is kept exactly when its shared-gram tally
reaches `max(1, floor(len(ngrams) × 0.3))` — a floor with a minimum of one,
not the ceiling the claim states. -/
theorem claim_C5_candidate_threshold_floor (st : IndexState) (agt : Str) (idx : Nat)
    (h1 : agt ≠ []) :
    idx ∈ findCandidates st agt ⟨3, 10⟩ ↔
      max 1 (3 * (genNgrams agt 3).length / 10) ≤ sharedTally st (genNgrams agt 3) idx := by
  rw [mem_findCandidates_iff st agt ⟨3, 10⟩ idx h1, truncNat_threeTenths]

/-- Witness for the amended C5 on a concrete index and query. -/
theorem claim_C5_candidate_threshold_floor_witness :
    0 ∈ findCandidates (buildIndex [⟨"abcxyz".data, [], [], none⟩])
        (TitleNormalizer.normalize true "abcdef".data) ⟨3, 10⟩ ↔
      max 1 (3 * (genNgrams (TitleNormalizer.normalize true "abcdef".data) 3).length / 10) ≤
        sharedTally (buildIndex [⟨"abcxyz".data, [], [], none⟩])
          (genNgrams (TitleNormalizer.normalize true "abcdef".data) 3) 0 :=
  claim_C5_candidate_threshold_floor (buildIndex [⟨"abcxyz".data, [], [], none⟩])
    (TitleNormalizer.normalize true "abcdef".data) 0 (by decide)

/-- Counterexample to C5 as stated: the query `abcdef` has 4 trigrams, so the
claimed cut-off `ceil(4 × 0.3) = 2` (computed here as `(3·4+9)/10`); the
indexed record `abcxyz` shares exactly one gram and yet is kept as a
candidate, because the code's threshold is `max(1, int(4·0.3)) = 1`. -/
theorem claim_C5_ceil_counterexample :
    (0 ∈ findCandidates (buildIndex [⟨"abcxyz".data, [], [], none⟩])
        (TitleNormalizer.normalize true "abcdef".data) ⟨3, 10⟩) ∧
    sharedTally (buildIndex [⟨"abcxyz".data, [], [], none⟩])
      (genNgrams (TitleNormalizer.normalize true "abcdef".data) 3) 0 = 1 ∧
    (genNgrams (TitleNormalizer.normalize true "abcdef".data) 3).length = 4 ∧
    ¬ ((3 * 4 + 9) / 10 ≤ 1) := by
  refine ⟨by decide, by decide, by decide, by decide⟩

/-! ### Index construction: every trigram of an indexed record is posted. -/

theorem indexBook_shape (st : IndexState) (idx : Nat) (b : Book) :
    ∃ ib2 nb2 ab2, indexBook st idx b = ⟨st.books, ib2, nb2, ab2,
      if (TitleNormalizer.normalize true b.title).isEmpty = true then st.ngramIdx
      else (genNgrams (TitleNormalizer.normalize true b.title) 3).foldl
        (fun m g => sAdd m g idx) st.ngramIdx⟩ := by
  unfold indexBook
  simp only []
  repeat' split
  all_goals exact ⟨_, _, _, rfl⟩

theorem indexBook_ngramIdx (st : IndexState) (idx : Nat) (b : Book) :
    (indexBook st idx b).ngramIdx =
      if (TitleNormalizer.normalize true b.title).isEmpty = true then st.ngramIdx
      else (genNgrams (TitleNormalizer.normalize true b.title) 3).foldl
        (fun m g => sAdd m g idx) st.ngramIdx := by
  obtain ⟨ib2, nb2, ab2, he⟩ := indexBook_shape st idx b
  rw [he]

theorem indexBook_books (st : IndexState) (idx : Nat) (b : Book) :
    (indexBook st idx b).books = st.books := by
  obtain ⟨ib2, nb2, ab2, he⟩ := indexBook_shape st idx b
  rw [he]

theorem dSet_keyFix {κ α : Type} [DecidableEq κ] (k : κ) (v : α) (p : κ × α) :
    (if p.1 = k then (k, v) else p).1 = p.1 := by
  split
  · rename_i h; rw [← h]
  · rfl

theorem dGet_dSet {κ α : Type} [DecidableEq κ] (l : List (κ × α)) (k j : κ) (v : α) :
    dGet (dSet l k v) j = if j = k then some v else dGet l j := by
  unfold dSet
  by_cases hs : (l.find? (fun p => p.1 = k)).isSome
  · rw [if_pos hs]
    unfold dGet
    rw [List.find?_map]
    have hpred : ((fun p : κ × α => decide (p.1 = j)) ∘
        (fun p => if p.1 = k then (k, v) else p))
          = (fun p : κ × α => decide (p.1 = j)) := by
      funext p
      simp only [Function.comp_apply, dSet_keyFix]
    rw [hpred]
    rcases hf : l.find? (fun p => decide (p.1 = j)) with _ | p
    · by_cases hjk : j = k
      · subst hjk
        rw [List.find?_isSome] at hs
        obtain ⟨q, hq, hqk⟩ := hs
        have hcon : (l.find? fun p => decide (p.1 = j)).isSome :=
          List.find?_isSome.mpr ⟨q, hq, hqk⟩
        rw [hf] at hcon
        cases hcon
      · simp [hjk, hf]
    · have hpj : p.1 = j := by simpa using List.find?_some hf
      by_cases hjk : j = k
      · rw [if_pos hjk, hf]
        simp only [Option.map_some', Function.comp_apply]
        rw [if_pos (hpj.trans hjk)]
      · rw [if_neg hjk, hf]
        simp only [Option.map_some', Function.comp_apply]
        rw [if_neg (by rw [hpj]; exact hjk)]
  · rw [if_neg hs]
    unfold dGet
    rw [List.find?_append]
    rcases hfj : l.find? (fun p => decide (p.1 = j)) with _ | p
    · by_cases hjk : j = k
      · subst hjk
        rw [hfj]
        simp [List.find?]
      · rw [hfj]
        simp [List.find?, hjk, Ne.symm hjk]
    · have hpj : p.1 = j := by simpa using List.find?_some hfj
      by_cases hjk : j = k
      · exfalso
        apply hs
        rw [List.find?_isSome]
        exact ⟨p, List.mem_of_find?_eq_some hfj, by simp [hpj, hjk]⟩
      · rw [hfj]
        simp [hjk]

theorem dGet_sAdd (l : List (Str × List Nat)) (k j : Str) (v : Nat) :
    dGet (sAdd l k v) j =
      if j = k then
        some (if v ∈ (dGet l k).getD [] then (dGet l k).getD []
              else (dGet l k).getD [] ++ [v])
      else dGet l j := by
  unfold sAdd
  rcases hg : dGet l k with _ | xs
  · simp only [Option.getD_none, List.not_mem_nil, if_false, List.nil_append]
    unfold dGet at hg ⊢
    rw [List.find?_append]
    rcases hfj : l.find? (fun p => decide (p.1 = j)) with _ | p
    · by_cases hjk : j = k
      · subst hjk
        rw [hfj]
        simp [List.find?]
      · rw [hfj]
        simp [List.find?, hjk, Ne.symm hjk]
    · have hpj : p.1 = j := by simpa using List.find?_some hfj
      by_cases hjk : j = k
      · exfalso
        have hcon : (l.find? fun p => decide (p.1 = k)).isSome :=
          List.find?_isSome.mpr ⟨p, List.mem_of_find?_eq_some hfj, by simp [hpj, hjk]⟩
        rw [Option.isSome_iff_exists] at hcon
        obtain ⟨q, hq⟩ := hcon
        rw [hq] at hg
        simp at hg
      · rw [hfj]
        simp [hjk]
  · simp only [Option.getD_some]
    by_cases hv : v ∈ xs
    · rw [if_pos hv, if_pos hv]
      by_cases hjk : j = k
      · subst hjk
        rw [if_pos rfl, hg]
      · rw [if_neg hjk]
    · rw [if_neg hv, if_neg hv, dGet_dSet]

theorem sAdd_self_mem (l : List (Str × List Nat)) (k : Str) (v : Nat) :
    v ∈ (dGet (sAdd l k v) k).getD [] := by
  rw [dGet_sAdd, if_pos rfl]
  simp only [Option.getD_some]
  split
  · assumption
  · exact List.mem_append_right _ (List.mem_singleton_self v)

theorem sAdd_mono {l : List (Str × List Nat)} {g k : Str} {v i : Nat}
    (h : i ∈ (dGet l g).getD []) : i ∈ (dGet (sAdd l k v) g).getD [] := by
  rw [dGet_sAdd]
  by_cases hgk : g = k
  · subst hgk
    rw [if_pos rfl]
    simp only [Option.getD_some]
    split
    · exact h
    · exact List.mem_append_left _ h
  · rwa [if_neg hgk]

theorem mem_ngramFold_mono (gs : List Str) (m : List (Str × List Nat)) (g : Str) (v i : Nat)
    (h : i ∈ (dGet m g).getD []) :
    i ∈ (dGet (gs.foldl (fun acc x => sAdd acc x v) m) g).getD [] := by
  induction gs generalizing m with
  | nil => exact h
  | cons x t ih => exact ih _ (sAdd_mono h)

theorem mem_ngramFold_self (gs : List Str) (m : List (Str × List Nat)) (g : Str) (v : Nat)
    (hg : g ∈ gs) :
    v ∈ (dGet (gs.foldl (fun acc x => sAdd acc x v) m) g).getD [] := by
  induction gs generalizing m with
  | nil => cases hg
  | cons x t ih =>
    rcases List.mem_cons.mp hg with h | h
    · subst h
      exact mem_ngramFold_mono t _ g v v (sAdd_self_mem m g v)
    · exact ih _ h

theorem postings_indexBook_self (st : IndexState) (idx : Nat) (b : Book)
    (hagt : TitleNormalizer.normalize true b.title ≠ []) {g : Str}
    (hg : g ∈ genNgrams (TitleNormalizer.normalize true b.title) 3) :
    idx ∈ postings (indexBook st idx b) g := by
  unfold postings
  rw [indexBook_ngramIdx, if_neg (by simpa using hagt)]
  exact mem_ngramFold_self _ _ _ _ hg

theorem postings_indexBook_mono (st : IndexState) (idx : Nat) (b : Book) {g : Str} {i : Nat}
    (h : i ∈ postings st g) : i ∈ postings (indexBook st idx b) g := by
  unfold postings at h ⊢
  rw [indexBook_ngramIdx]
  split
  · exact h
  · exact mem_ngramFold_mono _ _ _ _ _ h

theorem postings_indexFold_mono (L : List (Nat × Book)) (st : IndexState) {g : Str} {i : Nat}
    (h : i ∈ postings st g) :
    i ∈ postings (L.foldl (fun st p => indexBook st p.1 p.2) st) g := by
  induction L generalizing st with
  | nil => exact h
  | cons p t ih => exact ih _ (postings_indexBook_mono _ _ _ h)

theorem postings_indexFold_self (L : List (Nat × Book)) (st : IndexState) (idx : Nat) (b : Book)
    (hmem : (idx, b) ∈ L) (hagt : TitleNormalizer.normalize true b.title ≠ []) {g : Str}
    (hg : g ∈ genNgrams (TitleNormalizer.normalize true b.title) 3) :
    idx ∈ postings (L.foldl (fun st p => indexBook st p.1 p.2) st) g := by
  induction L generalizing st with
  | nil => cases hmem
  | cons p t ih =>
    rcases List.mem_cons.mp hmem with h | h
    · rw [← h]
      exact postings_indexFold_mono t _ (postings_indexBook_self st idx b hagt hg)
    · exact ih _ h

theorem postings_buildIndex_self (books : List Book) (idx : Nat) (b : Book)
    (hb : books[idx]? = some b)
    (hagt : TitleNormalizer.normalize true b.title ≠ []) {g : Str}
    (hg : g ∈ genNgrams (TitleNormalizer.normalize true b.title) 3) :
    idx ∈ postings (buildIndex books) g := by
  unfold buildIndex
  exact postings_indexFold_self _ _ idx b (List.mk_mem_enum_iff_getElem?.mpr hb) hagt hg

theorem le_sharedTally_of_filter (st : IndexState) (idx : Nat) (grams : List Str)
    (p : Str → Bool)
    (h : ∀ g ∈ grams, p g = true → idx ∈ postings st g) :
    (grams.filter p).length ≤ sharedTally st grams idx := by
  induction grams with
  | nil => simp [sharedTally]
  | cons x t ih =>
    have ht : ∀ g ∈ t, p g = true → idx ∈ postings st g :=
      fun g hgm => h g (List.mem_cons_of_mem x hgm)
    have hrec := ih ht
    unfold sharedTally at hrec ⊢
    simp only [List.map_cons, List.sum_cons, List.filter_cons]
    by_cases hpx : p x = true
    · rw [if_pos hpx]
      have h1 : 1 ≤ ((dGet st.ngramIdx x).getD []).count idx :=
        List.count_pos_iff.mpr (h x (List.mem_cons_self x t) hpx)
      simp only [List.length_cons]
      omega
    · rw [if_neg hpx]
      omega

/-- C6: whenever an indexed record's aggressive-normalized title shares at
least 30% of the query's trigrams, the candidate-generation step keeps the
record's position. -/
theorem claim_C6_ngram_recall (books : List Book) (idx : Nat) (b : Book) (q : Str)
    (hb : books[idx]? = some b)
    (hq : TitleNormalizer.normalize true q ≠ [])
    (hshare : 3 * (genNgrams (TitleNormalizer.normalize true q) 3).length ≤
      10 * ((genNgrams (TitleNormalizer.normalize true q) 3).filter
        (fun g => decide (g ∈ genNgrams (TitleNormalizer.normalize true b.title) 3))).length) :
    idx ∈ findCandidates (buildIndex books) (TitleNormalizer.normalize true q) ⟨3, 10⟩ := by
  rw [mem_findCandidates_iff _ _ _ _ hq, truncNat_threeTenths]
  have hn : 1 ≤ (genNgrams (TitleNormalizer.normalize true q) 3).length :=
    List.length_pos.mpr (genNgrams_ne_nil hq)
  have hc : 1 ≤ ((genNgrams (TitleNormalizer.normalize true q) 3).filter
      (fun g => decide (g ∈ genNgrams (TitleNormalizer.normalize true b.title) 3))).length := by
    omega
  have hbne : TitleNormalizer.normalize true b.title ≠ [] := by
    intro h0
    rw [h0] at hc
    simp [genNgrams] at hc
  have hpost : ∀ g ∈ genNgrams (TitleNormalizer.normalize true q) 3,
      decide (g ∈ genNgrams (TitleNormalizer.normalize true b.title) 3) = true →
      idx ∈ postings (buildIndex books) g := by
    intro g hgm hgr
    exact postings_buildIndex_self books idx b hb hbne (of_decide_eq_true hgr)
  have htally := le_sharedTally_of_filter (buildIndex books) idx
    (genNgrams (TitleNormalizer.normalize true q) 3) _ hpost
  omega

/-- Witness for C6: a one-record index queried with a matching title keeps
position 0 in the candidate set. -/
theorem claim_C6_ngram_recall_witness :
    0 ∈ findCandidates (buildIndex [⟨"Abcdef".data, [], [], none⟩])
      (TitleNormalizer.normalize true "abcdef".data) ⟨3, 10⟩ :=
  claim_C6_ngram_recall [⟨"Abcdef".data, [], [], none⟩] 0 ⟨"Abcdef".data, [], [], none⟩
    "abcdef".data (by decide) (by decide) (by decide)

/-! ### `BookIndex.add`: full characterization of one insertion. -/

theorem indexBook_fields (st : IndexState) (idx : Nat) (b : Book) :
    indexBook st idx b = ⟨st.books,
      (match BookMatcher.cleanOpt (extractIsbn b) with
       | some c =>
         if c.length = 13 then dSet (dSet st.isbnIdx c idx) (c.take 12) idx
         else dSet st.isbnIdx c idx
       | none => st.isbnIdx),
      (if (TitleNormalizer.normalize false b.title).isEmpty = true then st.normIdx
       else dAppend st.normIdx (TitleNormalizer.normalize false b.title) idx),
      (if (TitleNormalizer.normalize true b.title).isEmpty = true then st.aggIdx
       else dAppend st.aggIdx (TitleNormalizer.normalize true b.title) idx),
      (if (TitleNormalizer.normalize true b.title).isEmpty = true then st.ngramIdx
       else (genNgrams (TitleNormalizer.normalize true b.title) 3).foldl
         (fun m g => sAdd m g idx) st.ngramIdx)⟩ := by
  unfold indexBook
  simp only []
  rcases hx : extractIsbn b with _ | s
  · have hcl : BookMatcher.cleanOpt (none : Option Str) = none := rfl
    rw [hcl]
    simp only []
    repeat' split
    all_goals rfl
  · simp only []
    have hcl : BookMatcher.cleanOpt (some s) = BookMatcher.cleanIsbn s := rfl
    rw [hcl]
    by_cases hse : s.isEmpty = true
    · have hcln : BookMatcher.cleanIsbn s = none := by
        unfold BookMatcher.cleanIsbn
        rw [if_pos hse]
      rw [if_pos hse, hcln]
      simp only []
      repeat' split
      all_goals rfl
    · rw [if_neg hse]
      rcases hc : BookMatcher.cleanIsbn s with _ | c
      · simp only []
        repeat' split
        all_goals rfl
      · simp only []
        repeat' split
        all_goals rfl

theorem dGet_dAppend (l : List (Str × List Nat)) (k j : Str) (v : Nat) :
    dGet (dAppend l k v) j =
      if j = k then some ((dGet l k).getD [] ++ [v]) else dGet l j := by
  unfold dAppend
  rcases hg : dGet l k with _ | xs
  · simp only [Option.getD_none, List.nil_append]
    unfold dGet at hg ⊢
    rw [List.find?_append]
    rcases hfj : l.find? (fun p => decide (p.1 = j)) with _ | p
    · by_cases hjk : j = k
      · subst hjk
        rw [hfj]
        simp [List.find?]
      · rw [hfj]
        simp [List.find?, hjk, Ne.symm hjk]
    · have hpj : p.1 = j := by simpa using List.find?_some hfj
      by_cases hjk : j = k
      · exfalso
        have hcon : (l.find? fun p => decide (p.1 = k)).isSome :=
          List.find?_isSome.mpr ⟨p, List.mem_of_find?_eq_some hfj, by simp [hpj, hjk]⟩
        rw [Option.isSome_iff_exists] at hcon
        obtain ⟨q, hq⟩ := hcon
        rw [hq] at hg
        simp at hg
      · rw [hfj]
        simp [hjk]
  · simp only [Option.getD_some]
    exact dGet_dSet l k j (xs ++ [v])

theorem mem_dAppend_self (l : List (Str × List Nat)) (k : Str) (v : Nat) :
    v ∈ (dGet (dAppend l k v) k).getD [] := by
  rw [dGet_dAppend, if_pos rfl]
  simp

theorem dSet_val_mem {κ α : Type} [DecidableEq κ] {l : List (κ × α)} {k : κ} {v : α}
    {pr : κ × α} (h : pr ∈ dSet l k v) : pr.2 = v ∨ pr ∈ l := by
  unfold dSet at h
  split at h
  · obtain ⟨q, hq, he⟩ := List.mem_map.mp h
    by_cases hqk : q.1 = k
    · rw [if_pos hqk] at he
      left
      rw [← he]
    · rw [if_neg hqk] at he
      right
      rwa [← he]
  · rcases List.mem_append.mp h with h1 | h1
    · right; exact h1
    · left
      simp at h1
      rw [h1]

theorem dGet_some_mem {κ α : Type} [DecidableEq κ] {l : List (κ × α)} {k : κ} {xs : α}
    (hg : dGet l k = some xs) : ∃ q ∈ l, q.2 = xs := by
  unfold dGet at hg
  rcases hf : l.find? (fun p => decide (p.1 = k)) with _ | q
  · rw [hf] at hg
    cases hg
  · rw [hf] at hg
    simp only [Option.map_some'] at hg
    exact ⟨q, List.mem_of_find?_eq_some hf, Option.some.inj hg⟩

theorem dAppend_val_mem {l : List (Str × List Nat)} {k : Str} {v : Nat}
    {pr : Str × List Nat} (h : pr ∈ dAppend l k v) {i : Nat} (hi : i ∈ pr.2) :
    i = v ∨ ∃ q ∈ l, i ∈ q.2 := by
  unfold dAppend at h
  rcases hg : dGet l k with _ | xs
  · rw [hg] at h
    simp only [] at h
    rcases List.mem_append.mp h with h1 | h1
    · right; exact ⟨pr, h1, hi⟩
    · simp at h1
      rw [h1] at hi
      simp at hi
      left; exact hi
  · rw [hg] at h
    simp only [] at h
    rcases dSet_val_mem h with h1 | h1
    · rw [h1] at hi
      rcases List.mem_append.mp hi with h2 | h2
      · right
        obtain ⟨q, hq, hqx⟩ := dGet_some_mem hg
        exact ⟨q, hq, by rw [hqx]; exact h2⟩
      · simp at h2
        left; exact h2
    · right; exact ⟨pr, h1, hi⟩

theorem sAdd_val_mem {l : List (Str × List Nat)} {k : Str} {v : Nat}
    {pr : Str × List Nat} (h : pr ∈ sAdd l k v) {i : Nat} (hi : i ∈ pr.2) :
    i = v ∨ ∃ q ∈ l, i ∈ q.2 := by
  unfold sAdd at h
  rcases hg : dGet l k with _ | xs
  · rw [hg] at h
    simp only [] at h
    rcases List.mem_append.mp h with h1 | h1
    · right; exact ⟨pr, h1, hi⟩
    · simp at h1
      rw [h1] at hi
      simp at hi
      left; exact hi
  · rw [hg] at h
    simp only [] at h
    split at h
    · right; exact ⟨pr, h, hi⟩
    · rcases dSet_val_mem h with h1 | h1
      · rw [h1] at hi
        rcases List.mem_append.mp hi with h2 | h2
        · right
          obtain ⟨q, hq, hqx⟩ := dGet_some_mem hg
          exact ⟨q, hq, by rw [hqx]; exact h2⟩
        · simp at h2
          left; exact h2
      · right; exact ⟨pr, h1, hi⟩

theorem ngramFold_val_mem (gs : List Str) (m : List (Str × List Nat)) (v : Nat)
    {pr : Str × List Nat} (h : pr ∈ gs.foldl (fun acc g => sAdd acc g v) m)
    {i : Nat} (hi : i ∈ pr.2) :
    i = v ∨ ∃ q ∈ m, i ∈ q.2 := by
  induction gs generalizing m with
  | nil => right; exact ⟨pr, h, hi⟩
  | cons x t ih =>
    rcases ih (sAdd m x v) h with h1 | ⟨q, hq, hiq⟩
    · left; exact h1
    · rcases sAdd_val_mem hq hiq with h2 | h2
      · left; exact h2
      · right; exact h2

theorem wf_dSet {l : List (Str × Nat)} {k : Str} {v n : Nat}
    (hl : ∀ pr ∈ l, pr.2 < n) (hv : v < n) : ∀ pr ∈ dSet l k v, pr.2 < n := by
  intro pr hpr
  rcases dSet_val_mem hpr with he | hm
  · rw [he]; exact hv
  · exact hl pr hm

theorem wf_dAppend {l : List (Str × List Nat)} {k : Str} {v n : Nat}
    (hl : ∀ pr ∈ l, ∀ i ∈ pr.2, i < n) (hv : v < n) :
    ∀ pr ∈ dAppend l k v, ∀ i ∈ pr.2, i < n := by
  intro pr hpr i hi
  rcases dAppend_val_mem hpr hi with he | ⟨q, hq, hiq⟩
  · rw [he]; exact hv
  · exact hl q hq i hiq

theorem wf_ngramFold {gs : List Str} {m : List (Str × List Nat)} {v n : Nat}
    (hm : ∀ pr ∈ m, ∀ i ∈ pr.2, i < n) (hv : v < n) :
    ∀ pr ∈ gs.foldl (fun acc g => sAdd acc g v) m, ∀ i ∈ pr.2, i < n := by
  intro pr hpr i hi
  rcases ngramFold_val_mem gs m v hpr hi with he | ⟨q, hq, hiq⟩
  · rw [he]; exact hv
  · exact hm q hq i hiq

theorem wf_indexBook (st : IndexState) (idx : Nat) (b : Book)
    (hwf : WFIndex st) (hidx : idx < st.books.length) : WFIndex (indexBook st idx b) := by
  obtain ⟨h1, h2, h3, h4⟩ := hwf
  rw [indexBook_fields]
  refine ⟨?_, ?_, ?_, ?_⟩ <;> simp only []
  · rcases BookMatcher.cleanOpt (extractIsbn b) with _ | c
    · exact h1
    · simp only []
      split
      · exact wf_dSet (wf_dSet h1 hidx) hidx
      · exact wf_dSet h1 hidx
  · split
    · exact h2
    · exact wf_dAppend h2 hidx
  · split
    · exact h3
    · exact wf_dAppend h3 hidx
  · split
    · exact h4
    · exact wf_ngramFold h4 hidx

theorem wf_init (st : IndexState) (b : Book) (hwf : WFIndex st) :
    WFIndex { st with books := st.books ++ [b] } := by
  obtain ⟨h1, h2, h3, h4⟩ := hwf
  refine ⟨fun pr h => ?_, fun pr h i hi => ?_, fun pr h i hi => ?_, fun pr h i hi => ?_⟩
  · have := h1 pr h
    simp only [List.length_append]
    omega
  · have := h2 pr h i hi
    simp only [List.length_append]
    omega
  · have := h3 pr h i hi
    simp only [List.length_append]
    omega
  · have := h4 pr h i hi
    simp only [List.length_append]
    omega

/-- C8 (amended): `BookIndex.add` returns the old record-list length as the
position, appends the record there, reflects it in all four index structures
(identifier map with the 12-character alias for 13-character identifiers,
standard- and aggressive-normalized title maps, trigram postings), and
preserves well-formedness.  The original claim's further assertion that add
never modifies entries for previously indexed records is refuted separately. -/
theorem claim_C8_add_characterization (st : IndexState) (b : Book) (hwf : WFIndex st) :
    (addBook st b).2 = st.books.length ∧
    (addBook st b).1.books = st.books ++ [b] ∧
    (addBook st b).1.books[(addBook st b).2]? = some b ∧
    (∀ c, BookMatcher.cleanOpt (extractIsbn b) = some c →
      dGet (addBook st b).1.isbnIdx c = some (addBook st b).2 ∧
      (c.length = 13 →
        dGet (addBook st b).1.isbnIdx (c.take 12) = some (addBook st b).2)) ∧
    (TitleNormalizer.normalize false b.title ≠ [] →
      (addBook st b).2 ∈
        (dGet (addBook st b).1.normIdx (TitleNormalizer.normalize false b.title)).getD []) ∧
    (TitleNormalizer.normalize true b.title ≠ [] →
      (addBook st b).2 ∈
        (dGet (addBook st b).1.aggIdx (TitleNormalizer.normalize true b.title)).getD [] ∧
      ∀ g ∈ genNgrams (TitleNormalizer.normalize true b.title) 3,
        (addBook st b).2 ∈ postings (addBook st b).1 g) ∧
    WFIndex (addBook st b).1 := by
  unfold addBook
  simp only []
  refine ⟨by trivial, ?_, ?_, ?_, ?_, ?_, ?_⟩
  · rw [indexBook_books]
  · rw [indexBook_books]
    exact List.getElem?_concat_length st.books b
  · intro c hc
    rw [indexBook_fields, hc]
    simp only []
    constructor
    · by_cases h13 : c.length = 13
      · have hne : ¬ c = c.take 12 := by
          intro he
          have hlen : c.length = (c.take 12).length := by rw [← he]
          rw [List.length_take] at hlen
          omega
        rw [if_pos h13, dGet_dSet, if_neg hne, dGet_dSet, if_pos rfl]
      · rw [if_neg h13, dGet_dSet, if_pos rfl]
    · intro h13
      rw [if_pos h13, dGet_dSet, if_pos rfl]
  · intro hnt
    rw [indexBook_fields]
    simp only []
    rw [if_neg (by simpa using hnt)]
    exact mem_dAppend_self _ _ _
  · intro hagt
    constructor
    · rw [indexBook_fields]
      simp only []
      rw [if_neg (by simpa using hagt)]
      exact mem_dAppend_self _ _ _
    · intro g hg
      unfold postings
      rw [indexBook_fields]
      simp only []
      rw [if_neg (by simpa using hagt)]
      exact mem_ngramFold_self _ _ _ _ hg
  · exact wf_indexBook _ _ _ (wf_init st b hwf) (by simp)

/-- Witness for C8 at the empty index and a concrete record with a valid
13-character identifier. -/
theorem claim_C8_add_characterization_witness :
    (addBook emptyIndex ⟨"Deep Work".data, [], ["9781455586691".data], none⟩).2 =
      emptyIndex.books.length ∧
    (addBook emptyIndex ⟨"Deep Work".data, [], ["9781455586691".data], none⟩).1.books =
      emptyIndex.books ++ [⟨"Deep Work".data, [], ["9781455586691".data], none⟩] ∧
    (addBook emptyIndex ⟨"Deep Work".data, [], ["9781455586691".data], none⟩).1.books[
      (addBook emptyIndex ⟨"Deep Work".data, [], ["9781455586691".data], none⟩).2]? =
      some ⟨"Deep Work".data, [], ["9781455586691".data], none⟩ ∧
    (∀ c, BookMatcher.cleanOpt
        (extractIsbn ⟨"Deep Work".data, [], ["9781455586691".data], none⟩) = some c →
      dGet (addBook emptyIndex ⟨"Deep Work".data, [], ["9781455586691".data], none⟩).1.isbnIdx
          c =
        some (addBook emptyIndex ⟨"Deep Work".data, [], ["9781455586691".data], none⟩).2 ∧
      (c.length = 13 →
        dGet (addBook emptyIndex
            ⟨"Deep Work".data, [], ["9781455586691".data], none⟩).1.isbnIdx (c.take 12) =
          some (addBook emptyIndex
            ⟨"Deep Work".data, [], ["9781455586691".data], none⟩).2)) ∧
    (TitleNormalizer.normalize false ("Deep Work".data : Str) ≠ [] →
      (addBook emptyIndex ⟨"Deep Work".data, [], ["9781455586691".data], none⟩).2 ∈
        (dGet (addBook emptyIndex
            ⟨"Deep Work".data, [], ["9781455586691".data], none⟩).1.normIdx
          (TitleNormalizer.normalize false ("Deep Work".data : Str))).getD []) ∧
    (TitleNormalizer.normalize true ("Deep Work".data : Str) ≠ [] →
      (addBook emptyIndex ⟨"Deep Work".data, [], ["9781455586691".data], none⟩).2 ∈
        (dGet (addBook emptyIndex
            ⟨"Deep Work".data, [], ["9781455586691".data], none⟩).1.aggIdx
          (TitleNormalizer.normalize true ("Deep Work".data : Str))).getD [] ∧
      ∀ g ∈ genNgrams (TitleNormalizer.normalize true ("Deep Work".data : Str)) 3,
        (addBook emptyIndex ⟨"Deep Work".data, [], ["9781455586691".data], none⟩).2 ∈
          postings (addBook emptyIndex
            ⟨"Deep Work".data, [], ["9781455586691".data], none⟩).1 g) ∧
    WFIndex (addBook emptyIndex ⟨"Deep Work".data, [], ["9781455586691".data], none⟩).1 :=
  claim_C8_add_characterization emptyIndex
    ⟨"Deep Work".data, [], ["9781455586691".data], none⟩
    (by unfold WFIndex emptyIndex; simp)

/-- Counterexample to C8's final assertion: adding a second record with the
same identifier overwrites the identifier-map entry that pointed at the
previously indexed record (position 0 becomes position 1). -/
theorem claim_C8_overwrite_counterexample :
    dGet (addBook emptyIndex
        ⟨"t".data, [], ["9781455586691".data], none⟩).1.isbnIdx "9781455586691".data =
      some 0 ∧
    dGet (addBook (addBook emptyIndex
          ⟨"t".data, [], ["9781455586691".data], none⟩).1
        ⟨"u".data, [], ["9781455586691".data], none⟩).1.isbnIdx "9781455586691".data =
      some 1 := by
  exact ⟨by decide, by decide⟩

/-! ### Self-similarity of a short string under `SequenceMatcher`. -/

namespace SeqM

theorem popularChars_small {t : Str} (h : t.length < 200) : popularChars t = [] := by
  unfold popularChars
  rw [if_neg (by omega)]

theorem b2j_small {t : Str} (h : t.length < 200) (c : Char) : b2j t c = occIdx c t := by
  unfold b2j
  rw [popularChars_small h]
  simp

theorem mem_occIdx {c : Char} {b : Str} {j : Nat} : j ∈ occIdx c b ↔ b.get? j = some c := by
  unfold occIdx
  rw [List.mem_filter, List.mem_range]
  constructor
  · rintro ⟨_, h2⟩
    exact of_decide_eq_true h2
  · intro h
    refine ⟨?_, decide_eq_true h⟩
    obtain ⟨hlt, _⟩ := List.get?_eq_some.mp h
    exact hlt

theorem pairwise_occIdx (c : Char) (b : Str) : (occIdx c b).Pairwise (· < ·) :=
  (List.pairwise_lt_range _).filter _

theorem get?_getD {t : Str} {i : Nat} (h : i < t.length) : t.get? i = some (t.getD i ' ') := by
  rw [List.get?_eq_getElem?]
  rcases hg : t[i]? with _ | c
  · rw [List.getElem?_eq_none_iff] at hg
    omega
  · rw [List.getD_eq_getElem?_getD, hg]
    rfl

theorem flmInner_no_update (i : Nat) (j2len : Nat → Nat) (js : List Nat) (st : FLRes)
    (h : ∀ j ∈ js, (if j = 0 then 1 else j2len (j - 1) + 1) ≤ st.bestsize) :
    flmInner i j2len js st = st := by
  induction js with
  | nil => rfl
  | cons x t ih =>
    have hx := h x (List.mem_cons_self x t)
    have hstep : flmInner i j2len (x :: t) st = flmInner i j2len t st := by
      unfold flmInner
      simp only [List.foldl_cons]
      have hcond : ¬ st.bestsize < (if x = 0 then 1 else j2len (x - 1) + 1) := by
        by_cases hx0 : x = 0
        · rw [if_pos hx0]
          rw [if_pos hx0] at hx
          omega
        · rw [if_neg hx0]
          rw [if_neg hx0] at hx
          omega
      rw [if_neg hcond]
    rw [hstep]
    exact ih (fun j hj => h j (List.mem_cons_of_mem x hj))

theorem flmInner_diag (i : Nat) (old : Nat → Nat) (js : List Nat)
    (hsort : js.Pairwise (· < ·)) (hmem : i ∈ js)
    (hold_all : ∀ j, old j ≤ i) (hold_idx : ∀ j, old j ≤ j + 1)
    (hdiag : ∀ j, j + 1 = i → old j = i) :
    flmInner i old js ⟨0, 0, i⟩ = ⟨0, 0, i + 1⟩ := by
  obtain ⟨l1, l2, rfl⟩ := List.append_of_mem hmem
  rw [List.pairwise_append] at hsort
  obtain ⟨hp1, hp2, hcross⟩ := hsort
  have h1 : flmInner i old (l1 ++ i :: l2) ⟨0, 0, i⟩ = flmInner i old (i :: l2) ⟨0, 0, i⟩ := by
    unfold flmInner
    rw [List.foldl_append]
    congr 1
    have hnu := flmInner_no_update i old l1 ⟨0, 0, i⟩ (by
      intro j hj
      have hji : j < i := hcross j hj i (List.mem_cons_self _ _)
      show (if j = 0 then 1 else old (j - 1) + 1) ≤ i
      by_cases hj0 : j = 0
      · rw [if_pos hj0]
        omega
      · rw [if_neg hj0]
        have := hold_idx (j - 1)
        omega)
    exact hnu
  rw [h1]
  have hk : (if i = 0 then 1 else old (i - 1) + 1) = i + 1 := by
    by_cases hi0 : i = 0
    · rw [if_pos hi0, hi0]
    · rw [if_neg hi0]
      have := hdiag (i - 1) (by omega)
      omega
  have h2 : flmInner i old (i :: l2) ⟨0, 0, i⟩ = flmInner i old l2 ⟨0, 0, i + 1⟩ := by
    unfold flmInner
    simp only [List.foldl_cons]
    congr 1
    rw [hk]
    rw [if_pos (Nat.lt_succ_self i)]
    simp [Nat.sub_self]
  rw [h2]
  exact flmInner_no_update i old l2 ⟨0, 0, i + 1⟩ (by
    intro j hj
    have hij : i < j := (List.pairwise_cons.mp hp2).1 j hj
    show (if j = 0 then 1 else old (j - 1) + 1) ≤ i + 1
    by_cases hj0 : j = 0
    · rw [if_pos hj0]
      omega
    · rw [if_neg hj0]
      have := hold_all (j - 1)
      omega)

end SeqM

namespace SeqM

theorem flmRound_inv (t : Str) (i : Nat) (hi : i < t.length) (hlen : t.length < 200)
    (p : FLRes × (Nat → Nat))
    (h1 : p.1 = ⟨0, 0, i⟩) (h2 : ∀ j, p.2 j ≤ i) (h3 : ∀ j, p.2 j ≤ j + 1)
    (h4 : ∀ j, j + 1 = i → p.2 j = i) :
    (flmRound t t 0 t.length p i).1 = ⟨0, 0, i + 1⟩ ∧
    (∀ j, (flmRound t t 0 t.length p i).2 j ≤ i + 1) ∧
    (∀ j, (flmRound t t 0 t.length p i).2 j ≤ j + 1) ∧
    (∀ j, j + 1 = i + 1 → (flmRound t t 0 t.length p i).2 j = i + 1) := by
  unfold flmRound
  simp only [b2j_small hlen]
  have hmem : ∀ j : Nat,
      (j ∈ (occIdx (t.getD i ' ') t).filter (fun j => decide (0 ≤ j) && decide (j < t.length)))
        ↔ t.get? j = some (t.getD i ' ') := by
    intro j
    rw [List.mem_filter, mem_occIdx]
    constructor
    · rintro ⟨hj, _⟩
      exact hj
    · intro hj
      refine ⟨hj, ?_⟩
      obtain ⟨hlt, _⟩ := List.get?_eq_some.mp hj
      simp [hlt]
  have hsort : ((occIdx (t.getD i ' ') t).filter
      (fun j => decide (0 ≤ j) && decide (j < t.length))).Pairwise (· < ·) :=
    (pairwise_occIdx _ _).filter _
  have hi_mem : i ∈ (occIdx (t.getD i ' ') t).filter
      (fun j => decide (0 ≤ j) && decide (j < t.length)) :=
    (hmem i).mpr (get?_getD hi)
  refine ⟨?_, ?_, ?_, ?_⟩
  · rw [h1]
    exact flmInner_diag i p.2 _ hsort hi_mem h2 h3 h4
  · intro j
    split
    · rename_i hc
      by_cases hj0 : j = 0
      · rw [if_pos hj0]
        omega
      · rw [if_neg hj0]
        have := h2 (j - 1)
        omega
    · omega
  · intro j
    split
    · rename_i hc
      by_cases hj0 : j = 0
      · rw [if_pos hj0]
        omega
      · rw [if_neg hj0]
        have := h3 (j - 1)
        omega
    · omega
  · intro j hj
    have hji : j = i := by omega
    subst hji
    rw [if_pos (by simpa using hi_mem)]
    by_cases hj0 : j = 0
    · rw [if_pos hj0]
      omega
    · rw [if_neg hj0]
      have := h4 (j - 1) (by omega)
      omega

end SeqM

namespace SeqM

theorem flm_fold_self (t : Str) (hlen : t.length < 200) :
    ∀ i, i ≤ t.length →
      ((List.range' 0 i).foldl (flmRound t t 0 t.length) (⟨0, 0, 0⟩, fun _ => 0)).1
          = ⟨0, 0, i⟩ ∧
      (∀ j, ((List.range' 0 i).foldl (flmRound t t 0 t.length)
          (⟨0, 0, 0⟩, fun _ => 0)).2 j ≤ i) ∧
      (∀ j, ((List.range' 0 i).foldl (flmRound t t 0 t.length)
          (⟨0, 0, 0⟩, fun _ => 0)).2 j ≤ j + 1) ∧
      (∀ j, j + 1 = i → ((List.range' 0 i).foldl (flmRound t t 0 t.length)
          (⟨0, 0, 0⟩, fun _ => 0)).2 j = i) := by
  intro i
  induction i with
  | zero =>
    intro _
    exact ⟨rfl, fun j => Nat.le_refl 0, fun j => Nat.zero_le _, fun j hj => by omega⟩
  | succ i ih =>
    intro hle
    have hi : i < t.length := by omega
    obtain ⟨h1, h2, h3, h4⟩ := ih (by omega)
    rw [List.range'_concat]
    rw [List.foldl_append]
    simp only [List.foldl_cons, List.foldl_nil, Nat.zero_add, Nat.one_mul]
    exact flmRound_inv t i hi hlen _ h1 h2 h3 h4

theorem extLeft_noop (junk : Bool) (a b : Str) (f s : Nat) :
    extLeft junk a b 0 0 f ⟨0, 0, s⟩ = ⟨0, 0, s⟩ := by
  cases f with
  | zero => rfl
  | succ f =>
    unfold extLeft
    rw [if_neg]
    simp

theorem extRight_noop (junk : Bool) (a b : Str) (n f : Nat) :
    extRight junk a b n n f ⟨0, 0, n⟩ = ⟨0, 0, n⟩ := by
  cases f with
  | zero => rfl
  | succ f =>
    unfold extRight
    rw [if_neg]
    simp

theorem findLongestMatch_self (t : Str) (hlen : t.length < 200) :
    findLongestMatch t t 0 t.length 0 t.length = ⟨0, 0, t.length⟩ := by
  unfold findLongestMatch
  simp only [Nat.sub_zero]
  rw [(flm_fold_self t hlen t.length (Nat.le_refl _)).1]
  rw [extLeft_noop, extRight_noop, extLeft_noop, extRight_noop]

theorem mbSum_empty (a b : Str) (f alo ahi blo bhi : Nat) (h : ¬ alo < ahi) :
    mbSum a b f alo ahi blo bhi = 0 := by
  cases f with
  | zero => rfl
  | succ f =>
    unfold mbSum
    rw [if_neg (by simp [h])]

theorem matchesTotal_self (t : Str) (hlen : t.length < 200) :
    matchesTotal t t = t.length := by
  unfold matchesTotal
  rcases Nat.eq_zero_or_pos t.length with h0 | hpos
  · rw [mbSum_empty t t _ _ _ _ _ (by omega)]
    omega
  · have hfuel : t.length + t.length + 1 = (t.length + t.length) + 1 := rfl
    rw [hfuel]
    unfold mbSum
    rw [if_pos (by simp [hpos]), findLongestMatch_self t hlen]
    rw [if_pos (by simpa using hpos)]
    rw [mbSum_empty t t _ _ _ _ _ (by simp), mbSum_empty t t _ _ _ _ _ (by simp)]
    simp

theorem ratioPR_self (t : Str) (hlen : t.length < 200) :
    (ratioPR t t).toRat = 1 := by
  unfold ratioPR
  rcases Nat.eq_zero_or_pos t.length with h0 | hpos
  · rw [if_pos (by omega)]
    norm_num [PRat.toRat]
  · rw [if_neg (by omega), matchesTotal_self t hlen]
    unfold PRat.toRat
    have hne : ((t.length : ℚ) + (t.length : ℚ)) ≠ 0 := by
      have : (0 : ℚ) < (t.length : ℚ) := by exact_mod_cast hpos
      linarith
    push_cast
    field_simp
    ring

end SeqM

namespace PyRe

theorem starAlts_ne_nil (p : Char → Bool) (prev : Option Char) (s : Str) :
    starAlts p prev s ≠ [] := by
  induction s generalizing prev with
  | nil => simp [starAlts]
  | cons c t ih =>
    unfold starAlts
    split
    · simp [ih]
    · simp

theorem starAlts_head_dropWhile (p : Char → Bool) :
    ∀ (s : Str) (prev : Option Char),
      ∃ pr2, (starAlts p prev s).head? = some (pr2, s.dropWhile p) := by
  intro s
  induction s with
  | nil =>
    intro prev
    exact ⟨prev, rfl⟩
  | cons c t ih =>
    intro prev
    by_cases hc : p c = true
    · rw [List.dropWhile_cons_of_pos hc]
      unfold starAlts
      rw [if_pos hc]
      obtain ⟨pr2, hh⟩ := ih (some c)
      rcases hsa : starAlts p (some c) t with _ | ⟨x, rest⟩
      · rw [hsa] at hh
        cases hh
      · rw [hsa] at hh
        simp only [List.head?_cons, Option.some.injEq] at hh
        refine ⟨pr2, ?_⟩
        simp [hh]
    · rw [List.dropWhile_cons_of_neg hc]
      unfold starAlts
      rw [if_neg hc]
      exact ⟨prev, rfl⟩

end PyRe

namespace PyRe

theorem length_dropWhile_le' (p : Char → Bool) (l : Str) :
    (l.dropWhile p).length ≤ l.length := by
  induction l with
  | nil => simp
  | cons c t ih =>
    by_cases hc : p c = true
    · rw [List.dropWhile_cons_of_pos hc]
      simp only [List.length_cons]
      omega
    · rw [List.dropWhile_cons_of_neg hc]

theorem filter_dropWhile_not (p : Char → Bool) (l : Str) :
    (l.dropWhile p).filter (fun c => !p c) = l.filter (fun c => !p c) := by
  induction l with
  | nil => rfl
  | cons c t ih =>
    by_cases hc : p c = true
    · rw [List.dropWhile_cons_of_pos hc, List.filter_cons]
      simp only [hc, Bool.not_true]
      exact ih
    · rw [List.dropWhile_cons_of_neg hc]

theorem subGo_plusC (p : Char → Bool) :
    ∀ (f : Nat) (s : Str) (prev : Option Char), s.length < f →
      subGo (.plusC p) [] f prev s = s.filter (fun c => !p c) := by
  intro f
  induction f with
  | zero =>
    intro s prev h
    omega
  | succ f ih =>
    intro s prev h
    rcases s with _ | ⟨c, t⟩
    · rfl
    · simp only [List.length_cons] at h
      by_cases hc : p c = true
      · obtain ⟨pr2, hh⟩ := starAlts_head_dropWhile p t (some c)
        have hm : (mAll (.plusC p) prev (c :: t)).head? = some (pr2, t.dropWhile p) := by
          unfold mAll
          simp only []
          rw [if_pos hc]
          exact hh
        have hlt : ¬ (t.dropWhile p).length = (c :: t).length := by
          have h1 := length_dropWhile_le' p t
          simp only [List.length_cons]
          omega
        unfold subGo
        rw [hm]
        simp only []
        rw [if_neg hlt, List.nil_append]
        rw [ih (t.dropWhile p) pr2 (by have := length_dropWhile_le' p t; omega)]
        rw [filter_dropWhile_not, List.filter_cons]
        simp [hc]
      · have hm : (mAll (.plusC p) prev (c :: t)).head? = none := by
          unfold mAll
          simp only []
          rw [if_neg hc]
          rfl
        unfold subGo
        rw [hm]
        simp only []
        have hc' : p c = false := by simpa using hc
        rw [ih t (some c) (by omega)]
        rw [List.filter_cons]
        simp [hc']

theorem pySub_plusC (p : Char → Bool) (s : Str) :
    pySub (.plusC p) [] s = s.filter (fun c => !p c) :=
  subGo_plusC p (s.length + 1) s none (Nat.lt_succ_self _)

end PyRe

theorem pySplitWsAux_nospace :
    ∀ (t acc : Str), (∀ c ∈ t, isPySpace c = false) → acc ≠ [] ∨ t ≠ [] →
      pySplitWsAux acc t = [acc.reverse ++ t] := by
  intro t
  induction t with
  | nil =>
    intro acc _ hne
    rcases hne with h | h
    · unfold pySplitWsAux
      rw [if_neg h]
      simp
    · exact absurd rfl h
  | cons c rest ih =>
    intro acc hsp _
    have hc : isPySpace c = false := hsp c (List.mem_cons_self _ _)
    unfold pySplitWsAux
    rw [hc]
    simp only [Bool.false_eq_true, if_false]
    rw [ih (c :: acc) (fun x hx => hsp x (List.mem_cons_of_mem c hx)) (Or.inl (by simp))]
    simp

theorem pySplitWs_nospace (t : Str) (ht : t ≠ []) (hsp : ∀ c ∈ t, isPySpace c = false) :
    pySplitWs t = [t] := by
  unfold pySplitWs
  rw [pySplitWsAux_nospace t [] hsp (Or.inr ht)]
  simp

/-- Aggressive normalization ends with `re.sub(r'\s+', '', ·)`, so its output
contains no whitespace character. -/
theorem normalize_true_nospace (title : Str) :
    ∀ c ∈ TitleNormalizer.normalize true title, isPySpace c = false := by
  unfold TitleNormalizer.normalize
  by_cases h0 : title = []
  · rw [if_pos h0]
    intro c hc
    cases hc
  · rw [if_neg h0]
    simp only []
    rw [if_pos trivial]
    intro c hc
    have hws : TitleNormalizer.ws1 = RE.plusC isPySpace := rfl
    rw [hws, pySub_plusC] at hc
    have := (List.mem_filter.mp hc).2
    simpa using this

namespace BookMatcher

theorem calcSimilarity_self (t : Str) (ht : t ≠ [])
    (hsp : ∀ c ∈ t, isPySpace c = false) (hlen : t.length < 200) :
    (calcSimilarity t t).toRat = 1 := by
  unfold calcSimilarity
  rw [if_neg (by simpa using ht)]
  simp only []
  rw [pySplitWs_nospace t ht hsp]
  have hd : ([t] : List Str).dedup = [t] := by simp
  rw [hd]
  have hf1 : ([t] : List Str).filter (fun x => ([t] : List Str).contains x) = [t] := by simp
  have hf2 : ([t] : List Str).filter (fun x => !([t] : List Str).contains x) = [] := by simp
  rw [hf1, hf2]
  rw [if_pos (by simp)]
  rw [PRat.toRat_add
    (PRat.Pos.posMul (by norm_num [PRat.Pos]) (pos_ratioPR t t))
    (PRat.Pos.posMul (by norm_num [PRat.Pos]) (by norm_num [PRat.Pos]))]
  rw [PRat.toRat_mul (by norm_num [PRat.Pos]) (pos_ratioPR t t)]
  rw [PRat.toRat_mul (by norm_num [PRat.Pos]) (by norm_num [PRat.Pos])]
  rw [SeqM.ratioPR_self t hlen]
  norm_num [PRat.toRat]

theorem fuzzyBest_ge_one (nta ntb ata : Str) (aA aB : Option Str)
    (hne : ata ≠ []) (hsp : ∀ c ∈ ata, isPySpace c = false) (hlen : ata.length < 200) :
    1 ≤ (fuzzyBest nta ntb ata ata aA aB).toRat := by
  unfold fuzzyBest
  simp only []
  have hpp : (PRat.pmax (calcSimilarity nta ntb) (calcSimilarity ata ata)).Pos :=
    PRat.Pos.posPmax (pos_calcSimilarity nta ntb) (pos_calcSimilarity ata ata)
  have hpmax := PRat.toRat_pmax (pos_calcSimilarity nta ntb) (pos_calcSimilarity ata ata)
  have hself := calcSimilarity_self ata hne hsp hlen
  have hbest : 1 ≤ (PRat.pmax (calcSimilarity nta ntb) (calcSimilarity ata ata)).toRat := by
    rw [hpmax]
    exact le_trans hself.ge (le_max_right _ _)
  split
  · rw [PRat.toRat_pmin (by norm_num [PRat.Pos])
      (PRat.Pos.posAdd hpp (by norm_num [PRat.Pos]))]
    rw [PRat.toRat_add hpp (by norm_num [PRat.Pos])]
    have h110 : PRat.toRat ⟨1, 10⟩ = 1 / 10 := by norm_num [PRat.toRat]
    have h11 : PRat.toRat ⟨1, 1⟩ = 1 := by norm_num [PRat.toRat]
    rw [h110, h11]
    refine le_min le_rfl ?_
    linarith
  · exact hbest

end BookMatcher

/-- C3 (amended): when the aggressive-normalized titles agree (nonempty and
below the 200-character autojunk threshold), the hypothetical fuzzy-tier
confidence is at least 1 — the aggressive form's self-similarity is exact —
so the confidence actually returned by `match` is ≤, not ≥, the fuzzy-tier
confidence computed on the same inputs: the claimed dominance is reversed. -/
theorem claim_C3_fuzzy_dominates_aggressive (ta tb : Str) (aA aB ia ib : Option Str)
    (heq : TitleNormalizer.normalize true ta = TitleNormalizer.normalize true tb)
    (hne : TitleNormalizer.normalize true ta ≠ [])
    (hlen : (TitleNormalizer.normalize true ta).length < 200) :
    (BookMatcher.matchBooks ta tb aA aB ia ib).confidence.toRat ≤
      (BookMatcher.fuzzyBest (TitleNormalizer.normalize false ta)
        (TitleNormalizer.normalize false tb) (TitleNormalizer.normalize true ta)
        (TitleNormalizer.normalize true tb) aA aB).toRat := by
  have hsp := normalize_true_nospace ta
  have hfb : 1 ≤ (BookMatcher.fuzzyBest (TitleNormalizer.normalize false ta)
      (TitleNormalizer.normalize false tb) (TitleNormalizer.normalize true ta)
      (TitleNormalizer.normalize true tb) aA aB).toRat := by
    rw [← heq]
    exact BookMatcher.fuzzyBest_ge_one _ _ _ aA aB hne hsp hlen
  by_cases hI : ∃ c, BookMatcher.cleanOpt ia = some c ∧ BookMatcher.cleanOpt ib = some c
  · obtain ⟨c, h1, h2⟩ := hI
    rw [BookMatcher.matchBooks_isbn_exact ta tb aA aB h1 h2]
    show PRat.toRat ⟨1, 1⟩ ≤ _
    have hv : PRat.toRat ⟨1, 1⟩ = 1 := by norm_num [PRat.toRat]
    rw [hv]
    exact hfb
  · obtain ⟨d, hd⟩ := BookMatcher.matchBooks_eq_matchTail ta tb aA aB ia ib hI
    rw [hd]
    unfold BookMatcher.matchTail
    by_cases hnt : TitleNormalizer.normalize false ta = TitleNormalizer.normalize false tb
    · rw [if_pos hnt]
      by_cases ham : BookMatcher.authorsMatch aA aB = true
      · rw [if_pos ham]
        show PRat.toRat ⟨1, 1⟩ ≤ _
        have hv : PRat.toRat ⟨1, 1⟩ = 1 := by norm_num [PRat.toRat]
        rw [hv]
        exact hfb
      · rw [if_neg ham]
        show PRat.toRat ⟨19, 20⟩ ≤ _
        have hv : PRat.toRat ⟨19, 20⟩ = 19 / 20 := by norm_num [PRat.toRat]
        rw [hv]
        linarith
    · rw [if_neg hnt, if_pos heq]
      by_cases ham : BookMatcher.authorsMatch aA aB = true
      · rw [if_pos ham]
        show PRat.toRat ⟨19, 20⟩ ≤ _
        have hv : PRat.toRat ⟨19, 20⟩ = 19 / 20 := by norm_num [PRat.toRat]
        rw [hv]
        linarith
      · rw [if_neg ham]
        show PRat.toRat ⟨9, 10⟩ ≤ _
        have hv : PRat.toRat ⟨9, 10⟩ = 9 / 10 := by norm_num [PRat.toRat]
        rw [hv]
        linarith

/-- Witness for C3 at a concrete aggressive-equal pair. -/
theorem claim_C3_fuzzy_dominates_aggressive_witness :
    (BookMatcher.matchBooks "Cat".data "Cat".data none none none none).confidence.toRat ≤
      (BookMatcher.fuzzyBest (TitleNormalizer.normalize false "Cat".data)
        (TitleNormalizer.normalize false "Cat".data)
        (TitleNormalizer.normalize true "Cat".data)
        (TitleNormalizer.normalize true "Cat".data) none none).toRat :=
  claim_C3_fuzzy_dominates_aggressive "Cat".data "Cat".data none none none none
    (by decide) (by decide) (by decide)

/-- Counterexample to C3 as stated: for titles `The Cat` and `Cat` the
aggressive tier fires with confidence 0.90, but the fuzzy score that would
be computed on the same inputs is 1.0 (the equal aggressive forms are
self-similar), so the aggressive-tier confidence is strictly below, not
above, the ignored fuzzy-tier confidence. -/
theorem claim_C3_dominance_counterexample :
    TitleNormalizer.normalize true "The Cat".data =
      TitleNormalizer.normalize true "Cat".data ∧
    TitleNormalizer.normalize true "The Cat".data ≠ [] ∧
    (BookMatcher.matchBooks "The Cat".data "Cat".data none none none none).match_type =
      "aggressive_normalized" ∧
    ¬ ((BookMatcher.fuzzyBest (TitleNormalizer.normalize false "The Cat".data)
          (TitleNormalizer.normalize false "Cat".data)
          (TitleNormalizer.normalize true "The Cat".data)
          (TitleNormalizer.normalize true "Cat".data) none none).toRat ≤
        (BookMatcher.matchBooks "The Cat".data "Cat".data none none none
          none).confidence.toRat) := by
  refine ⟨by decide, by decide, by decide, ?_⟩
  have h1 : BookMatcher.fuzzyBest (TitleNormalizer.normalize false "The Cat".data)
      (TitleNormalizer.normalize false "Cat".data)
      (TitleNormalizer.normalize true "The Cat".data)
      (TitleNormalizer.normalize true "Cat".data) none none = ⟨150, 150⟩ := by decide
  have h2 : (BookMatcher.matchBooks "The Cat".data "Cat".data none none none
      none).confidence = ⟨9, 10⟩ := by decide
  rw [h1, h2]
  norm_num [PRat.toRat]

/-- Counterexample to C4 as stated: a first pass can splice together text the
second pass then rewrites.  Standard level: `X, 3rd, Edition 5 Edition Y`
normalizes to `x, 3rd edition y` (the first sub splices `3rd` next to a later
`edition`), and a second pass strips the fresh `, 3rd edition` leaving `x y`.
Aggressive level: `第(x)3版` normalizes to `第3版` (the parenthesis removal
splices the Japanese edition pattern together), and a second pass erases it
entirely.  NFKC obstruction: stripping `第3版` from `xe第3版◌́y` makes the
combining acute adjacent to `e`; the first output is fixed by the edition
strip and the punctuation pass, yet the second pass's NFKC composes `é`, so
even those two conditions do not suffice without the NFKC condition. -/
theorem claim_C4_idempotence_counterexample :
    TitleNormalizer.normalize false (TitleNormalizer.normalize false
        "X, 3rd, Edition 5 Edition Y".data) ≠
      TitleNormalizer.normalize false "X, 3rd, Edition 5 Edition Y".data ∧
    TitleNormalizer.normalize true (TitleNormalizer.normalize true "第(x)3版".data) ≠
      TitleNormalizer.normalize true "第(x)3版".data ∧
    (TitleNormalizer.editionStrip (TitleNormalizer.normalize true "xe第3版\u0301y".data) =
        TitleNormalizer.normalize true "xe第3版\u0301y".data ∧
      TitleNormalizer.normalizePunctuation
          (TitleNormalizer.normalize true "xe第3版\u0301y".data) =
        TitleNormalizer.normalize true "xe第3版\u0301y".data ∧
      TitleNormalizer.normalize true (TitleNormalizer.normalize true
          "xe第3版\u0301y".data) ≠
        TitleNormalizer.normalize true "xe第3版\u0301y".data) :=
  ⟨by decide, by decide, by decide, by decide, by decide⟩

/-! ### Conditional idempotence of `normalize`. -/

namespace PyRe

theorem starAlts_rem_suffix (p : Char → Bool) :
    ∀ (s : Str) (prev : Option Char), ∀ pr ∈ starAlts p prev s, pr.2 <:+ s := by
  intro s
  induction s with
  | nil =>
    intro prev pr hpr
    simp [starAlts] at hpr
    rw [hpr]
  | cons c t ih =>
    intro prev pr hpr
    unfold starAlts at hpr
    by_cases hc : p c = true
    · rw [if_pos hc] at hpr
      rcases List.mem_append.mp hpr with h | h
      · exact (ih (some c) pr h).trans (List.suffix_cons c t)
      · simp at h
        rw [h]
    · rw [if_neg hc] at hpr
      simp at hpr
      rw [hpr]

theorem mAll_rem_suffix (re : RE) :
    ∀ (prev : Option Char) (s : Str), ∀ pr ∈ mAll re prev s, pr.2 <:+ s := by
  induction re with
  | eps =>
    intro prev s pr hpr
    simp [mAll] at hpr
    rw [hpr]
  | cls p =>
    intro prev s pr hpr
    unfold mAll at hpr
    rcases s with _ | ⟨c, t⟩
    · simp at hpr
    · simp only [] at hpr
      by_cases hc : p c = true
      · rw [if_pos hc] at hpr
        simp at hpr
        rw [hpr]
        exact List.suffix_cons c t
      · rw [if_neg hc] at hpr
        simp at hpr
  | starC p =>
    intro prev s pr hpr
    exact starAlts_rem_suffix p s prev pr hpr
  | plusC p =>
    intro prev s pr hpr
    unfold mAll at hpr
    rcases s with _ | ⟨c, t⟩
    · simp at hpr
    · simp only [] at hpr
      by_cases hc : p c = true
      · rw [if_pos hc] at hpr
        exact (starAlts_rem_suffix p t (some c) pr hpr).trans (List.suffix_cons c t)
      · rw [if_neg hc] at hpr
        simp at hpr
  | opt r ih =>
    intro prev s pr hpr
    unfold mAll at hpr
    rcases List.mem_append.mp hpr with h | h
    · exact ih prev s pr h
    · simp at h
      rw [h]
  | alt a b iha ihb =>
    intro prev s pr hpr
    unfold mAll at hpr
    rcases List.mem_append.mp hpr with h | h
    · exact iha prev s pr h
    · exact ihb prev s pr h
  | cat a b iha ihb =>
    intro prev s pr hpr
    unfold mAll at hpr
    obtain ⟨q, hq, hpr2⟩ := List.mem_flatMap.mp hpr
    exact (ihb q.1 q.2 pr hpr2).trans (iha prev s q hq)
  | wb =>
    intro prev s pr hpr
    unfold mAll at hpr
    split at hpr
    · simp at hpr
      rw [hpr]
    · simp at hpr

theorem mem_subGo (re : RE) (repl : Str) :
    ∀ (f : Nat) (prev : Option Char) (s : Str) (c : Char),
      c ∈ subGo re repl f prev s → c ∈ repl ∨ c ∈ s := by
  intro f
  induction f with
  | zero =>
    intro prev s c hc
    right
    exact hc
  | succ f ih =>
    intro prev s c hc
    unfold subGo at hc
    rcases hm : (mAll re prev s).head? with _ | ⟨p2, rem⟩
    · rw [hm] at hc
      rcases s with _ | ⟨x, t⟩
      · simp at hc
      · simp only [] at hc
        rcases List.mem_cons.mp hc with h | h
        · right
          rw [h]
          exact List.mem_cons_self _ _
        · rcases ih (some x) t c h with h2 | h2
          · left; exact h2
          · right; exact List.mem_cons_of_mem x h2
    · rw [hm] at hc
      simp only [] at hc
      have hsfx : rem <:+ s := by
        have hhm : (p2, rem) ∈ mAll re prev s := by
          rcases hall : mAll re prev s with _ | ⟨q, rest⟩
          · rw [hall] at hm
            cases hm
          · rw [hall] at hm
            simp at hm
            rw [← hm]
            exact List.mem_cons_self _ _
        exact mAll_rem_suffix re prev s (p2, rem) hhm
      split at hc
      · rcases s with _ | ⟨x, t⟩
        · left; exact hc
        · rcases List.mem_append.mp hc with h | h
          · left; exact h
          · rcases List.mem_cons.mp h with h2 | h2
            · right; rw [h2]; exact List.mem_cons_self _ _
            · rcases ih (some x) t c h2 with h3 | h3
              · left; exact h3
              · right; exact List.mem_cons_of_mem x h3
      · rcases List.mem_append.mp hc with h | h
        · left; exact h
        · rcases ih p2 rem c h with h2 | h2
          · left; exact h2
          · right; exact hsfx.subset h2

theorem mem_pySub (re : RE) (repl : Str) (s : Str) (c : Char)
    (h : c ∈ pySub re repl s) : c ∈ repl ∨ c ∈ s :=
  mem_subGo re repl (s.length + 1) none s c h

end PyRe

namespace PyRe

theorem subGo_sublist (re : RE) :
    ∀ (f : Nat) (prev : Option Char) (s : Str), List.Sublist (subGo re [] f prev s) s := by
  intro f
  induction f with
  | zero =>
    intro prev s
    exact List.Sublist.refl s
  | succ f ih =>
    intro prev s
    unfold subGo
    rcases hm : (mAll re prev s).head? with _ | ⟨p2, rem⟩
    · simp only []
      rcases s with _ | ⟨x, t⟩
      · exact List.Sublist.refl []
      · exact List.Sublist.cons₂ x (ih (some x) t)
    · simp only []
      have hsfx : rem <:+ s := by
        have hhm : (p2, rem) ∈ mAll re prev s := by
          rcases hall : mAll re prev s with _ | ⟨q, rest⟩
          · rw [hall] at hm
            cases hm
          · rw [hall] at hm
            simp at hm
            rw [← hm]
            exact List.mem_cons_self _ _
        exact mAll_rem_suffix re prev s (p2, rem) hhm
      split
      · rcases s with _ | ⟨x, t⟩
        · exact List.Sublist.refl []
        · simp only [List.nil_append]
          exact List.Sublist.cons₂ x (ih (some x) t)
      · simp only [List.nil_append]
        exact (ih p2 rem).trans hsfx.sublist

theorem pySub_sublist (re : RE) (s : Str) : List.Sublist (pySub re [] s) s :=
  subGo_sublist re (s.length + 1) none s

end PyRe

theorem map_id_of {f : Char → Char} {l : Str} (h : ∀ c ∈ l, f c = c) : l.map f = l := by
  induction l with
  | nil => rfl
  | cons c t ih =>
    rw [List.map_cons, h c (List.mem_cons_self _ _),
      ih (fun x hx => h x (List.mem_cons_of_mem c hx))]

namespace TitleNormalizer

theorem fwChar_toNat (c : Char) :
    (fwChar c).toNat =
      if 0xFF01 ≤ c.toNat ∧ c.toNat ≤ 0xFF5E then c.toNat - 0xFEE0
      else if c.toNat = 0x3000 then 32 else c.toNat := by
  unfold fwChar
  by_cases h : 0xFF01 ≤ c.toNat ∧ c.toNat ≤ 0xFF5E
  · rw [if_pos (by simp only [Bool.and_eq_true, decide_eq_true_eq]; exact h), if_pos h]
    exact toNat_charOfNat (Or.inl (by omega))
  · rw [if_neg (by simp only [Bool.and_eq_true, decide_eq_true_eq]; exact h), if_neg h]
    by_cases h2 : c.toNat = 0x3000
    · rw [if_pos (by simpa using h2), if_pos h2]
      rfl
    · rw [if_neg (by simpa using h2), if_neg h2]

theorem fwChar_idem (c : Char) : fwChar (fwChar c) = fwChar c := by
  rw [charEq_iff_toNat, fwChar_toNat c, fwChar_toNat (fwChar c), fwChar_toNat c]
  split_ifs <;> omega

theorem fwChar_fix_of_lt {c : Char} (h : c.toNat < 0x3000) : fwChar c = c := by
  rw [charEq_iff_toNat, fwChar_toNat]
  split_ifs <;> omega

theorem lowerChar_idem (c : Char) : lowerChar (lowerChar c) = lowerChar c := by
  rw [charEq_iff_toNat, lowerChar_toNat, lowerChar_toNat]
  split_ifs <;> omega

theorem lowerChar_fix_of {c : Char} (h : ¬ (65 ≤ c.toNat ∧ c.toNat ≤ 90)) :
    lowerChar c = c := by
  rw [charEq_iff_toNat, lowerChar_toNat, if_neg h]

theorem fwChar_fix_lowerChar {c : Char} (h : fwChar c = c) :
    fwChar (lowerChar c) = lowerChar c := by
  rw [charEq_iff_toNat] at h ⊢
  rw [fwChar_toNat] at h
  rw [fwChar_toNat, lowerChar_toNat]
  split_ifs at h ⊢ <;> omega

theorem lowerChar_ascii_or_fix (c : Char) :
    lowerChar c = c ∨ (lowerChar c).toNat < 128 := by
  by_cases h : 65 ≤ c.toNat ∧ c.toNat ≤ 90
  · right
    rw [lowerChar_toNat, if_pos h]
    omega
  · left
    exact lowerChar_fix_of h

end TitleNormalizer

namespace TitleNormalizer

theorem bracketFold_eq_map (s : Str) : bracketFold s = s.map brCharFold := by
  have key : ∀ (ps : List (Char × Char)) (u : Str),
      ps.foldl (fun t p => t.map (fun c => if c = p.1 then p.2 else c)) u
        = u.map (fun c => ps.foldl (fun x p => if x = p.1 then p.2 else x) c) := by
    intro ps
    induction ps with
    | nil =>
      intro u
      simp
    | cons p pt ih =>
      intro u
      simp only [List.foldl_cons]
      rw [ih (u.map _), List.map_map]
      rfl
  exact key bracketPairs s

theorem foldl_if_id (ps : List (Char × Char)) (c : Char) (h : ∀ p ∈ ps, c ≠ p.1) :
    ps.foldl (fun x p => if x = p.1 then p.2 else x) c = c := by
  induction ps with
  | nil => rfl
  | cons p pt ih =>
    simp only [List.foldl_cons]
    rw [if_neg (h p (List.mem_cons_self _ _))]
    exact ih (fun q hq => h q (List.mem_cons_of_mem p hq))

theorem brCharFold_self_or_ascii (c : Char) :
    brCharFold c = c ∨ (brCharFold c).toNat < 128 := by
  by_cases hc : ∃ p ∈ bracketPairs, c = p.1
  · obtain ⟨p, hp, he⟩ := hc
    subst he
    right
    fin_cases hp <;> decide
  · push_neg at hc
    left
    exact foldl_if_id bracketPairs c hc

theorem brCharFold_not_key (c : Char) (q : Char × Char) (hq : q ∈ bracketPairs) :
    brCharFold c ≠ q.1 := by
  by_cases hc : ∃ p ∈ bracketPairs, c = p.1
  · obtain ⟨p, hp, he⟩ := hc
    subst he
    fin_cases hp <;> fin_cases hq <;> decide
  · push_neg at hc
    unfold brCharFold
    rw [foldl_if_id bracketPairs c hc]
    exact hc q hq

theorem mem_bracketFold {s : Str} {c : Char} (h : c ∈ bracketFold s) :
    ∃ c0 ∈ s, c = brCharFold c0 := by
  rw [bracketFold_eq_map] at h
  obtain ⟨c0, h0, he⟩ := List.mem_map.mp h
  exact ⟨c0, h0, he.symm⟩

theorem mem_replaceChar {k : Char} {v s : Str} {c : Char} (h : c ∈ replaceChar k v s) :
    c ∈ v ∨ (c ∈ s ∧ c ≠ k) := by
  unfold replaceChar at h
  obtain ⟨x, hx, hc⟩ := List.mem_flatMap.mp h
  by_cases hxk : x = k
  · rw [if_pos hxk] at hc
    left
    exact hc
  · rw [if_neg hxk] at hc
    simp at hc
    right
    rw [hc]
    exact ⟨hx, hxk⟩

theorem mem_kanjiFoldAux (ps : List (Char × Str))
    (hv : ∀ p ∈ ps, ∀ c ∈ p.2, c.toNat < 128) :
    ∀ (s : Str) (c : Char), c ∈ ps.foldl (fun t p => replaceChar p.1 p.2 t) s →
      (c ∈ s ∧ ∀ p ∈ ps, c ≠ p.1) ∨ c.toNat < 128 := by
  induction ps with
  | nil =>
    intro s c h
    left
    exact ⟨h, fun p hp => absurd hp (List.not_mem_nil p)⟩
  | cons p pt ih =>
    intro s c h
    simp only [List.foldl_cons] at h
    rcases ih (fun q hq => hv q (List.mem_cons_of_mem p hq)) _ c h with ⟨hmem, hkeys⟩ | hsm
    · rcases mem_replaceChar hmem with hv2 | ⟨hs, hk⟩
      · right
        exact hv p (List.mem_cons_self _ _) c hv2
      · left
        refine ⟨hs, ?_⟩
        intro q hq
        rcases List.mem_cons.mp hq with h1 | h1
        · rw [h1]
          exact hk
        · exact hkeys q h1
    · right
      exact hsm

theorem mem_kanjiFold {s : Str} {c : Char} (h : c ∈ kanjiFold s) :
    (c ∈ s ∧ ∀ p ∈ kanjiPairs, c ≠ p.1) ∨ c.toNat < 128 := by
  unfold kanjiFold at h
  exact mem_kanjiFoldAux kanjiPairs (by decide) s c h

end TitleNormalizer

theorem mem_dropWhile {p : Char → Bool} {l : Str} {c : Char}
    (h : c ∈ l.dropWhile p) : c ∈ l := by
  induction l with
  | nil => simp at h
  | cons x t ih =>
    by_cases hx : p x = true
    · rw [List.dropWhile_cons_of_pos hx] at h
      exact List.mem_cons_of_mem x (ih h)
    · rw [List.dropWhile_cons_of_neg hx] at h
      exact h

theorem mem_pyStrip {l : Str} {c : Char} (h : c ∈ pyStrip l) : c ∈ l := by
  unfold pyStrip at h
  rw [List.mem_reverse] at h
  have h2 := mem_dropWhile h
  rw [List.mem_reverse] at h2
  exact mem_dropWhile h2

namespace TitleNormalizer

theorem mem_wsCollapse {s : Str} {c : Char} (h : c ∈ wsCollapse s) : c ∈ s ∨ c = ' ' := by
  unfold wsCollapse at h
  have h2 := mem_pyStrip h
  rcases mem_pySub _ _ _ c h2 with h3 | h3
  · right
    simpa using h3
  · left
    exact h3

theorem mem_normalizePunctuation {s : Str} {c : Char} (h : c ∈ normalizePunctuation s) :
    c ∈ s ∨ (c.toNat < 128 ∧ ¬ (65 ≤ c.toNat ∧ c.toNat ≤ 90)) := by
  unfold normalizePunctuation at h
  simp only [] at h
  have hP : ∀ (l : Str), (∀ x ∈ l, x.toNat < 128 ∧ ¬ (65 ≤ x.toNat ∧ x.toNat ≤ 90)) →
      c ∈ l → c ∈ s ∨ (c.toNat < 128 ∧ ¬ (65 ≤ c.toNat ∧ c.toNat ≤ 90)) :=
    fun l hl hc => Or.inr (hl c hc)
  rcases mem_pySub _ _ _ c h with h | h
  · exact hP _ (by decide) h
  rcases mem_pySub _ _ _ c h with h | h
  · exact hP _ (by decide) h
  rcases mem_pySub _ _ _ c h with h | h
  · exact hP _ (by decide) h
  rcases mem_replaceChar h with h | ⟨h, _⟩
  · exact hP _ (by decide) h
  rcases mem_replaceChar h with h | ⟨h, _⟩
  · exact hP _ (by decide) h
  rcases mem_replaceChar h with h | ⟨h, _⟩
  · exact hP _ (by decide) h
  rcases mem_replaceChar h with h | ⟨h, _⟩
  · exact hP _ (by decide) h
  rcases mem_pySub _ _ _ c h with h | h
  · exact hP _ (by decide) h
  rcases mem_pySub _ _ _ c h with h | h
  · exact hP _ (by decide) h
  rcases mem_pySub _ _ _ c h with h | h
  · exact hP _ (by decide) h
  left
  exact h

theorem mem_articleFold {s : Str} {c : Char} (h : c ∈ articleFold s) : c ∈ s := by
  unfold articleFold at h
  have key : ∀ (arts : List String) (u : Str),
      c ∈ arts.foldl
        (fun t a => if a.data.isPrefixOf t then t.drop a.data.length else t) u → c ∈ u := by
    intro arts
    induction arts with
    | nil => intro u h; exact h
    | cons a at' ih =>
      intro u h
      simp only [List.foldl_cons] at h
      have h2 := ih _ h
      split at h2
      · exact List.drop_subset _ u h2
      · exact h2
  exact key _ s h

theorem mem_subtitleCut {s : Str} {c : Char} (h : c ∈ subtitleCut s) : c ∈ s := by
  unfold subtitleCut at h
  split at h
  · split at h
    · exact List.take_subset _ s h
    · exact h
  · exact h

end TitleNormalizer

namespace TitleNormalizer

theorem not_brKey_of_lt {c : Char} (h : c.toNat < 0x2018) :
    ∀ p ∈ bracketPairs, c ≠ p.1 := by
  have hall : ∀ q ∈ bracketPairs, 0x2018 ≤ q.1.toNat := by decide
  intro p hp he
  have h2 := hall p hp
  rw [he] at h
  omega

theorem not_kanjiKey_of_lt {c : Char} (h : c.toNat < 0x3007) :
    ∀ p ∈ kanjiPairs, c ≠ p.1 := by
  have hall : ∀ q ∈ kanjiPairs, 0x3007 ≤ q.1.toNat := by decide
  intro p hp he
  have h2 := hall p hp
  rw [he] at h
  omega

theorem inv_of_ascii_noupper {c : Char} (h1 : c.toNat < 128)
    (h2 : ¬ (65 ≤ c.toNat ∧ c.toNat ≤ 90)) :
    fwChar c = c ∧ lowerChar c = c ∧
    (∀ p ∈ bracketPairs, c ≠ p.1) ∧ (∀ p ∈ kanjiPairs, c ≠ p.1) :=
  ⟨fwChar_fix_of_lt (by omega), lowerChar_fix_of h2,
   not_brKey_of_lt (by omega), not_kanjiKey_of_lt (by omega)⟩

theorem brCharFold_fw {c : Char} (h : fwChar c = c) :
    fwChar (brCharFold c) = brCharFold c := by
  rcases brCharFold_self_or_ascii c with h2 | h2
  · rw [h2]
    exact h
  · exact fwChar_fix_of_lt (by omega)

theorem editionStrip_sublist (s : Str) : List.Sublist (editionStrip s) s := by
  unfold editionStrip
  have key : ∀ (res : List RE) (u : Str),
      List.Sublist (res.foldl (fun v re => pySub re [] v) u) u := by
    intro res
    induction res with
    | nil => intro u; exact List.Sublist.refl u
    | cons r rt ih =>
      intro u
      simp only [List.foldl_cons]
      exact (ih (pySub r [] u)).trans (pySub_sublist r u)
  exact key editionPatterns s

theorem lower_ascii_bound {c : Char} (h : c.toNat < 128) :
    (lowerChar c).toNat < 128 ∧ ¬ (65 ≤ (lowerChar c).toNat ∧ (lowerChar c).toNat ≤ 90) := by
  rw [lowerChar_toNat]
  split_ifs <;> omega

theorem stage5_invariant (x : Str) :
    ∀ c ∈ (editionStrip (kanjiFold (bracketFold
        (fullwidthToHalfwidth (nfkcApprox x))))).map lowerChar,
      fwChar c = c ∧ lowerChar c = c ∧
      (∀ p ∈ bracketPairs, c ≠ p.1) ∧ (∀ p ∈ kanjiPairs, c ≠ p.1) := by
  intro c hc
  obtain ⟨c4, hc4, he⟩ := List.mem_map.mp hc
  subst he
  have hc4' : c4 ∈ kanjiFold (bracketFold (fullwidthToHalfwidth (nfkcApprox x))) :=
    (editionStrip_sublist _).subset hc4
  rcases mem_kanjiFold hc4' with ⟨hc3, hnk⟩ | hascii
  · obtain ⟨c0, hc0, he0⟩ := mem_bracketFold hc3
    have hfw0 : fwChar c0 = c0 := by
      unfold fullwidthToHalfwidth at hc0
      obtain ⟨c00, _, he00⟩ := List.mem_map.mp hc0
      rw [← he00]
      exact fwChar_idem c00
    have hfw4 : fwChar c4 = c4 := by
      rw [he0]
      exact brCharFold_fw hfw0
    have hnb4 : ∀ p ∈ bracketPairs, c4 ≠ p.1 := by
      rw [he0]
      exact fun p hp => brCharFold_not_key c0 p hp
    refine ⟨fwChar_fix_lowerChar hfw4, lowerChar_idem _, ?_, ?_⟩
    · rcases lowerChar_ascii_or_fix c4 with hfix | hb
      · rw [hfix]
        exact hnb4
      · exact not_brKey_of_lt (by omega)
    · rcases lowerChar_ascii_or_fix c4 with hfix | hb
      · rw [hfix]
        exact hnk
      · exact not_kanjiKey_of_lt (by omega)
  · obtain ⟨h1, h2⟩ := lower_ascii_bound hascii
    exact inv_of_ascii_noupper h1 h2

theorem normalize_invariant (ag : Bool) (x : Str) :
    ∀ c ∈ normalize ag x,
      fwChar c = c ∧ lowerChar c = c ∧
      (∀ p ∈ bracketPairs, c ≠ p.1) ∧ (∀ p ∈ kanjiPairs, c ≠ p.1) := by
  unfold normalize
  by_cases h0 : x = []
  · rw [if_pos h0]
    intro c hc
    cases hc
  rw [if_neg h0]
  simp only []
  have hspace : fwChar ' ' = ' ' ∧ lowerChar ' ' = ' ' ∧
      (∀ p ∈ bracketPairs, ' ' ≠ p.1) ∧ (∀ p ∈ kanjiPairs, ' ' ≠ p.1) := by
    refine ⟨by decide, by decide, ?_, ?_⟩
    · exact not_brKey_of_lt (by decide)
    · exact not_kanjiKey_of_lt (by decide)
  have hcore : ∀ c ∈ wsCollapse (normalizePunctuation
      ((editionStrip (kanjiFold (bracketFold
        (fullwidthToHalfwidth (nfkcApprox x))))).map lowerChar)),
      fwChar c = c ∧ lowerChar c = c ∧
      (∀ p ∈ bracketPairs, c ≠ p.1) ∧ (∀ p ∈ kanjiPairs, c ≠ p.1) := by
    intro c hc
    rcases mem_wsCollapse hc with hc2 | hc2
    · rcases mem_normalizePunctuation hc2 with hc3 | ⟨h1, h2⟩
      · exact stage5_invariant x c hc3
      · exact inv_of_ascii_noupper h1 h2
    · rw [hc2]
      exact hspace
  cases ag with
  | false =>
    rw [if_neg (by simp)]
    intro c hc
    rcases mem_wsCollapse hc with hc2 | hc2
    · exact hcore c hc2
    · rw [hc2]
      exact hspace
  | true =>
    rw [if_pos (by simp)]
    intro c hc
    rcases mem_pySub _ _ _ c hc with h | h
    · cases h
    have h2 := mem_subtitleCut h
    have h3 := mem_articleFold h2
    rcases mem_pySub _ _ _ c h3 with h4 | h4
    · cases h4
    rcases mem_pySub _ _ _ c h4 with h5 | h5
    · cases h5
    rcases mem_pySub _ _ _ c h5 with h6 | h6
    · cases h6
    exact hcore c h6

end TitleNormalizer

theorem dropWhile_head_neg {p : Char → Bool} {l : Str} {h0 : Char}
    (h : (l.dropWhile p).head? = some h0) : p h0 = false := by
  induction l with
  | nil => simp at h
  | cons x t ih =>
    by_cases hx : p x = true
    · rw [List.dropWhile_cons_of_pos hx] at h
      exact ih h
    · rw [List.dropWhile_cons_of_neg hx] at h
      simp at h
      rw [← h]
      simpa using hx

theorem dropWhile_id_of_head {p : Char → Bool} {l : Str}
    (h : ∀ h0, l.head? = some h0 → p h0 = false) : l.dropWhile p = l := by
  cases l with
  | nil => rfl
  | cons x t =>
    exact List.dropWhile_cons_of_neg (by simp [h x rfl])

theorem pyStrip_id {l : Str}
    (hh : ∀ h0, l.head? = some h0 → isPySpace h0 = false)
    (hl : ∀ h0, l.reverse.head? = some h0 → isPySpace h0 = false) : pyStrip l = l := by
  unfold pyStrip
  rw [dropWhile_id_of_head hh, dropWhile_id_of_head hl, List.reverse_reverse]

theorem chain'_of_nospace {y : Str} (h : ∀ c ∈ y, isPySpace c = false) :
    List.Chain' (fun a b => ¬(isPySpace a = true ∧ isPySpace b = true)) y := by
  induction y with
  | nil => exact List.chain'_nil
  | cons c t ih =>
    rw [List.chain'_cons']
    refine ⟨?_, ih (fun x hx => h x (List.mem_cons_of_mem c hx))⟩
    intro b _ hb
    rw [h c (List.mem_cons_self _ _)] at hb
    exact absurd hb.1 (by simp)

theorem subGo_ws_id :
    ∀ (f : Nat) (s : Str) (prev : Option Char), s.length < f →
      (∀ c ∈ s, isPySpace c = true → c = ' ') →
      List.Chain' (fun a b => ¬(isPySpace a = true ∧ isPySpace b = true)) s →
      subGo (RE.plusC isPySpace) [' '] f prev s = s := by
  intro f
  induction f with
  | zero =>
    intro s prev h
    omega
  | succ f ih =>
    intro s prev h hA hB
    rcases s with _ | ⟨c, t⟩
    · rfl
    · simp only [List.length_cons] at h
      have hAt : ∀ x ∈ t, isPySpace x = true → x = ' ' :=
        fun x hx => hA x (List.mem_cons_of_mem c hx)
      have hBt : List.Chain' (fun a b => ¬(isPySpace a = true ∧ isPySpace b = true)) t :=
        (List.chain'_cons'.mp hB).2
      by_cases hc : isPySpace c = true
      · have hdw : t.dropWhile isPySpace = t := by
          apply dropWhile_id_of_head
          intro h0 hh0
          have hrel := (List.chain'_cons'.mp hB).1 h0 hh0
          by_cases hsp0 : isPySpace h0 = true
          · exact absurd ⟨hc, hsp0⟩ hrel
          · simpa using hsp0
        obtain ⟨pr2, hh⟩ := starAlts_head_dropWhile isPySpace t (some c)
        rw [hdw] at hh
        have hm : (mAll (RE.plusC isPySpace) prev (c :: t)).head? = some (pr2, t) := by
          unfold mAll
          simp only []
          rw [if_pos hc]
          exact hh
        have hlt : ¬ t.length = (c :: t).length := by
          simp only [List.length_cons]
          omega
        unfold subGo
        rw [hm]
        simp only []
        rw [if_neg hlt]
        rw [ih t pr2 (by omega) hAt hBt]
        rw [hA c (List.mem_cons_self _ _) hc]
        rfl
      · have hm : (mAll (RE.plusC isPySpace) prev (c :: t)).head? = none := by
          unfold mAll
          simp only []
          rw [if_neg hc]
          rfl
        unfold subGo
        rw [hm]
        simp only []
        rw [ih t (some c) (by omega) hAt hBt]

theorem subGo_ws_ok :
    ∀ (f : Nat) (s : Str) (prev : Option Char), s.length < f →
      (∀ c ∈ subGo (RE.plusC isPySpace) [' '] f prev s, isPySpace c = true → c = ' ') ∧
      List.Chain' (fun a b => ¬(isPySpace a = true ∧ isPySpace b = true))
        (subGo (RE.plusC isPySpace) [' '] f prev s) ∧
      (∀ h0, (subGo (RE.plusC isPySpace) [' '] f prev s).head? = some h0 →
        isPySpace h0 = true → ∃ s0, s.head? = some s0 ∧ isPySpace s0 = true) := by
  intro f
  induction f with
  | zero =>
    intro s prev h
    omega
  | succ f ih =>
    intro s prev h
    rcases s with _ | ⟨c, t⟩
    · have hnil : subGo (RE.plusC isPySpace) [' '] (f + 1) prev [] = [] := rfl
      rw [hnil]
      refine ⟨?_, ?_, ?_⟩
      · intro c hc
        cases hc
      · exact List.chain'_nil
      · intro h0 hh0
        cases hh0
    · simp only [List.length_cons] at h
      by_cases hc : isPySpace c = true
      · obtain ⟨pr2, hh⟩ := starAlts_head_dropWhile isPySpace t (some c)
        have hm : (mAll (RE.plusC isPySpace) prev (c :: t)).head? =
            some (pr2, t.dropWhile isPySpace) := by
          unfold mAll
          simp only []
          rw [if_pos hc]
          exact hh
        have hlen : (t.dropWhile isPySpace).length ≤ t.length := length_dropWhile_le' _ t
        have hlt : ¬ (t.dropWhile isPySpace).length = (c :: t).length := by
          simp only [List.length_cons]
          omega
        obtain ⟨ihA, ihB, ihH⟩ := ih (t.dropWhile isPySpace) pr2 (by omega)
        unfold subGo
        rw [hm]
        simp only []
        rw [if_neg hlt]
        refine ⟨?_, ?_, ?_⟩
        · intro x hx _
          rcases List.mem_cons.mp hx with h1 | h1
          · exact h1
          · rename_i hsp
            exact ihA x h1 hsp
        · rw [List.cons_append, List.nil_append]
          rw [List.chain'_cons']
          refine ⟨?_, ihB⟩
          intro b hb hcon
          have hspb := hcon.2
          obtain ⟨s0, hs0, hsp0⟩ := ihH b hb hspb
          have := dropWhile_head_neg hs0
          rw [hsp0] at this
          cases this
        · intro h0 hh0 _
          exact ⟨c, rfl, hc⟩
      · have hm : (mAll (RE.plusC isPySpace) prev (c :: t)).head? = none := by
          unfold mAll
          simp only []
          rw [if_neg hc]
          rfl
        obtain ⟨ihA, ihB, ihH⟩ := ih t (some c) (by omega)
        unfold subGo
        rw [hm]
        simp only []
        refine ⟨?_, ?_, ?_⟩
        · intro x hx hsp
          rcases List.mem_cons.mp hx with h1 | h1
          · rw [h1] at hsp
            exact absurd hsp hc
          · exact ihA x h1 hsp
        · rw [List.chain'_cons']
          refine ⟨?_, ihB⟩
          intro b _ hcon
          exact absurd hcon.1 hc
        · intro h0 hh0 hsp
          simp at hh0
          rw [hh0] at hc
          exact absurd hsp hc

theorem chain'_dropWhile {R : Char → Char → Prop} {p : Char → Bool} {l : Str}
    (h : List.Chain' R l) : List.Chain' R (l.dropWhile p) := by
  induction l with
  | nil => simp
  | cons x t ih =>
    by_cases hx : p x = true
    · rw [List.dropWhile_cons_of_pos hx]
      exact ih (List.chain'_cons'.mp h).2
    · rw [List.dropWhile_cons_of_neg hx]
      exact h

theorem chain'_ws_rev {l : Str}
    (h : List.Chain' (fun a b => ¬(isPySpace a = true ∧ isPySpace b = true)) l) :
    List.Chain' (fun a b => ¬(isPySpace a = true ∧ isPySpace b = true)) l.reverse := by
  rw [List.chain'_reverse]
  exact List.Chain'.imp (fun a b hab hc => hab ⟨hc.2, hc.1⟩) h

theorem dropWhile_suffix' {p : Char → Bool} (l : Str) : l.dropWhile p <:+ l := by
  induction l with
  | nil => exact List.suffix_refl []
  | cons x t ih =>
    by_cases hx : p x = true
    · rw [List.dropWhile_cons_of_pos hx]
      exact ih.trans (List.suffix_cons x t)
    · rw [List.dropWhile_cons_of_neg hx]

theorem prefix_head {u v : Str} (h : u <+: v) {h0 : Char} (hh : u.head? = some h0) :
    v.head? = some h0 := by
  obtain ⟨w, hw⟩ := h
  rw [← hw]
  cases u with
  | nil => cases hh
  | cons a t => simpa using hh

namespace TitleNormalizer

theorem wsCollapse_ok (s : Str) :
    (∀ c ∈ wsCollapse s, isPySpace c = true → c = ' ') ∧
    List.Chain' (fun a b => ¬(isPySpace a = true ∧ isPySpace b = true)) (wsCollapse s) ∧
    (∀ h0, (wsCollapse s).head? = some h0 → isPySpace h0 = false) ∧
    (∀ h0, (wsCollapse s).reverse.head? = some h0 → isPySpace h0 = false) := by
  obtain ⟨hA, hB, _⟩ := subGo_ws_ok (s.length + 1) s none (Nat.lt_succ_self _)
  have heq : pySub ws1 [' '] s =
      subGo (RE.plusC isPySpace) [' '] (s.length + 1) none s := rfl
  have hcol : wsCollapse s =
      (((pySub ws1 [' '] s).dropWhile isPySpace).reverse.dropWhile isPySpace).reverse := rfl
  rw [hcol]
  refine ⟨?_, ?_, ?_, ?_⟩
  · intro c hc
    rw [List.mem_reverse] at hc
    have h2 := mem_dropWhile hc
    rw [List.mem_reverse] at h2
    have h3 := mem_dropWhile h2
    rw [heq] at h3
    exact hA c h3
  · apply chain'_ws_rev
    apply chain'_dropWhile
    apply chain'_ws_rev
    apply chain'_dropWhile
    rw [heq]
    exact hB
  · intro h0 hh0
    have hpre : (((pySub ws1 [' '] s).dropWhile isPySpace).reverse.dropWhile
        isPySpace).reverse <+: (pySub ws1 [' '] s).dropWhile isPySpace := by
      have hs := @dropWhile_suffix' isPySpace
        (((pySub ws1 [' '] s).dropWhile isPySpace).reverse)
      have := hs.reverse
      rwa [List.reverse_reverse] at this
    have := prefix_head hpre hh0
    exact dropWhile_head_neg this
  · intro h0 hh0
    rw [List.reverse_reverse] at hh0
    exact dropWhile_head_neg hh0

theorem wsCollapse_idem (s : Str) : wsCollapse (wsCollapse s) = wsCollapse s := by
  obtain ⟨hA, hB, hh, hl⟩ := wsCollapse_ok s
  show pyStrip (pySub ws1 [' '] (wsCollapse s)) = wsCollapse s
  have hid : pySub ws1 [' '] (wsCollapse s) = wsCollapse s :=
    subGo_ws_id ((wsCollapse s).length + 1) _ none (Nat.lt_succ_self _) hA hB
  rw [hid]
  exact pyStrip_id hh hl

theorem wsCollapse_id_of_nospace {y : Str} (h : ∀ c ∈ y, isPySpace c = false) :
    wsCollapse y = y := by
  show pyStrip (pySub ws1 [' '] y) = y
  have hid : pySub ws1 [' '] y = y :=
    subGo_ws_id (y.length + 1) y none (Nat.lt_succ_self _)
      (fun c hc hsp => absurd hsp (by simp [h c hc]))
      (chain'_of_nospace h)
  rw [hid]
  refine pyStrip_id (fun h0 hh0 => ?_) (fun h0 hh0 => ?_)
  · exact h h0 (List.mem_of_mem_head? hh0)
  · have := List.mem_of_mem_head? hh0
    rw [List.mem_reverse] at this
    exact h h0 this

end TitleNormalizer

namespace TitleNormalizer

theorem bracketFold_id {y : Str} (h : ∀ c ∈ y, ∀ p ∈ bracketPairs, c ≠ p.1) :
    bracketFold y = y := by
  rw [bracketFold_eq_map]
  apply map_id_of
  intro c hc
  exact foldl_if_id bracketPairs c (h c hc)

theorem replaceChar_id {k : Char} {v y : Str} (h : k ∉ y) : replaceChar k v y = y := by
  unfold replaceChar
  induction y with
  | nil => rfl
  | cons x t ih =>
    rw [List.flatMap_cons]
    have hxk : ¬ x = k := fun he => h (by rw [← he]; exact List.mem_cons_self x t)
    rw [if_neg hxk]
    rw [List.singleton_append]
    rw [ih (fun hk => h (List.mem_cons_of_mem x hk))]

theorem kanjiFold_id {y : Str} (h : ∀ c ∈ y, ∀ p ∈ kanjiPairs, c ≠ p.1) :
    kanjiFold y = y := by
  unfold kanjiFold
  have key : ∀ (ps : List (Char × Str)) (u : Str), (∀ p ∈ ps, p.1 ∉ u) →
      ps.foldl (fun t p => replaceChar p.1 p.2 t) u = u := by
    intro ps
    induction ps with
    | nil => intro u _; rfl
    | cons p pt ih =>
      intro u hu
      simp only [List.foldl_cons]
      rw [replaceChar_id (hu p (List.mem_cons_self _ _))]
      exact ih u (fun q hq => hu q (List.mem_cons_of_mem p hq))
  exact key kanjiPairs y (fun p hp hmem => h p.1 hmem p hp rfl)

theorem articleFold_id {y : Str} (h : ∀ c ∈ y, isPySpace c = false) :
    articleFold y = y := by
  have key : ∀ (a : String), ' ' ∈ a.data → ¬ a.data.isPrefixOf y = true := by
    intro a hsp hpre
    rw [List.isPrefixOf_iff_prefix] at hpre
    have h2 := h ' ' (hpre.subset hsp)
    exact absurd h2 (by decide)
  unfold articleFold
  simp only [List.foldl_cons, List.foldl_nil]
  rw [if_neg (key "the " (by decide)), if_neg (key "a " (by decide)),
    if_neg (key "an " (by decide))]

theorem mem_of_findSub {sep y : Str} (h : (findSub sep y).isSome) :
    ∀ c ∈ sep, c ∈ y := by
  induction y with
  | nil =>
    unfold findSub at h
    split at h
    · rename_i hsep
      rw [hsep]
      intro c hc
      cases hc
    · cases h
  | cons x t ih =>
    unfold findSub at h
    by_cases hpre : sep.isPrefixOf (x :: t) = true
    · rw [List.isPrefixOf_iff_prefix] at hpre
      exact fun c hc => hpre.subset hc
    · rw [if_neg hpre] at h
      rw [Option.isSome_map'] at h
      exact fun c hc => List.mem_cons_of_mem x (ih h c hc)

theorem subtitleCut_id {y : Str} (hsp : ∀ c ∈ y, isPySpace c = false)
    (hfw : ∀ c ∈ y, fwChar c = c) : subtitleCut y = y := by
  have hnone : subtitleSeps.find? (fun sep => (findSub sep y).isSome) = none := by
    rw [List.find?_eq_none]
    intro sep hsep
    intro hsome
    have hmem := mem_of_findSub hsome
    have hdis : ' ' ∈ sep ∨ '／' ∈ sep := by
      have hall : ∀ q ∈ subtitleSeps, ' ' ∈ q ∨ '／' ∈ q := by decide
      exact hall sep hsep
    rcases hdis with hd | hd
    · have h2 := hsp ' ' (hmem ' ' hd)
      exact absurd h2 (by decide)
    · have h2 := hfw '／' (hmem '／' hd)
      exact absurd h2 (by decide)
  unfold subtitleCut
  rw [hnone]

end TitleNormalizer

namespace TitleNormalizer

theorem normalize_id_of_invariants (ag : Bool) (y : Str)
    (hinv : ∀ c ∈ y, fwChar c = c ∧ lowerChar c = c ∧
      (∀ p ∈ bracketPairs, c ≠ p.1) ∧ (∀ p ∈ kanjiPairs, c ≠ p.1))
    (hco : wsCollapse y = y)
    (hsp : ag = true → ∀ c ∈ y, isPySpace c = false)
    (hNf : nfkcApprox y = y)
    (hEd : editionStrip y = y) (hPc : normalizePunctuation y = y)
    (hPar : ag = true → pySub parenRE [] y = y ∧ pySub sqbrRE [] y = y ∧
      pySub angleRE [] y = y) :
    normalize ag y = y := by
  by_cases hy0 : y = []
  · rw [hy0]
    rfl
  unfold normalize
  rw [if_neg hy0]
  simp only []
  have h1 : nfkcApprox y = y := hNf
  have h2 : fullwidthToHalfwidth y = y := map_id_of (fun c hc => (hinv c hc).1)
  have h3 : bracketFold y = y := bracketFold_id (fun c hc => (hinv c hc).2.2.1)
  have h4 : kanjiFold y = y := kanjiFold_id (fun c hc => (hinv c hc).2.2.2)
  have h5 : y.map lowerChar = y := map_id_of (fun c hc => (hinv c hc).2.1)
  rw [h1, h2, h3, h4, hEd, h5, hPc, hco]
  cases ag with
  | false =>
    rw [if_neg (by simp)]
    exact hco
  | true =>
    rw [if_pos (by simp)]
    obtain ⟨hp1, hp2, hp3⟩ := hPar rfl
    rw [hp1, hp2, hp3, articleFold_id (hsp rfl), subtitleCut_id (hsp rfl)
      (fun c hc => (hinv c hc).1)]
    rw [show ws1 = RE.plusC isPySpace from rfl, pySub_plusC]
    apply List.filter_eq_self.mpr
    intro c hc
    rw [hsp rfl c hc]
    rfl

theorem wsCollapse_normalize (ag : Bool) (t : Str) :
    wsCollapse (normalize ag t) = normalize ag t := by
  cases ag with
  | true => exact wsCollapse_id_of_nospace (normalize_true_nospace t)
  | false =>
    by_cases h0 : t = []
    · rw [h0]
      decide
    · unfold normalize
      rw [if_neg h0]
      simp only []
      rw [if_neg (by simp)]
      exact wsCollapse_idem _

end TitleNormalizer

namespace PyRe

theorem dropWhile_ne_head {c : Char} {t : Str} (hc : c ∈ t) :
    (t.dropWhile (fun x => x != c)).head? = some c := by
  induction t with
  | nil => cases hc
  | cons d r ih =>
    by_cases hdc : d = c
    · rw [List.dropWhile_cons_of_neg (by simp [hdc])]
      rw [hdc]
      rfl
    · rw [List.dropWhile_cons_of_pos (by simp [hdc])]
      exact ih (by
        rcases List.mem_cons.mp hc with h | h
        · exact absurd h.symm hdc
        · exact h)

theorem grRE_shape (o c : Char) :
    catL [exC o, RE.starC (fun x => x != c), exC c]
      = RE.cat (exC o) (RE.cat (RE.starC (fun x => x != c))
          (RE.cat (exC c) RE.eps)) := rfl

theorem mAll_exC_cons (o : Char) (prev : Option Char) (x : Char) (t : Str) :
    mAll (exC o) prev (x :: t) = if x = o then [(some x, t)] else [] := by
  unfold exC mAll
  simp only []
  by_cases hxo : x = o
  · simp [hxo]
  · simp [hxo]

theorem grRE_mAll_eq (o c : Char) (prev : Option Char) (x : Char) (t : Str) :
    mAll (catL [exC o, RE.starC (fun x => x != c), exC c]) prev (x :: t)
      = if x = o then
          (starAlts (fun x => x != c) (some x) t).flatMap
            (fun pr => (mAll (exC c) pr.1 pr.2).flatMap
              (fun q => mAll RE.eps q.1 q.2))
        else [] := by
  rw [grRE_shape]
  show (mAll (exC o) prev (x :: t)).flatMap _ = _
  rw [mAll_exC_cons]
  by_cases hxo : x = o
  · rw [if_pos hxo, if_pos hxo]
    simp only [List.flatMap_cons, List.flatMap_nil, List.append_nil]
    rfl
  · rw [if_neg hxo, if_neg hxo]
    rfl

theorem grRE_match_exists {o c : Char} (prev : Option Char) (t : Str) (hc : c ∈ t) :
    mAll (catL [exC o, RE.starC (fun x => x != c), exC c]) prev (o :: t) ≠ [] := by
  rw [grRE_mAll_eq, if_pos rfl]
  intro hnil
  rw [List.flatMap_eq_nil_iff] at hnil
  have hhead := dropWhile_ne_head hc
  obtain ⟨pr2, hsa⟩ := starAlts_head_dropWhile (fun x => x != c) t (some o)
  have hmem : (pr2, t.dropWhile (fun x => x != c)) ∈
      starAlts (fun x => x != c) (some o) t := by
    rcases hsl : starAlts (fun x => x != c) (some o) t with _ | ⟨q, rest⟩
    · exact absurd hsl (starAlts_ne_nil _ _ _)
    · rw [hsl] at hsa
      simp at hsa
      rw [← hsa]
      exact List.mem_cons_self _ _
  have := hnil _ hmem
  rcases hdw : t.dropWhile (fun x => x != c) with _ | ⟨d, r⟩
  · rw [hdw] at hhead
    cases hhead
  · rw [hdw] at hhead this
    simp at hhead
    rw [mAll_exC_cons, if_pos hhead] at this
    simp [mAll] at this

theorem grRE_rem_lt {o c : Char} (prev : Option Char) (s : Str) :
    ∀ pr ∈ mAll (catL [exC o, RE.starC (fun x => x != c), exC c]) prev s,
      pr.2.length < s.length := by
  intro pr hpr
  rcases s with _ | ⟨x, t⟩
  · rw [grRE_shape] at hpr
    simp [mAll, exC] at hpr
  · rw [grRE_mAll_eq] at hpr
    by_cases hxo : x = o
    · rw [if_pos hxo] at hpr
      obtain ⟨q, hq, hpr2⟩ := List.mem_flatMap.mp hpr
      obtain ⟨q2, hq2, hpr3⟩ := List.mem_flatMap.mp hpr2
      have h1 : q.2 <:+ t := starAlts_rem_suffix _ t (some x) q hq
      have h2 : q2.2 <:+ q.2 := mAll_rem_suffix _ _ _ q2 hq2
      have h3 : pr.2 <:+ q2.2 := mAll_rem_suffix _ _ _ pr hpr3
      have := ((h3.trans h2).trans h1).length_le
      simp only [List.length_cons]
      omega
    · rw [if_neg hxo] at hpr
      cases hpr

theorem subGo_gr_noPair {o c : Char} :
    ∀ (f : Nat) (prev : Option Char) (s : Str), s.length < f →
      ¬ ([o, c].Sublist
        (subGo (catL [exC o, RE.starC (fun x => x != c), exC c]) [] f prev s)) := by
  intro f
  induction f with
  | zero =>
    intro prev s h
    omega
  | succ f ih =>
    intro prev s h
    unfold subGo
    rcases hm : (mAll (catL [exC o, RE.starC (fun x => x != c), exC c]) prev s).head?
      with _ | ⟨p2, rem⟩
    · simp only []
      rcases s with _ | ⟨x, t⟩
      · intro hsl
        rw [List.sublist_nil] at hsl
        simp at hsl
      · simp only [List.length_cons] at h
        intro hsl
        cases hsl with
        | cons _ h2 => exact ih (some x) t (by omega) h2
        | cons₂ _ h2 =>
          have hct : c ∈ t := by
            have hmem := List.singleton_sublist.mp h2
            have := (subGo_sublist _ f (some o) t).subset hmem
            exact this
          have hex := @grRE_match_exists o c prev t hct
          rw [List.head?_eq_none_iff] at hm
          exact hex hm
    · simp only []
      have hhm : (p2, rem) ∈ mAll (catL [exC o, RE.starC (fun x => x != c), exC c]) prev s := by
        rcases hall : mAll (catL [exC o, RE.starC (fun x => x != c), exC c]) prev s
          with _ | ⟨q, rest⟩
        · rw [hall] at hm
          cases hm
        · rw [hall] at hm
          simp at hm
          rw [← hm]
          exact List.mem_cons_self _ _
      have hlt : rem.length < s.length := grRE_rem_lt prev s (p2, rem) hhm
      rw [if_neg (by omega)]
      simp only [List.nil_append]
      exact ih p2 rem (by omega)

theorem pySub_gr_noPair {o c : Char} (s : Str) :
    ¬ ([o, c].Sublist (pySub (catL [exC o, RE.starC (fun x => x != c), exC c]) [] s)) :=
  subGo_gr_noPair (s.length + 1) none s (Nat.lt_succ_self _)

end PyRe

namespace PyRe

theorem grRE_mAll_nil_of {o c : Char} (prev : Option Char) (s : Str)
    (h : ¬ [o, c].Sublist s) :
    mAll (catL [exC o, RE.starC (fun x => x != c), exC c]) prev s = [] := by
  rcases s with _ | ⟨x, t⟩
  · rw [grRE_shape]
    rfl
  · rw [grRE_mAll_eq]
    by_cases hxo : x = o
    · rw [if_pos hxo]
      have hct : c ∉ t := by
        intro hc
        apply h
        rw [hxo]
        exact List.Sublist.cons₂ o (List.singleton_sublist.mpr hc)
      rw [List.flatMap_eq_nil_iff]
      intro q hq
      have hsfx : q.2 <:+ t := starAlts_rem_suffix _ t (some x) q hq
      rcases hq2 : q.2 with _ | ⟨d, r⟩
      · simp [exC, mAll]
      · have hdc : ¬ d = c := by
          intro he
          apply hct
          rw [← he]
          exact hsfx.subset (by rw [hq2]; exact List.mem_cons_self d r)
        rw [mAll_exC_cons, if_neg hdc]
        rfl
    · rw [if_neg hxo]

theorem subGo_gr_id {o c : Char} :
    ∀ (f : Nat) (prev : Option Char) (s : Str), ¬ [o, c].Sublist s →
      subGo (catL [exC o, RE.starC (fun x => x != c), exC c]) [] f prev s = s := by
  intro f
  induction f with
  | zero =>
    intro prev s _
    rfl
  | succ f ih =>
    intro prev s h
    have hm0 : mAll (catL [exC o, RE.starC (fun x => x != c), exC c]) prev s = [] :=
      grRE_mAll_nil_of prev s h
    unfold subGo
    rw [hm0]
    simp only [List.head?_nil]
    rcases s with _ | ⟨x, t⟩
    · rfl
    · simp only []
      rw [ih (some x) t (fun hsl => h (hsl.cons x))]

theorem pySub_gr_id {o c : Char} {s : Str} (h : ¬ [o, c].Sublist s) :
    pySub (catL [exC o, RE.starC (fun x => x != c), exC c]) [] s = s :=
  subGo_gr_id (s.length + 1) none s h

end PyRe

namespace TitleNormalizer

theorem articleFold_sublist (s : Str) : List.Sublist (articleFold s) s := by
  unfold articleFold
  have key : ∀ (arts : List String) (u : Str),
      List.Sublist (arts.foldl
        (fun t a => if a.data.isPrefixOf t then t.drop a.data.length else t) u) u := by
    intro arts
    induction arts with
    | nil =>
      intro u
      exact List.Sublist.refl u
    | cons a at' ih =>
      intro u
      simp only [List.foldl_cons]
      refine (ih _).trans ?_
      split
      · exact List.drop_sublist _ u
      · exact List.Sublist.refl u
  exact key _ s

theorem subtitleCut_sublist (s : Str) : List.Sublist (subtitleCut s) s := by
  unfold subtitleCut
  split
  · split
    · exact List.take_sublist _ s
    · exact List.Sublist.refl s
  · exact List.Sublist.refl s

theorem normalize_true_noPair (t : Str) :
    ¬ ['(', ')'].Sublist (normalize true t) ∧
    ¬ ['[', ']'].Sublist (normalize true t) ∧
    ¬ ['<', '>'].Sublist (normalize true t) := by
  unfold normalize
  by_cases h0 : t = []
  · rw [if_pos h0]
    refine ⟨?_, ?_, ?_⟩ <;>
      (intro hsl; rw [List.sublist_nil] at hsl; simp at hsl)
  rw [if_neg h0]
  simp only []
  rw [if_pos trivial]
  refine ⟨?_, ?_, ?_⟩
  · intro hsl
    exact pySub_gr_noPair
      (wsCollapse (normalizePunctuation ((editionStrip (kanjiFold (bracketFold
        (fullwidthToHalfwidth (nfkcApprox t))))).map lowerChar)))
      (hsl.trans ((pySub_sublist _ _).trans ((subtitleCut_sublist _).trans
        ((articleFold_sublist _).trans ((pySub_sublist _ _).trans (pySub_sublist _ _))))))
  · intro hsl
    exact pySub_gr_noPair
      (pySub parenRE [] (wsCollapse (normalizePunctuation ((editionStrip (kanjiFold
        (bracketFold (fullwidthToHalfwidth (nfkcApprox t))))).map lowerChar))))
      (hsl.trans ((pySub_sublist _ _).trans ((subtitleCut_sublist _).trans
        ((articleFold_sublist _).trans (pySub_sublist _ _)))))
  · intro hsl
    exact pySub_gr_noPair
      (pySub sqbrRE [] (pySub parenRE [] (wsCollapse (normalizePunctuation
        ((editionStrip (kanjiFold (bracketFold
          (fullwidthToHalfwidth (nfkcApprox t))))).map lowerChar)))))
      (hsl.trans ((pySub_sublist _ _).trans ((subtitleCut_sublist _).trans
        (articleFold_sublist _))))

end TitleNormalizer

/-- C4 (amended): a single normalization pass need not be idempotent — the
edition-pattern and punctuation substitutions can find new matches spliced
together by the first pass, and the sequence-dependent part of NFKC can
compose a base letter with a combining mark that a splice made adjacent —
but these are the only obstructions: whenever the NFKC fold, the edition
strip and the punctuation pass all leave the once-normalized title
unchanged, a second full pass returns it verbatim (every other stage is
proven to fix the first pass's image, including the bracket-group removals,
which can never re-fire). -/
theorem claim_C4_conditional_idempotence (ag : Bool) (t : Str)
    (hNf : TitleNormalizer.nfkcApprox (TitleNormalizer.normalize ag t) =
      TitleNormalizer.normalize ag t)
    (hEd : TitleNormalizer.editionStrip (TitleNormalizer.normalize ag t) =
      TitleNormalizer.normalize ag t)
    (hPc : TitleNormalizer.normalizePunctuation (TitleNormalizer.normalize ag t) =
      TitleNormalizer.normalize ag t) :
    TitleNormalizer.normalize ag (TitleNormalizer.normalize ag t) =
      TitleNormalizer.normalize ag t := by
  refine TitleNormalizer.normalize_id_of_invariants ag (TitleNormalizer.normalize ag t)
    (TitleNormalizer.normalize_invariant ag t)
    (TitleNormalizer.wsCollapse_normalize ag t) ?_ hNf hEd hPc ?_
  · intro hag
    rw [hag]
    exact normalize_true_nospace t
  · intro hag
    subst hag
    obtain ⟨h1, h2, h3⟩ := TitleNormalizer.normalize_true_noPair t
    exact ⟨pySub_gr_id h1, pySub_gr_id h2, pySub_gr_id h3⟩

/-- Witness for C4 at a concrete title on the aggressive level. -/
theorem claim_C4_conditional_idempotence_witness :
    TitleNormalizer.normalize true (TitleNormalizer.normalize true
        "Corporate Finance".data) =
      TitleNormalizer.normalize true "Corporate Finance".data :=
  claim_C4_conditional_idempotence true "Corporate Finance".data
    (by decide) (by decide) (by decide)
